import Mathlib

/-!
# ApplyLanguageModelOnTheFly

A shallow embedding of `fstutils.applylmonthefly.hpp` (namespace `fst`): the on-the-fly
composition of a weighted automaton with an n-gram language model.

* `W` is `Arc::Weight` with `Times` written `*`, `F` is the `float` of the scores,
  `S` is `KenLMModelT::State`.
* `StateId` values of an automaton are natural numbers; `kNoStateId` is `none`.
* Word ids (`unsigned`) and labels (`int`) are unbounded; the compound key alone is
  reduced modulo `2 ^ 64`, as its `uint64_t` arithmetic is.
* The hash maps are association lists read with `lookup` (the newest binding wins).
* The function-local `static StateId lm` of `add` is the field `lm` of the engine state.
-/

set_option linter.unusedSectionVars false

namespace fst

/-! ## Containers -/

/-- Value stored under a key of a hash map (`find`), `none` when the key is absent. -/
def lookup {α β : Type} [DecidableEq α] : List (α × β) → α → Option β
  | [], _ => none
  | (a, b) :: rest, k => if k = a then some b else lookup rest k

/-- Assignment `m[k] = v`. -/
def assign {α β : Type} (m : List (α × β)) (k : α) (v : β) : List (α × β) :=
  (k, v) :: m

/-! ## Weighted automaton (`VectorFst<Arc>`) -/

/-- An arc `Arc(ilabel, olabel, weight, nextstate)`. -/
structure Arc (W : Type) where
  ilabel : Int
  olabel : Int
  weight : W
  nextstate : Nat
deriving DecidableEq

/-- A state of a `VectorFst`: its final weight and its arcs in insertion order. -/
structure VectorState (W : Type) where
  final : W
  arcs : List (Arc W)
deriving DecidableEq

/-- A `VectorFst`: the start state (`none` is `kNoStateId`) and the vector of states. -/
structure VectorFst (W : Type) where
  start : Option Nat
  states : List (VectorState W)
deriving DecidableEq

namespace VectorFst

variable {W : Type}

/-- A newly allocated automaton, `new VectorFst<Arc>`. -/
def new : VectorFst W := ⟨none, []⟩

/-- Number of states. -/
def NumStates (f : VectorFst W) : Nat := f.states.length

/-- Start state; an automaton without start state is outside the model and reads as 0. -/
def Start (f : VectorFst W) : Nat := f.start.getD 0

/-- Final weight of state `s`, with `zero` (the semiring `Zero()`) read outside the
vector, where the source has no defined behaviour. -/
def Final (zero : W) (f : VectorFst W) (s : Nat) : W :=
  match f.states[s]? with
  | some st => st.final
  | none => zero

/-- Arcs leaving state `s`, in the order `ArcIterator` visits them. -/
def arcsOf (f : VectorFst W) (s : Nat) : List (Arc W) :=
  match f.states[s]? with
  | some st => st.arcs
  | none => []

/-- Appends a state with final weight `zero` (the semiring `Zero()`) and no arcs. -/
def AddState (zero : W) (f : VectorFst W) : VectorFst W :=
  { f with states := f.states ++ [⟨zero, []⟩] }

/-- Sets the final weight of state `s` (no effect outside the vector). -/
def SetFinal (f : VectorFst W) (s : Nat) (w : W) : VectorFst W :=
  { f with states := f.states.modify (fun st => { st with final := w }) s }

/-- Sets the start state. -/
def SetStart (f : VectorFst W) (s : Nat) : VectorFst W :=
  { f with start := some s }

/-- Appends arc `a` to the arcs of state `s` (no effect outside the vector). -/
def AddArc (f : VectorFst W) (s : Nat) (a : Arc W) : VectorFst W :=
  { f with states := f.states.modify (fun st => { st with arcs := st.arcs ++ [a] }) s }

/-- Total number of arcs of the automaton. -/
def NumArcsTotal (f : VectorFst W) : Nat :=
  (f.states.map (fun st => st.arcs.length)).sum

end VectorFst

/-! ## Language model and engine configuration -/

/-- What the engine uses of `KenLMModelT` and of `StateHandler<State>`: the order, the
null context, `Score` (returning the log-probability and the out-state), the word array
of a state and the length `sh_.getLength` reports for it. -/
structure KenLMModel (S F : Type) where
  Order : Nat
  NullContextState : S
  Score : S → Nat → F × S
  words : S → Nat → Nat
  getLength : S → Nat

/-- The members fixed by the constructor, with the weight functor `mw_`, the constant
`ZPosInfinity()` and the semiring `Zero()` the code takes from its libraries. -/
structure Config (W F S : Type) where
  lmmodel_ : KenLMModel S F
  epsilons_ : List Int
  natlog10_ : F
  wp_ : F
  idbridge_ : Int → Nat
  mw_ : F → W
  ZPosInfinity : F
  Zero : W

/-- The mutable private members, and the static counter `lm` of `add`, which the engines
of one instantiation of the class template share in a process. The counter is a natural
number: the overflow of a signed `StateId` has no defined behaviour and is not modelled. -/
structure EngineState (W S : Type) where
  stateexistence_ : List (Nat × Nat)
  statemap_ : List (Nat × (Nat × S))
  seenlmstates_ : List (List Nat × Nat)
  composed_ : VectorFst W
  qc_ : List Nat
  history : List Nat
  lm : Nat
deriving DecidableEq

/-- The constant `sid`. -/
def sid : Nat := 1000000000

/-- The key `m1nextstate * sid + seenlmstates_[history]`, computed in `uint64_t`. -/
def compound (m1nextstate id : Nat) : Nat := (m1nextstate * sid + id) % 2 ^ 64

variable {W F S : Type}

/-- The state of an engine right after construction, when the static counter of `add`
holds `lm0`: empty maps, empty queue, `history` made of `Order()` zeros. `composed_` is
`NULL` there; it is never read before `operator()` replaces it. -/
def EngineState.fresh (E : Config W F S) (lm0 : Nat) : EngineState W S :=
  { stateexistence_ := [], statemap_ := [], seenlmstates_ := [],
    composed_ := VectorFst.new, qc_ := [],
    history := List.replicate E.lmmodel_.Order 0, lm := lm0 }

/-- The `memcpy ( buffer, state.words, buffersize )` of `getIdx`: the first
`Order() - 1` entries of the buffer are overwritten by the words of the state. -/
def memcpyWords (M : KenLMModel S F) (history : List Nat) (state : S) : List Nat :=
  (List.range history.length).map
    (fun k => if k < M.Order - 1 then M.words state k else history.getD k 0)

/-- The loop of `getIdx`: entries from `from_` on are set to 0. -/
def zeroFrom (history : List Nat) (from_ : Nat) : List Nat :=
  (List.range history.length).map (fun k => if from_ ≤ k then 0 else history.getD k 0)

/-- The new content of `history` after `getIdx ( state )`. -/
def getIdx (M : KenLMModel S F) (history : List Nat) (state : S) : List Nat :=
  zeroFrom (memcpyWords M history state) (M.getLength state)

/-- The history buffer of a state on an engine whose buffer is still as constructed. -/
def normalize (M : KenLMModel S F) (state : S) : List Nat :=
  getIdx M (List.replicate M.Order 0) state

section Engine

variable [DecidableEq W] [Mul W] [Mul F] [Zero F]

/-- The private method `add`: returns the pair (output state, already visited) and the
new engine state. -/
def add (E : Config W F S) (σ : EngineState W S) (m2nextstate : S) (m1nextstate : Nat)
    (m1stateweight : W) : (Nat × Bool) × EngineState W S :=
  let history := getIdx E.lmmodel_ σ.history m2nextstate
  let σ1 : EngineState W S :=
    match lookup σ.seenlmstates_ history with
    | none => { σ with history := history, lm := σ.lm + 1,
                       seenlmstates_ := assign σ.seenlmstates_ history (σ.lm + 1) }
    | some _ => { σ with history := history }
  let compound := compound m1nextstate ((lookup σ1.seenlmstates_ history).getD 0)
  match lookup σ1.stateexistence_ compound with
  | none =>
    let statemap := assign σ1.statemap_ σ1.composed_.NumStates (m1nextstate, m2nextstate)
    let composed := σ1.composed_.AddState E.Zero
    let composed :=
      if m1stateweight ≠ E.mw_ E.ZPosInfinity then
        composed.SetFinal (composed.NumStates - 1) m1stateweight
      else composed
    ((composed.NumStates - 1, false),
      { σ1 with statemap_ := statemap, composed_ := composed,
                stateexistence_ := assign σ1.stateexistence_ compound (composed.NumStates - 1) })
  | some st => ((st, true), σ1)

/-- The private method `get`: the pair stored in `statemap_` for an output state. Every
state the queue delivers has an entry; a missing one reads as a default pair. -/
def get (E : Config W F S) (σ : EngineState W S) (state : Nat) : Nat × S :=
  (lookup σ.statemap_ state).getD (0, E.lmmodel_.NullContextState)

/-- The scoring of one arc in `operator()`: from the context `s2` of the source state and
the output label of the arc, the triple (`w`, `wp`, `nextlmstate`). -/
def scoreArc (E : Config W F S) (s2 : S) (olabel : Int) : F × F × S :=
  if olabel ∉ E.epsilons_ then
    let r := E.lmmodel_.Score s2 (E.idbridge_ olabel)
    let w := r.1 * E.natlog10_
    if olabel ≤ 2 then
      (if olabel = 1 then 0 else w, 0, r.2)
    else (w, E.wp_, r.2)
  else (0, 0, s2)

/-- The body of the `for` loop of `operator()` for the arc `a1` leaving the original
state of the output state `s`, whose context is `s2`. -/
def visitArc (E : Config W F S) (fst_ : VectorFst W) (s : Nat) (s2 : S)
    (σ : EngineState W S) (a1 : Arc W) : EngineState W S :=
  let r := scoreArc E s2 a1.olabel
  let nextp := add E σ r.2.2 a1.nextstate (fst_.Final E.Zero a1.nextstate)
  let σ1 := nextp.2
  let newstate := nextp.1.1
  let visited := nextp.1.2
  let arc : Arc W := ⟨a1.ilabel, a1.olabel, a1.weight * (E.mw_ r.1 * E.mw_ r.2.1), newstate⟩
  let σ2 : EngineState W S := { σ1 with composed_ := σ1.composed_.AddArc s arc }
  if visited then σ2 else { σ2 with qc_ := σ2.qc_ ++ [newstate] }

/-- The body of the `while` loop of `operator()`: pops the front of the queue and visits
the arcs of its original state. -/
def expand (E : Config W F S) (fst_ : VectorFst W) (σ : EngineState W S) : EngineState W S :=
  match σ.qc_ with
  | [] => σ
  | s :: rest =>
    let p := get E σ s
    (fst_.arcsOf p.1).foldl (visitArc E fst_ s p.2) { σ with qc_ := rest }

/-- The `while ( qc_.size() )` loop, run for at most `fuel` iterations. -/
def traverse (E : Config W F S) (fst_ : VectorFst W) : Nat → EngineState W S → EngineState W S
  | 0, σ => σ
  | fuel + 1, σ => if σ.qc_ = [] then σ else traverse E fst_ fuel (expand E fst_ σ)

/-- The engine state when `operator()` enters its `while` loop on a non-empty input. -/
def initial (E : Config W F S) (σ : EngineState W S) (fst_ : VectorFst W) : EngineState W S :=
  let σ0 : EngineState W S := { σ with composed_ := VectorFst.new }
  let nextp := add E σ0 E.lmmodel_.NullContextState fst_.Start (fst_.Final E.Zero fst_.Start)
  let σ1 := nextp.2
  { σ1 with qc_ := σ1.qc_ ++ [nextp.1.1], composed_ := σ1.composed_.SetStart nextp.1.1 }

/-- The functor `operator()`: the returned pointer (`none` is `NULL`) and the engine state
it leaves. The registry is keyed by a 64-bit integer, so the loop cannot run more than
`2 ^ 64` iterations beyond the length of its queue (`traverse_terminates`). -/
def compose (E : Config W F S) (σ : EngineState W S) (fst_ : VectorFst W) :
    Option (VectorFst W) × EngineState W S :=
  if fst_.NumStates = 0 then (none, σ)
  else
    let σ1 := initial E σ fst_
    let σ2 := traverse E fst_ (2 ^ 64 + σ1.qc_.length) σ1
    (some σ2.composed_, σ2)

end Engine


/-! ## Definitions used to state the properties -/

section ProofDefs

variable {W F S : Type} [DecidableEq W] [Mul W] [Mul F] [Zero F]

/-- The buffer has `Order()` entries and its last entry, which `memcpy` never reaches,
is 0. -/
def HistOk (M : KenLMModel S F) (history : List Nat) : Prop :=
  history.length = M.Order ∧ history.getD (M.Order - 1) 0 = 0

/-- Lines 236-240 of `add`: the buffer is recomputed and interned. -/
def intern (E : Config W F S) (σ : EngineState W S) (m2nextstate : S) : EngineState W S :=
  match lookup σ.seenlmstates_ (getIdx E.lmmodel_ σ.history m2nextstate) with
  | none => { σ with history := getIdx E.lmmodel_ σ.history m2nextstate, lm := σ.lm + 1,
                     seenlmstates_ := assign σ.seenlmstates_
                       (getIdx E.lmmodel_ σ.history m2nextstate) (σ.lm + 1) }
  | some _ => { σ with history := getIdx E.lmmodel_ σ.history m2nextstate }

/-- Lines 241-253 of `add`: the compound key is looked up and, when new, registered. -/
def register (E : Config W F S) (σ1 : EngineState W S) (m2nextstate : S) (m1nextstate : Nat)
    (m1stateweight : W) : (Nat × Bool) × EngineState W S :=
  match lookup σ1.stateexistence_
      (compound m1nextstate ((lookup σ1.seenlmstates_ σ1.history).getD 0)) with
  | none =>
    ((σ1.composed_.NumStates, false),
      { σ1 with
        statemap_ := assign σ1.statemap_ σ1.composed_.NumStates (m1nextstate, m2nextstate),
        composed_ :=
          if m1stateweight ≠ E.mw_ E.ZPosInfinity then
            (σ1.composed_.AddState E.Zero).SetFinal σ1.composed_.NumStates m1stateweight
          else σ1.composed_.AddState E.Zero,
        stateexistence_ := assign σ1.stateexistence_
          (compound m1nextstate ((lookup σ1.seenlmstates_ σ1.history).getD 0))
          σ1.composed_.NumStates })
  | some st => ((st, true), σ1)

/-- Every binding of the interning index and of the registry of `σ` is still in `σ'`. -/
def Extends (σ σ' : EngineState W S) : Prop :=
  (∀ h c, lookup σ.seenlmstates_ h = some c → lookup σ'.seenlmstates_ h = some c) ∧
  (∀ k o, lookup σ.stateexistence_ k = some o → lookup σ'.stateexistence_ k = some o)

/-- Output state `o` is the one registered for original state `q` under the context id
of buffer `b`. -/
def Registered (σ : EngineState W S) (b : List Nat) (q o : Nat) : Prop :=
  ∃ c, lookup σ.seenlmstates_ b = some c ∧ lookup σ.stateexistence_ (compound q c) = some o

/-- States of the input that can be reached from its start state. -/
inductive Reach (fst_ : VectorFst W) : Nat → Prop
  | start : Reach fst_ fst_.Start
  | step {q : Nat} {a : Arc W} : Reach fst_ q → a ∈ fst_.arcsOf q → Reach fst_ a.nextstate

/-- Output arc `e` is what `operator()` builds for input arc `a` when the source state
has context `s2`: same labels, the decorated weight, and as target the output state
registered for the target of `a` under the buffer of the next context. -/
def ArcOk (E : Config W F S) (σ : EngineState W S) (s2 : S) (e a : Arc W) : Prop :=
  e.ilabel = a.ilabel ∧ e.olabel = a.olabel ∧
  e.weight = a.weight *
    (E.mw_ (scoreArc E s2 a.olabel).1 * E.mw_ (scoreArc E s2 a.olabel).2.1) ∧
  Registered σ (normalize E.lmmodel_ (scoreArc E s2 a.olabel).2.2) a.nextstate e.nextstate

/-- Input arcs of `q` that the traversal still has to visit for output state `o`: all of
them while `o` waits in the queue, `rest` for the state being expanded, none after. -/
def pending (fst_ : VectorFst W) (qc : List Nat) (cur : Nat) (rest : List (Arc W))
    (o q : Nat) : List (Arc W) :=
  if o ∈ qc then fst_.arcsOf q else if o = cur then rest else []

/-- The invariant of one composition by an engine constructed when the static counter
was `lm0`; `cur` is the output state being expanded and `rest` its arcs still to visit. -/
structure Inv (E : Config W F S) (fst_ : VectorFst W) (lm0 : Nat) (σ : EngineState W S)
    (cur : Nat) (rest : List (Arc W)) : Prop where
  hist : HistOk E.lmmodel_ σ.history
  lm_le : lm0 ≤ σ.lm
  seen_rng : ∀ b c, lookup σ.seenlmstates_ b = some c → lm0 < c ∧ c ≤ σ.lm
  seen_inj : ∀ b b' c, lookup σ.seenlmstates_ b = some c →
    lookup σ.seenlmstates_ b' = some c → b = b'
  dom : ∀ o, o < σ.composed_.NumStates ↔ lookup σ.statemap_ o ≠ none
  reg1 : ∀ o q s, lookup σ.statemap_ o = some (q, s) →
    Registered σ (normalize E.lmmodel_ s) q o
  reg2 : ∀ k o, lookup σ.stateexistence_ k = some o →
    ∃ q s c, lookup σ.statemap_ o = some (q, s) ∧
      lookup σ.seenlmstates_ (normalize E.lmmodel_ s) = some c ∧ k = compound q c
  fin : ∀ o q s, lookup σ.statemap_ o = some (q, s) →
    σ.composed_.Final E.Zero o =
      if fst_.Final E.Zero q ≠ E.mw_ E.ZPosInfinity then fst_.Final E.Zero q else E.Zero
  reach : ∀ o q s, lookup σ.statemap_ o = some (q, s) → Reach fst_ q
  qnd : σ.qc_.Nodup
  qlt : ∀ o ∈ σ.qc_, o < σ.composed_.NumStates
  cur_ok : rest ≠ [] → cur < σ.composed_.NumStates ∧ cur ∉ σ.qc_
  arcs : ∀ o q s, lookup σ.statemap_ o = some (q, s) →
    ∃ done, fst_.arcsOf q = done ++ pending fst_ σ.qc_ cur rest o q ∧
      List.Forall₂ (ArcOk E σ s) (σ.composed_.arcsOf o) done

/-- The automaton after `add` has appended a state with weight `w` for it. -/
def allocState (E : Config W F S) (c : VectorFst W) (w : W) : VectorFst W :=
  if w ≠ E.mw_ E.ZPosInfinity then (c.AddState E.Zero).SetFinal c.NumStates w
  else c.AddState E.Zero

/-- The engine state after `add` has registered a new output state for `(q, s)` under
`key` and `operator()` has pushed it on the queue. -/
def withNewState (E : Config W F S) (σ : EngineState W S) (s : S) (q : Nat) (w : W)
    (key : Nat) : EngineState W S :=
  { σ with statemap_ := assign σ.statemap_ σ.composed_.NumStates (q, s),
           composed_ := allocState E σ.composed_ w,
           stateexistence_ := assign σ.stateexistence_ key σ.composed_.NumStates,
           qc_ := σ.qc_ ++ [σ.composed_.NumStates] }

/-- What `operator()` does with the result of `add`: the state is pushed when new. -/
def pushNew (r : (Nat × Bool) × EngineState W S) : EngineState W S :=
  if r.1.2 then r.2 else { r.2 with qc_ := r.2.qc_ ++ [r.1.1] }

/-- Number of 64-bit keys that the registry does not bind yet. -/
def freeKeys (σ : EngineState W S) : Nat :=
  ((Finset.range (2 ^ 64)).filter (fun k => lookup σ.stateexistence_ k = none)).card

/-- The quantity that every iteration of the `while` loop decreases. -/
def fuelNeeded (σ : EngineState W S) : Nat := freeKeys σ + σ.qc_.length

end ProofDefs

section ShiftDefs

variable {W F S : Type}

/-- Two engine states that differ only by the value the static counter had when their
engines were constructed (`d` for `σ`, `d'` for `σ'`): same backmap, automaton, queue and
buffer, context ids shifted by the difference, registry keys shifted likewise modulo
`2 ^ 64`. -/
def SameUpToIds (d d' : Nat) (σ σ' : EngineState W S) : Prop :=
  σ.statemap_ = σ'.statemap_ ∧ σ.composed_ = σ'.composed_ ∧ σ.qc_ = σ'.qc_ ∧
  σ.history = σ'.history ∧ σ.lm + d' = σ'.lm + d ∧
  (∀ b, (lookup σ.seenlmstates_ b).map (fun c => c + d') =
    (lookup σ'.seenlmstates_ b).map (fun c => c + d)) ∧
  (∀ k k', k < 2 ^ 64 → k' < 2 ^ 64 → k + d' ≡ k' + d [MOD 2 ^ 64] →
    lookup σ.stateexistence_ k = lookup σ'.stateexistence_ k')

end ShiftDefs

/-! ## Statements of the properties -/

section Statements

variable {W F S : Type}

/-- The input is well formed: it has a start state, and the start state and the target
of every arc are states of the automaton. -/
def WellFormed (f : VectorFst W) : Prop :=
  f.start.isSome = true ∧ f.Start < f.NumStates ∧
    ∀ st ∈ f.states, ∀ a ∈ st.arcs, a.nextstate < f.NumStates

instance (f : VectorFst W) : Decidable (WellFormed f) := by
  unfold WellFormed; infer_instance

/-- Targets of the arcs leaving the states `qs`. -/
def succs (f : VectorFst W) (qs : List Nat) : List Nat :=
  qs.flatMap (fun q => (f.arcsOf q).map (fun a => a.nextstate))

/-- States reached from the start state by at most `k` arcs. -/
def reachSet (f : VectorFst W) : Nat → List Nat
  | 0 => [f.Start]
  | k + 1 => reachSet f k ++ succs f (reachSet f k)

/-- Every state of the automaton is reached from its start state. -/
def AllReachable (f : VectorFst W) : Prop :=
  ∀ q, q < f.NumStates → q ∈ reachSet f f.NumStates

instance (f : VectorFst W) : Decidable (AllReachable f) := by
  unfold AllReachable; infer_instance

/-- The arcs met from state `s` when taking at each state the arc of the given index;
`none` when an index is out of range. Every path of the automaton from `s` is met so. -/
def follow (f : VectorFst W) : Nat → List Nat → Option (List (Arc W))
  | _, [] => some []
  | s, j :: js =>
    match (f.arcsOf s)[j]? with
    | none => none
    | some a => (follow f a.nextstate js).map (fun p => a :: p)

/-- The model scores a context through its history buffer only: two context states with
the same buffer give a word the same log-probability and next contexts with the same
buffer. -/
def ScoresByBuffer (M : KenLMModel S F) : Prop :=
  ∀ s s', normalize M s = normalize M s' → ∀ v,
    (M.Score s v).1 = (M.Score s' v).1 ∧
      normalize M (M.Score s v).2 = normalize M (M.Score s' v).2

/-- No original state is paired with two output states of different context ids. -/
def NoStateUnderTwoContexts (E : Config W F S) (σ : EngineState W S) : Prop :=
  ∀ x ∈ σ.statemap_, ∀ y ∈ σ.statemap_, x.2.1 = y.2.1 →
    lookup σ.seenlmstates_ (normalize E.lmmodel_ x.2.2) =
      lookup σ.seenlmstates_ (normalize E.lmmodel_ y.2.2)

instance (E : Config W F S) (σ : EngineState W S) :
    Decidable (NoStateUnderTwoContexts E σ) := by
  unfold NoStateUnderTwoContexts; infer_instance

section Mapped

variable [DecidableEq W] [Mul W] [Mul F] [Zero F]

/-- The reserved-id policy read on the vocabulary id the label bridge gives: no word
penalty when the id is 1 or 2, the configured one otherwise, and no LM weight when the
id is 1. -/
def PolicyOnMappedId (E : Config W F S) : Prop :=
  ∀ (s2 : S) (l : Int), l ∉ E.epsilons_ →
    ((E.idbridge_ l = 1 ∨ E.idbridge_ l = 2) → (scoreArc E s2 l).2.1 = 0) ∧
    (¬ (E.idbridge_ l = 1 ∨ E.idbridge_ l = 2) → (scoreArc E s2 l).2.1 = E.wp_) ∧
    (E.idbridge_ l = 1 → (scoreArc E s2 l).1 = 0)

/-- The arc count of the output equals the arc count of the whole input whenever no
state is reached under two context ids. -/
def ArcCountPreserved (E : Config W F S) (fst_ : VectorFst W) (lm0 : Nat) : Prop :=
  NoStateUnderTwoContexts E (compose E (EngineState.fresh E lm0) fst_).2 →
    ∀ out, (compose E (EngineState.fresh E lm0) fst_).1 = some out →
      out.NumArcsTotal = fst_.NumArcsTotal

end Mapped

section Paths

variable [DecidableEq W] [CommMonoid W] [Mul F] [Zero F]

/-- Product of the weights of the arcs of a path. -/
def pathWeight (p : List (Arc W)) : W := (p.map (fun a => a.weight)).prod

/-- Part (b) of the path-weight round trip, from its statement: the LM weights of a label
sequence replayed through the model from context `s`. Epsilon labels are skipped, label 1
weighs nothing, any other label weighs its scaled log-probability in the current
context. -/
def replayLM (E : Config W F S) : S → List Int → W
  | _, [] => 1
  | s, l :: ls =>
    if l ∈ E.epsilons_ then replayLM E s ls
    else
      E.mw_ (if l = 1 then 0 else (E.lmmodel_.Score s (E.idbridge_ l)).1 * E.natlog10_) *
        replayLM E (E.lmmodel_.Score s (E.idbridge_ l)).2 ls

/-- Part (c) of the path-weight round trip, from its statement: the word penalty, once for
every label that is neither epsilon nor at most 2. -/
def wordPenalties (E : Config W F S) (ls : List Int) : W :=
  E.mw_ E.wp_ ^ (ls.filter (fun l => l ∉ E.epsilons_ ∧ ¬ l ≤ 2)).length

/-- The path-weight round trip for the composition of `fst_` by a fresh engine: every
path of the output from its start state follows, arc index by arc index, a path of the
input from its start state with the same labels and through the paired states, and its
weight is the product of the weight of that path, of the replayed LM weights and of the
word penalties. -/
def PathWeightRoundTrip (E : Config W F S) (fst_ : VectorFst W) (lm0 : Nat) : Prop :=
  ∀ out, (compose E (EngineState.fresh E lm0) fst_).1 = some out →
    ∀ idxs p, follow out out.Start idxs = some p →
      ∃ pin, follow fst_ fst_.Start idxs = some pin ∧
        List.Forall₂ (fun e a => e.ilabel = a.ilabel ∧ e.olabel = a.olabel ∧
          ∃ s', lookup (compose E (EngineState.fresh E lm0) fst_).2.statemap_ e.nextstate
            = some (a.nextstate, s')) p pin ∧
        pathWeight p = pathWeight pin *
          replayLM E E.lmmodel_.NullContextState (p.map (fun a => a.olabel)) *
          wordPenalties E (p.map (fun a => a.olabel))

end Paths

end Statements

/-! ## Test data -/

/-- A bigram model whose context state is the last word: `Order()` is 2, the reported
length is always 1, the log-probability of `v` after `s` is `-(s + v + 1)`. -/
def bigramModel : KenLMModel Nat Int where
  Order := 2
  NullContextState := 0
  Score := fun s v => (-((s : Int) + (v : Int) + 1), v)
  words := fun s k => if k = 0 then s else 0
  getLength := fun _ => 1

/-- Costs added along a path: `Times` is the sum, the sentinel is the cost 1000000, the
scale is 1 with base-10 scores, the word penalty is 7, label 0 is the only epsilon. -/
def toyConfig : Config (Multiplicative Int) Int Nat where
  lmmodel_ := bigramModel
  epsilons_ := [0]
  natlog10_ := -1
  wp_ := 7
  idbridge_ := fun l => l.toNat
  mw_ := fun x => Multiplicative.ofAdd x
  ZPosInfinity := 1000000
  Zero := Multiplicative.ofAdd 1000000

/-- A lattice `0 -1-> 1 -5-> 2 -6-> 3 -2-> 4` with an epsilon arc from 1 to 2 beside the
arc of label 5; state 4 is final. -/
def toyFst : VectorFst (Multiplicative Int) :=
  ⟨some 0,
    [⟨Multiplicative.ofAdd 1000000, [⟨1, 1, Multiplicative.ofAdd 1, 1⟩]⟩,
     ⟨Multiplicative.ofAdd 1000000,
       [⟨5, 5, Multiplicative.ofAdd 2, 2⟩, ⟨0, 0, Multiplicative.ofAdd 3, 2⟩]⟩,
     ⟨Multiplicative.ofAdd 1000000, [⟨6, 6, Multiplicative.ofAdd 4, 3⟩]⟩,
     ⟨Multiplicative.ofAdd 1000000, [⟨2, 2, Multiplicative.ofAdd 0, 4⟩]⟩,
     ⟨Multiplicative.ofAdd 0, []⟩]⟩

/-- A chain `0 -1-> 1 -5-> 2 -2-> 3`; state 3 is final. -/
def chainFst : VectorFst (Multiplicative Int) :=
  ⟨some 0,
    [⟨Multiplicative.ofAdd 1000000, [⟨1, 1, Multiplicative.ofAdd 1, 1⟩]⟩,
     ⟨Multiplicative.ofAdd 1000000, [⟨5, 5, Multiplicative.ofAdd 2, 2⟩]⟩,
     ⟨Multiplicative.ofAdd 1000000, [⟨2, 2, Multiplicative.ofAdd 0, 3⟩]⟩,
     ⟨Multiplicative.ofAdd 0, []⟩]⟩

/-- An automaton with no state. -/
def emptyFst : VectorFst (Multiplicative Int) := ⟨none, []⟩

/-- A final start state without arcs, and a state 1 that no path reaches, with one arc. -/
def unreachedFst : VectorFst (Multiplicative Int) :=
  ⟨some 0,
    [⟨Multiplicative.ofAdd 0, []⟩,
     ⟨Multiplicative.ofAdd 1000000, [⟨5, 5, Multiplicative.ofAdd 2, 0⟩]⟩]⟩

/-- The configuration `toyConfig` with a label bridge that sends label 5 to vocabulary
id 1 and label 1 to vocabulary id 7. -/
def bridgedConfig : Config (Multiplicative Int) Int Nat :=
  { toyConfig with idbridge_ := fun l => if l = 5 then 1 else if l = 1 then 7 else l.toNat }

/-- A context state of a trigram model: the word array and the valid length. -/
structure TrigramState where
  words : List Nat
  length : Nat
deriving DecidableEq

/-- A trigram model with variable-length contexts, most recent word first: the
log-probability of a word is `-(1 + number of context words used)`, and the next context
is the word followed by the most recent context word. Vocabulary id 0 is the unknown
word, a word like any other. -/
def trigramModel : KenLMModel TrigramState Int where
  Order := 3
  NullContextState := ⟨[0, 0], 0⟩
  Score := fun s v => (-((s.length : Int) + 1), ⟨[v, s.words.getD 0 0], min (s.length + 1) 2⟩)
  words := fun s k => s.words.getD k 0
  getLength := fun s => s.length

/-- The configuration `toyConfig` over the trigram model, with a label bridge that knows
labels 5 and 7 and sends every other label to the unknown word. -/
def trigramConfig : Config (Multiplicative Int) Int TrigramState where
  lmmodel_ := trigramModel
  epsilons_ := []
  natlog10_ := -1
  wp_ := 7
  idbridge_ := fun l => if l = 5 then 5 else if l = 7 then 7 else 0
  mw_ := fun x => Multiplicative.ofAdd x
  ZPosInfinity := 1000000
  Zero := Multiplicative.ofAdd 1000000

/-- State 2 is reached by the path of labels 9, 5 and by the arc of label 5; label 9 is
unknown to the model; state 3 is final. -/
def unknownWordFst : VectorFst (Multiplicative Int) :=
  ⟨some 0,
    [⟨Multiplicative.ofAdd 1000000,
       [⟨9, 9, Multiplicative.ofAdd 0, 1⟩, ⟨5, 5, Multiplicative.ofAdd 0, 2⟩]⟩,
     ⟨Multiplicative.ofAdd 1000000, [⟨5, 5, Multiplicative.ofAdd 0, 2⟩]⟩,
     ⟨Multiplicative.ofAdd 1000000, [⟨7, 7, Multiplicative.ofAdd 0, 3⟩]⟩,
     ⟨Multiplicative.ofAdd 0, []⟩]⟩

/-- The path of `toyFst` through the epsilon arc, as the output of the composition by
`toyConfig` decorates it. -/
def toyPath : List (Arc (Multiplicative Int)) :=
  [⟨1, 1, Multiplicative.ofAdd 1, 1⟩, ⟨0, 0, Multiplicative.ofAdd 3, 3⟩,
    ⟨6, 6, Multiplicative.ofAdd 19, 4⟩, ⟨2, 2, Multiplicative.ofAdd 9, 5⟩]

/-! ## The interning index, the queue trace and the constructor -/

section IndexDefs

variable {W F S : Type} [DecidableEq W] [Mul W] [Mul F] [Zero F]

/-- Two engine states with the same buffer, interning index and counter. -/
def SameIndex (σ τ : EngineState W S) : Prop :=
  σ.history = τ.history ∧ σ.seenlmstates_ = τ.seenlmstates_ ∧ σ.lm = τ.lm

/-- State `σ'` is a later state of the engine of `σ`: its buffer, interning index and
counter are those of `σ` after the contexts `ss` were interned in turn. -/
def Later (E : Config W F S) (σ σ' : EngineState W S) : Prop :=
  ∃ ss : List S, SameIndex σ' (ss.foldl (intern E) σ)

/-- The interning index is sound: no id is above the counter, and no two buffers hold the
same id. -/
def IndexOk (σ : EngineState W S) : Prop :=
  (∀ b c, lookup σ.seenlmstates_ b = some c → c ≤ σ.lm) ∧
  (∀ b b' c, lookup σ.seenlmstates_ b = some c → lookup σ.seenlmstates_ b' = some c → b = b')

/-- The buffers of the interning index are distinct, and the one entered in position `k`
(counting from 1, in order of entry) holds id `lm0 + k`; the counter is at the last id. -/
def IdsFrom (lm0 : Nat) (σ : EngineState W S) : Prop :=
  (σ.seenlmstates_.map Prod.fst).Nodup ∧
  (σ.seenlmstates_.reverse.map Prod.snd) = List.range' (lm0 + 1) σ.seenlmstates_.length ∧
  σ.lm = lm0 + σ.seenlmstates_.length

instance (lm0 : Nat) (σ : EngineState W S) : Decidable (IdsFrom lm0 σ) := by
  unfold IdsFrom; infer_instance

/-- The context id `seenlmstates_[history]` that `add` puts in the compound key when it is
called for the context `m2nextstate` in engine state `σ`. -/
def contextId (E : Config W F S) (σ : EngineState W S) (m2nextstate : S) : Nat :=
  (lookup (intern E σ m2nextstate).seenlmstates_ (intern E σ m2nextstate).history).getD 0

/-- What the visit of arc `a1` pushes on the queue: the state `add` returns, unless `add`
reports it as visited. -/
def pushedByArc (E : Config W F S) (fst_ : VectorFst W) (s2 : S) (σ : EngineState W S)
    (a1 : Arc W) : List Nat :=
  let nextp := add E σ (scoreArc E s2 a1.olabel).2.2 a1.nextstate
    (fst_.Final E.Zero a1.nextstate)
  if nextp.1.2 then [] else [nextp.1.1]

/-- What the `for` loop over the arcs pushes on the queue, in order. -/
def pushedByArcs (E : Config W F S) (fst_ : VectorFst W) (s : Nat) (s2 : S) :
    EngineState W S → List (Arc W) → List Nat
  | _, [] => []
  | σ, a :: rest =>
    pushedByArc E fst_ s2 σ a ++ pushedByArcs E fst_ s s2 (visitArc E fst_ s s2 σ a) rest

/-- What the `while` loop pushes on the queue, in order. -/
def pushedByLoop (E : Config W F S) (fst_ : VectorFst W) : Nat → EngineState W S → List Nat
  | 0, _ => []
  | fuel + 1, σ =>
    match σ.qc_ with
    | [] => []
    | s :: rest =>
      pushedByArcs E fst_ s (get E σ s).2 { σ with qc_ := rest } (fst_.arcsOf (get E σ s).1) ++
        pushedByLoop E fst_ fuel (expand E fst_ σ)

/-- All the states `operator()` pushes on the queue for a non-empty input, in order: the
state returned for the start state, then those of the `while` loop. -/
def pushed (E : Config W F S) (σ : EngineState W S) (fst_ : VectorFst W) : List Nat :=
  (add E { σ with composed_ := VectorFst.new } E.lmmodel_.NullContextState fst_.Start
      (fst_.Final E.Zero fst_.Start)).1.1 ::
    pushedByLoop E fst_ (2 ^ 64 + (initial E σ fst_).qc_.length) (initial E σ fst_)

/-- The states the `while` loop pops from the queue, in order. -/
def poppedByLoop (E : Config W F S) (fst_ : VectorFst W) : Nat → EngineState W S → List Nat
  | 0, _ => []
  | fuel + 1, σ =>
    match σ.qc_ with
    | [] => []
    | s :: _ => s :: poppedByLoop E fst_ fuel (expand E fst_ σ)

/-- The states `operator()` pops and expands for a non-empty input, in order. -/
def popped (E : Config W F S) (σ : EngineState W S) (fst_ : VectorFst W) : List Nat :=
  poppedByLoop E fst_ (2 ^ 64 + (initial E σ fst_).qc_.length) (initial E σ fst_)

/-- The context ids of the interning index start at 1: the k-th buffer entered holds
id k. -/
def IdsFromOne (σ : EngineState W S) : Prop := IdsFrom 0 σ

instance (σ : EngineState W S) : Decidable (IdsFromOne σ) := by
  unfold IdsFromOne; infer_instance

/-- The automaton of `σ'` has the states of `σ` and maybe more, and the backmap of `σ'`
still pairs the states of `σ` as `σ` does. -/
def Grows (σ σ' : EngineState W S) : Prop :=
  σ.composed_.NumStates ≤ σ'.composed_.NumStates ∧
  ∀ o, o < σ.composed_.NumStates → lookup σ'.statemap_ o = lookup σ.statemap_ o

end IndexDefs

section Constructor

variable {W F S : Type} [Neg F] [Mul F]

/-- The constructor. `mw` is the default-constructed weight functor, `zposinf` and `zero`
are `ZPosInfinity()` and the semiring `Zero()`, `ln10` is the value of `::log ( 10.0 )`. -/
def ApplyLanguageModelOnTheFly (model : KenLMModel S F) (epsilons : List Int)
    (natlog : Bool) (lmscale lmwp : F) (idbridge : Int → Nat) (mw : F → W) (zposinf : F)
    (zero : W) (ln10 : F) : Config W F S :=
  { lmmodel_ := model
    epsilons_ := epsilons
    natlog10_ := if natlog then -lmscale * ln10 else -lmscale
    wp_ := lmwp
    idbridge_ := idbridge
    mw_ := mw
    ZPosInfinity := zposinf
    Zero := zero }

end Constructor

/-- A cyclic automaton: state 0 loops on itself with label 5 and goes to the final state 1
with label 6, from which an arc of label 5 goes back to state 0. -/
def cycleFst : VectorFst (Multiplicative Int) :=
  ⟨some 0,
    [⟨Multiplicative.ofAdd 1000000,
       [⟨5, 5, Multiplicative.ofAdd 1, 0⟩, ⟨6, 6, Multiplicative.ofAdd 2, 1⟩]⟩,
     ⟨Multiplicative.ofAdd 0, [⟨5, 5, Multiplicative.ofAdd 3, 0⟩]⟩]⟩

/-! ## The breadth-first discovery order, from the specification -/

section SpecOrder

variable {W F S : Type}

/-- The context after an arc of output label `l` taken in context `s`, in the words of the
specification: carried through unchanged for a label of the epsilon set, else the next
context the model returns for the label mapped by the label bridge. -/
def specNextContext (E : Config W F S) (s : S) (l : Int) : S :=
  if l ∈ E.epsilons_ then s else (E.lmmodel_.Score s (E.idbridge_ l)).2

/-- The pair of original state `q` and context `s` is among the discovered pairs `disc`,
two context states with the same history buffer being the same for state splitting. -/
def specKnown (E : Config W F S) (disc : List (Nat × S)) (q : Nat) (s : S) : Bool :=
  disc.any (fun p => decide (p.1 = q ∧ normalize E.lmmodel_ p.2 = normalize E.lmmodel_ s))

/-- The discovery made through arc `a` leaving a pair of context `s`: the pair of the
target of `a` and the next context joins the end of the list unless it is known. -/
def specDiscoverArc (E : Config W F S) (s : S) (disc : List (Nat × S)) (a : Arc W) :
    List (Nat × S) :=
  if specKnown E disc a.nextstate (specNextContext E s a.olabel) then disc
  else disc ++ [(a.nextstate, specNextContext E s a.olabel)]

/-- The breadth-first traversal of the specification on the list of discovered pairs:
the pairs are expanded in the order of their discovery (`i` is the position of the next
pair to expand), the arcs of a pair in the arc order of the input; at most `fuel` pairs
are expanded. -/
def specRun (E : Config W F S) (fst_ : VectorFst W) :
    Nat → Nat × List (Nat × S) → Nat × List (Nat × S)
  | 0, x => x
  | fuel + 1, x =>
    match x.2[x.1]? with
    | none => x
    | some p => specRun E fst_ fuel
        (x.1 + 1, (fst_.arcsOf p.1).foldl (specDiscoverArc E p.2) x.2)

/-- The pairs of an original state and a context in the order of their first discovery by
the breadth-first traversal from the pair of the start state and the null context. -/
def specDiscovery (E : Config W F S) (fst_ : VectorFst W) (fuel : Nat) : List (Nat × S) :=
  (specRun E fst_ fuel (0, [(fst_.Start, E.lmmodel_.NullContextState)])).2

/-- Whatever the engine has composed before (the inputs `before`, in turn, since its
construction), on an input with at least one state `operator()` returns an automaton with
at least one state. -/
def NonEmptyGivesState [DecidableEq W] [Mul W] [Mul F] [Zero F] (E : Config W F S)
    (lm0 : Nat) (before : List (VectorFst W)) (fst_ : VectorFst W) : Prop :=
  fst_.NumStates ≠ 0 →
    ∃ out, (compose E (before.foldl (fun σ f => (compose E σ f).2)
      (EngineState.fresh E lm0)) fst_).1 = some out ∧ 1 ≤ out.NumStates

end SpecOrder

/-- An automaton of one state, final, without arcs. -/
def finalOnlyFst : VectorFst (Multiplicative Int) :=
  ⟨some 0, [⟨Multiplicative.ofAdd 0, []⟩]⟩

/-- A fork: from state 0 an arc of label 5 to state 1 and an arc of label 6 to the final
state 2. -/
def forkFst : VectorFst (Multiplicative Int) :=
  ⟨some 0,
    [⟨Multiplicative.ofAdd 1000000,
       [⟨5, 5, Multiplicative.ofAdd 1, 1⟩, ⟨6, 6, Multiplicative.ofAdd 2, 2⟩]⟩,
     ⟨Multiplicative.ofAdd 1000000, []⟩,
     ⟨Multiplicative.ofAdd 0, []⟩]⟩
/-! ## Containers and automaton: basic facts -/

section Basic

variable {α β : Type} [DecidableEq α]

theorem lookup_assign (m : List (α × β)) (k : α) (v : β) (x : α) :
    lookup (assign m k v) x = if x = k then some v else lookup m x := rfl

theorem lookup_assign_self (m : List (α × β)) (k : α) (v : β) :
    lookup (assign m k v) k = some v := by simp [lookup_assign]

theorem lookup_assign_of_ne (m : List (α × β)) (k : α) (v : β) {x : α} (h : x ≠ k) :
    lookup (assign m k v) x = lookup m x := by simp [lookup_assign, h]

/-- A binding survives the assignment of a key that was absent. -/
theorem lookup_assign_mono (m : List (α × β)) (k : α) (v : β) (hk : lookup m k = none)
    {x : α} {y : β} (h : lookup m x = some y) : lookup (assign m k v) x = some y := by
  have hne : x ≠ k := by
    intro hx
    rw [hx, hk] at h
    exact Option.noConfusion h
  rw [lookup_assign_of_ne m k v hne, h]

end Basic

namespace VectorFst

variable {W : Type}

@[simp] theorem NumStates_new : (new : VectorFst W).NumStates = 0 := rfl

@[simp] theorem NumStates_AddState (z : W) (f : VectorFst W) :
    (f.AddState z).NumStates = f.NumStates + 1 := by
  simp [AddState, NumStates]

@[simp] theorem NumStates_SetFinal (f : VectorFst W) (s : Nat) (w : W) :
    (f.SetFinal s w).NumStates = f.NumStates := by
  simp [SetFinal, NumStates]

@[simp] theorem NumStates_SetStart (f : VectorFst W) (s : Nat) :
    (f.SetStart s).NumStates = f.NumStates := rfl

@[simp] theorem NumStates_AddArc (f : VectorFst W) (s : Nat) (a : Arc W) :
    (f.AddArc s a).NumStates = f.NumStates := by
  simp [AddArc, NumStates]

@[simp] theorem arcsOf_AddState (z : W) (f : VectorFst W) (o : Nat) :
    (f.AddState z).arcsOf o = f.arcsOf o := by
  unfold arcsOf AddState
  rcases Nat.lt_trichotomy o f.states.length with h | h | h
  · simp [List.getElem?_append_left h]
  · subst h
    simp
  · have h1 : f.states.length + 1 ≤ o := h
    simp [List.getElem?_eq_none, h1, Nat.le_of_lt h]

@[simp] theorem arcsOf_SetFinal (f : VectorFst W) (s : Nat) (w : W) (o : Nat) :
    (f.SetFinal s w).arcsOf o = f.arcsOf o := by
  unfold arcsOf SetFinal
  simp only [List.getElem?_modify]
  by_cases h : s = o
  · subst h
    cases f.states[s]? <;> simp
  · simp [h]

@[simp] theorem arcsOf_SetStart (f : VectorFst W) (s : Nat) (o : Nat) :
    (f.SetStart s).arcsOf o = f.arcsOf o := rfl

theorem arcsOf_AddArc (f : VectorFst W) (s : Nat) (a : Arc W) (o : Nat) :
    (f.AddArc s a).arcsOf o =
      if o = s ∧ s < f.NumStates then f.arcsOf s ++ [a] else f.arcsOf o := by
  unfold arcsOf AddArc NumStates
  simp only [List.getElem?_modify]
  by_cases h : s = o
  · subst h
    by_cases hs : s < f.states.length
    · simp [hs, List.getElem?_eq_getElem hs]
    · simp [hs, List.getElem?_eq_none (Nat.le_of_not_lt hs)]
  · have h2 : ¬ o = s := fun e => h e.symm
    simp [h, h2]

@[simp] theorem Final_AddState (z : W) (f : VectorFst W) (o : Nat) :
    (f.AddState z).Final z o = f.Final z o := by
  unfold Final AddState
  rcases Nat.lt_trichotomy o f.states.length with h | h | h
  · simp [List.getElem?_append_left h]
  · subst h
    simp
  · have h1 : f.states.length + 1 ≤ o := h
    simp [List.getElem?_eq_none, h1, Nat.le_of_lt h]

@[simp] theorem Final_AddArc (z : W) (f : VectorFst W) (s : Nat) (a : Arc W) (o : Nat) :
    (f.AddArc s a).Final z o = f.Final z o := by
  unfold Final AddArc
  simp only [List.getElem?_modify]
  by_cases h : s = o
  · subst h
    cases f.states[s]? <;> simp
  · simp [h]

@[simp] theorem Final_SetStart (z : W) (f : VectorFst W) (s : Nat) (o : Nat) :
    (f.SetStart s).Final z o = f.Final z o := rfl

theorem Final_SetFinal (z : W) (f : VectorFst W) (s : Nat) (w : W) (o : Nat) :
    (f.SetFinal s w).Final z o =
      if o = s ∧ s < f.NumStates then w else f.Final z o := by
  unfold Final SetFinal NumStates
  simp only [List.getElem?_modify]
  by_cases h : s = o
  · subst h
    by_cases hs : s < f.states.length
    · simp [hs, List.getElem?_eq_getElem hs]
    · simp [hs, List.getElem?_eq_none (Nat.le_of_not_lt hs)]
  · have h2 : ¬ o = s := fun e => h e.symm
    simp [h, h2]

theorem arcsOf_of_le (f : VectorFst W) {o : Nat} (h : f.NumStates ≤ o) : f.arcsOf o = [] := by
  unfold arcsOf
  rw [List.getElem?_eq_none h]

end VectorFst

/-! ## The history buffer -/

section History

variable {S F : Type}

theorem getD_map_range (n : Nat) (f : Nat → Nat) (k : Nat) (h : k < n) :
    ((List.range n).map f).getD k 0 = f k := by
  simp [List.getD_eq_getElem?_getD, List.getElem?_map, List.getElem?_range h]

theorem length_getIdx (M : KenLMModel S F) (history : List Nat) (state : S) :
    (getIdx M history state).length = history.length := by
  simp [getIdx, zeroFrom, memcpyWords]

/-- Entry `k` of the buffer after `getIdx`. -/
theorem getIdx_getD (M : KenLMModel S F) (history : List Nat) (state : S) (k : Nat)
    (hk : k < history.length) :
    (getIdx M history state).getD k 0 =
      if M.getLength state ≤ k then 0
      else if k < M.Order - 1 then M.words state k else history.getD k 0 := by
  have hlen : (memcpyWords M history state).length = history.length := by
    simp [memcpyWords]
  unfold getIdx zeroFrom
  rw [getD_map_range _ _ _ (by rw [hlen]; exact hk)]
  unfold memcpyWords
  rw [getD_map_range _ _ _ hk]

theorem getIdx_eq_map (M : KenLMModel S F) (history : List Nat) (state : S) :
    getIdx M history state =
      (List.range history.length).map (fun k =>
        if M.getLength state ≤ k then 0
        else if k < M.Order - 1 then M.words state k else history.getD k 0) := by
  apply List.ext_getElem
  · simp [length_getIdx]
  · intro k h1 h2
    have hk : k < history.length := by simpa [length_getIdx] using h1
    have h := getIdx_getD M history state k hk
    rw [List.getD_eq_getElem?_getD, List.getElem?_eq_getElem h1] at h
    simp only [Option.getD_some] at h
    rw [h]
    simp [List.getElem_range]

theorem HistOk_replicate (M : KenLMModel S F) : HistOk M (List.replicate M.Order 0) := by
  constructor
  · simp
  · simp only [List.getD_eq_getElem?_getD, List.getElem?_replicate]
    split <;> rfl

/-- On a buffer whose last entry is 0, `getIdx` does not depend on the old content. -/
theorem getIdx_eq_normalize (M : KenLMModel S F) (history : List Nat) (state : S)
    (h : HistOk M history) : getIdx M history state = normalize M state := by
  unfold normalize
  rw [getIdx_eq_map, getIdx_eq_map]
  have hrep := HistOk_replicate M
  rw [h.1, hrep.1]
  apply List.map_congr_left
  intro k hk
  have hk1 : k < M.Order := List.mem_range.mp hk
  by_cases h1 : M.getLength state ≤ k
  · simp [h1]
  · by_cases h2 : k < M.Order - 1
    · simp [h1, h2]
    · have hk2 : k = M.Order - 1 := by omega
      simp only [h1, h2, if_false]
      rw [hk2, h.2, hrep.2]

theorem HistOk_getIdx (M : KenLMModel S F) (history : List Nat) (state : S)
    (h : HistOk M history) : HistOk M (getIdx M history state) := by
  refine ⟨by rw [length_getIdx, h.1], ?_⟩
  by_cases h0 : M.Order = 0
  · have hl : (getIdx M history state).length = 0 := by rw [length_getIdx, h.1, h0]
    have hnil : getIdx M history state = [] := List.length_eq_zero.mp hl
    rw [hnil]
    rfl
  · rw [getIdx_getD M history state _ (by rw [h.1]; omega)]
    by_cases h1 : M.getLength state ≤ M.Order - 1
    · simp [h1]
    · simp only [h1, if_false, lt_irrefl]
      exact h.2

theorem HistOk_normalize (M : KenLMModel S F) (state : S) : HistOk M (normalize M state) :=
  HistOk_getIdx M _ state (HistOk_replicate M)

end History

/-! ## The two halves of `add` -/

section AddHalves

variable {W F S : Type} [DecidableEq W] [Mul W] [Mul F] [Zero F]

theorem add_eq (E : Config W F S) (σ : EngineState W S) (s : S) (q : Nat) (w : W) :
    add E σ s q w = register E (intern E σ s) s q w := by
  unfold add register intern
  cases h : lookup σ.seenlmstates_ (getIdx E.lmmodel_ σ.history s) with
  | none =>
    simp only []
    split <;> split <;> simp_all
  | some c =>
    simp only []
    split <;> split <;> simp_all

end AddHalves

/-! ## The invariant of the traversal -/

section Invariant

variable {W F S : Type} [DecidableEq W] [Mul W] [Mul F] [Zero F]

theorem Extends.refl (σ : EngineState W S) : Extends σ σ := ⟨fun _ _ h => h, fun _ _ h => h⟩

theorem Extends.trans {σ σ' σ'' : EngineState W S} (h1 : Extends σ σ') (h2 : Extends σ' σ'') :
    Extends σ σ'' :=
  ⟨fun b c h => h2.1 b c (h1.1 b c h), fun k o h => h2.2 k o (h1.2 k o h)⟩

theorem Registered_mono {σ σ' : EngineState W S} (h : Extends σ σ') {b : List Nat} {q o : Nat}
    (hr : Registered σ b q o) : Registered σ' b q o := by
  obtain ⟨c, h1, h2⟩ := hr
  exact ⟨c, h.1 b c h1, h.2 _ o h2⟩

theorem ArcOk_mono {E : Config W F S} {σ σ' : EngineState W S} (h : Extends σ σ') {s2 : S}
    {e a : Arc W} (hr : ArcOk E σ s2 e a) : ArcOk E σ' s2 e a :=
  ⟨hr.1, hr.2.1, hr.2.2.1, Registered_mono h hr.2.2.2⟩

theorem intern_of_none (E : Config W F S) (σ : EngineState W S) (s : S)
    (h : lookup σ.seenlmstates_ (getIdx E.lmmodel_ σ.history s) = none) :
    intern E σ s =
      { σ with history := getIdx E.lmmodel_ σ.history s, lm := σ.lm + 1,
               seenlmstates_ := assign σ.seenlmstates_
                 (getIdx E.lmmodel_ σ.history s) (σ.lm + 1) } := by
  unfold intern; rw [h]

theorem intern_of_some (E : Config W F S) (σ : EngineState W S) (s : S) {c : Nat}
    (h : lookup σ.seenlmstates_ (getIdx E.lmmodel_ σ.history s) = some c) :
    intern E σ s = { σ with history := getIdx E.lmmodel_ σ.history s } := by
  unfold intern; rw [h]

@[simp] theorem intern_stateexistence (E : Config W F S) (σ : EngineState W S) (s : S) :
    (intern E σ s).stateexistence_ = σ.stateexistence_ := by
  unfold intern; split <;> rfl

@[simp] theorem intern_statemap (E : Config W F S) (σ : EngineState W S) (s : S) :
    (intern E σ s).statemap_ = σ.statemap_ := by
  unfold intern; split <;> rfl

@[simp] theorem intern_composed (E : Config W F S) (σ : EngineState W S) (s : S) :
    (intern E σ s).composed_ = σ.composed_ := by
  unfold intern; split <;> rfl

@[simp] theorem intern_qc (E : Config W F S) (σ : EngineState W S) (s : S) :
    (intern E σ s).qc_ = σ.qc_ := by
  unfold intern; split <;> rfl

@[simp] theorem intern_history (E : Config W F S) (σ : EngineState W S) (s : S) :
    (intern E σ s).history = getIdx E.lmmodel_ σ.history s := by
  unfold intern; split <;> rfl

theorem intern_lm_le (E : Config W F S) (σ : EngineState W S) (s : S) :
    σ.lm ≤ (intern E σ s).lm := by
  unfold intern; split <;> simp

/-- After interning, the buffer has a context id. -/
theorem intern_lookup_history (E : Config W F S) (σ : EngineState W S) (s : S) :
    ∃ c, lookup (intern E σ s).seenlmstates_ (getIdx E.lmmodel_ σ.history s) = some c := by
  unfold intern
  split
  · exact ⟨σ.lm + 1, lookup_assign_self _ _ _⟩
  · next c h => exact ⟨c, h⟩

theorem intern_seen_mono (E : Config W F S) (σ : EngineState W S) (s : S) {b : List Nat}
    {c : Nat} (h : lookup σ.seenlmstates_ b = some c) :
    lookup (intern E σ s).seenlmstates_ b = some c := by
  unfold intern
  split
  · next hn => exact lookup_assign_mono _ _ _ hn h
  · exact h

theorem intern_extends (E : Config W F S) (σ : EngineState W S) (s : S) :
    Extends σ (intern E σ s) :=
  ⟨fun _ _ h => intern_seen_mono E σ s h, fun k o h => by simpa using h⟩

/-- The invariant survives the interning of a buffer. -/
theorem Inv_intern {E : Config W F S} {fst_ : VectorFst W} {lm0 : Nat} {σ : EngineState W S}
    {cur : Nat} {rest : List (Arc W)} (hI : Inv E fst_ lm0 σ cur rest) (s : S) :
    Inv E fst_ lm0 (intern E σ s) cur rest := by
  have hext := intern_extends E σ s
  have hlm := intern_lm_le E σ s
  refine
    { hist := ?_, lm_le := le_trans hI.lm_le hlm, seen_rng := ?_, seen_inj := ?_, dom := ?_,
      reg1 := ?_, reg2 := ?_, fin := ?_, reach := ?_, qnd := ?_, qlt := ?_, cur_ok := ?_,
      arcs := ?_ }
  · rw [intern_history]
    exact HistOk_getIdx _ _ _ hI.hist
  · intro b c h
    cases hl : lookup σ.seenlmstates_ (getIdx E.lmmodel_ σ.history s) with
    | none =>
      rw [intern_of_none E σ s hl] at h ⊢
      simp only [lookup_assign] at h
      by_cases hb : b = getIdx E.lmmodel_ σ.history s
      · simp only [hb, if_true, Option.some.injEq] at h
        have := hI.lm_le
        simp only
        omega
      · simp only [hb, if_false] at h
        have := hI.seen_rng b c h
        simp only
        omega
    | some c' =>
      rw [intern_of_some E σ s hl] at h ⊢
      exact hI.seen_rng b c h
  · intro b b' c h h'
    cases hl : lookup σ.seenlmstates_ (getIdx E.lmmodel_ σ.history s) with
    | none =>
      rw [intern_of_none E σ s hl] at h h'
      simp only [lookup_assign] at h h'
      by_cases hb : b = getIdx E.lmmodel_ σ.history s
      · by_cases hb' : b' = getIdx E.lmmodel_ σ.history s
        · rw [hb, hb']
        · simp only [hb, if_true, Option.some.injEq] at h
          simp only [hb', if_false] at h'
          have := hI.seen_rng b' c h'
          omega
      · by_cases hb' : b' = getIdx E.lmmodel_ σ.history s
        · simp only [hb', if_true, Option.some.injEq] at h'
          simp only [hb, if_false] at h
          have := hI.seen_rng b c h
          omega
        · simp only [hb, if_false] at h
          simp only [hb', if_false] at h'
          exact hI.seen_inj b b' c h h'
    | some c' =>
      rw [intern_of_some E σ s hl] at h h'
      exact hI.seen_inj b b' c h h'
  · simpa using hI.dom
  · intro o q s' h
    rw [intern_statemap] at h
    exact Registered_mono hext (hI.reg1 o q s' h)
  · intro k o h
    rw [intern_stateexistence] at h
    obtain ⟨q, s', c, h1, h2, h3⟩ := hI.reg2 k o h
    exact ⟨q, s', c, by simpa using h1, hext.1 _ _ h2, h3⟩
  · simpa using hI.fin
  · simpa using hI.reach
  · simpa using hI.qnd
  · simpa using hI.qlt
  · simpa using hI.cur_ok
  · intro o q s' h
    rw [intern_statemap] at h
    obtain ⟨done, h1, h2⟩ := hI.arcs o q s' h
    refine ⟨done, by simpa using h1, ?_⟩
    rw [intern_composed]
    exact h2.imp (fun _ _ h => ArcOk_mono hext h)

end Invariant

section Steps

variable {W F S : Type} [DecidableEq W] [Mul W] [Mul F] [Zero F]

@[simp] theorem NumStates_allocState (E : Config W F S) (c : VectorFst W) (w : W) :
    (allocState E c w).NumStates = c.NumStates + 1 := by
  unfold allocState; split <;> simp

@[simp] theorem arcsOf_allocState (E : Config W F S) (c : VectorFst W) (w : W) (o : Nat) :
    (allocState E c w).arcsOf o = c.arcsOf o := by
  unfold allocState; split <;> simp

@[simp] theorem start_allocState (E : Config W F S) (c : VectorFst W) (w : W) :
    (allocState E c w).start = c.start := by
  unfold allocState; split <;> rfl

theorem Final_of_le (z : W) (f : VectorFst W) {o : Nat} (h : f.NumStates ≤ o) :
    f.Final z o = z := by
  unfold VectorFst.Final
  rw [List.getElem?_eq_none h]

theorem Final_allocState (E : Config W F S) (c : VectorFst W) (w : W) (o : Nat) :
    (allocState E c w).Final E.Zero o =
      if o = c.NumStates then (if w ≠ E.mw_ E.ZPosInfinity then w else E.Zero)
      else c.Final E.Zero o := by
  unfold allocState
  by_cases hw : w = E.mw_ E.ZPosInfinity
  · simp only [hw, ne_eq, not_true_eq_false, if_false, VectorFst.Final_AddState]
    by_cases ho : o = c.NumStates
    · simp only [ho, if_true]
      exact Final_of_le _ _ (le_refl _)
    · simp [ho]
  · simp only [hw, ne_eq, not_false_eq_true, if_true, VectorFst.Final_SetFinal,
      VectorFst.NumStates_AddState, VectorFst.Final_AddState]
    by_cases ho : o = c.NumStates
    · simp [ho]
    · simp [ho]

theorem withNewState_extends (E : Config W F S) (σ : EngineState W S) (s : S) (q : Nat)
    (w : W) (key : Nat) (hkey : lookup σ.stateexistence_ key = none) :
    Extends σ (withNewState E σ s q w key) :=
  ⟨fun _ _ h => h, fun _ _ h => lookup_assign_mono _ _ _ hkey h⟩

theorem withNewState_statemap_mono (E : Config W F S) {fst_ : VectorFst W} {lm0 : Nat}
    {σ : EngineState W S} {cur : Nat} {rest : List (Arc W)} (hI : Inv E fst_ lm0 σ cur rest)
    (s : S) (q : Nat) (w : W) (key : Nat) {o : Nat} {x : Nat × S}
    (h : lookup σ.statemap_ o = some x) :
    lookup (withNewState E σ s q w key).statemap_ o = some x := by
  have ho : o < σ.composed_.NumStates := (hI.dom o).2 (by rw [h]; simp)
  show lookup (assign σ.statemap_ σ.composed_.NumStates (q, s)) o = some x
  rw [lookup_assign_of_ne _ _ _ (Nat.ne_of_lt ho), h]

/-- The invariant survives the registration of a new output state. -/
theorem Inv_newState {E : Config W F S} {fst_ : VectorFst W} {lm0 : Nat}
    {σ : EngineState W S} {cur : Nat} {rest : List (Arc W)} (hI : Inv E fst_ lm0 σ cur rest)
    {s : S} {q c : Nat} (hc : lookup σ.seenlmstates_ (normalize E.lmmodel_ s) = some c)
    (hnone : lookup σ.stateexistence_ (compound q c) = none) (hq : Reach fst_ q) :
    Inv E fst_ lm0 (withNewState E σ s q (fst_.Final E.Zero q) (compound q c)) cur rest := by
  have hext := withNewState_extends E σ s q (fst_.Final E.Zero q) (compound q c) hnone
  have hkeep : ∀ o x, lookup (withNewState E σ s q (fst_.Final E.Zero q) (compound q c)).statemap_ o
      = some x → o ≠ σ.composed_.NumStates → lookup σ.statemap_ o = some x := by
    intro o x h hne
    have h' : lookup (assign σ.statemap_ σ.composed_.NumStates (q, s)) o = some x := h
    rwa [lookup_assign_of_ne _ _ _ hne] at h'
  have hnew : ∀ x, lookup (withNewState E σ s q (fst_.Final E.Zero q) (compound q c)).statemap_
      σ.composed_.NumStates = some x → x = (q, s) := by
    intro x h
    have h' : lookup (assign σ.statemap_ σ.composed_.NumStates (q, s)) σ.composed_.NumStates
        = some x := h
    rw [lookup_assign_self] at h'
    exact (Option.some.inj h').symm
  refine
    { hist := hI.hist, lm_le := hI.lm_le, seen_rng := hI.seen_rng, seen_inj := hI.seen_inj,
      dom := ?_, reg1 := ?_, reg2 := ?_, fin := ?_, reach := ?_, qnd := ?_, qlt := ?_,
      cur_ok := ?_, arcs := ?_ }
  · intro o
    show o < (allocState E σ.composed_ _).NumStates ↔
      lookup (assign σ.statemap_ σ.composed_.NumStates (q, s)) o ≠ none
    rw [NumStates_allocState, lookup_assign]
    by_cases ho : o = σ.composed_.NumStates
    · simp [ho]
    · simp only [ho, if_false]
      rw [← hI.dom o]
      omega
  · intro o q' s' h
    by_cases ho : o = σ.composed_.NumStates
    · subst ho
      have hx := hnew _ h
      simp only [Prod.mk.injEq] at hx
      obtain ⟨rfl, rfl⟩ := hx
      exact ⟨c, hc, lookup_assign_self _ _ _⟩
    · exact Registered_mono hext (hI.reg1 o q' s' (hkeep o _ h ho))
  · intro k o h
    have h' : lookup (assign σ.stateexistence_ (compound q c) σ.composed_.NumStates) k
        = some o := h
    rw [lookup_assign] at h'
    by_cases hk : k = compound q c
    · simp only [hk, if_true, Option.some.injEq] at h'
      subst h'
      exact ⟨q, s, c, lookup_assign_self _ _ _, hc, hk⟩
    · simp only [hk, if_false] at h'
      obtain ⟨q', s', c', h1, h2, h3⟩ := hI.reg2 k o h'
      exact ⟨q', s', c', withNewState_statemap_mono E hI s q _ _ h1, h2, h3⟩
  · intro o q' s' h
    show (allocState E σ.composed_ _).Final E.Zero o = _
    rw [Final_allocState]
    by_cases ho : o = σ.composed_.NumStates
    · have hx := hnew _ (ho ▸ h)
      simp only [Prod.mk.injEq] at hx
      obtain ⟨rfl, rfl⟩ := hx
      simp [ho]
    · simp only [ho, if_false]
      exact hI.fin o q' s' (hkeep o _ h ho)
  · intro o q' s' h
    by_cases ho : o = σ.composed_.NumStates
    · have hx := hnew _ (ho ▸ h)
      simp only [Prod.mk.injEq] at hx
      obtain ⟨rfl, rfl⟩ := hx
      exact hq
    · exact hI.reach o q' s' (hkeep o _ h ho)
  · show (σ.qc_ ++ [σ.composed_.NumStates]).Nodup
    rw [List.nodup_append]
    refine ⟨hI.qnd, List.nodup_singleton _, ?_⟩
    intro x hx hx'
    rw [List.mem_singleton] at hx'
    have := hI.qlt x hx
    omega
  · intro o ho
    show o < (allocState E σ.composed_ _).NumStates
    rw [NumStates_allocState]
    have ho' : o ∈ σ.qc_ ++ [σ.composed_.NumStates] := ho
    rw [List.mem_append, List.mem_singleton] at ho'
    rcases ho' with h | h
    · have := hI.qlt o h
      omega
    · omega
  · intro hr
    obtain ⟨h1, h2⟩ := hI.cur_ok hr
    show cur < (allocState E σ.composed_ _).NumStates ∧ cur ∉ σ.qc_ ++ [σ.composed_.NumStates]
    rw [NumStates_allocState, List.mem_append, List.mem_singleton]
    refine ⟨by omega, ?_⟩
    rintro (h | h)
    · exact h2 h
    · omega
  · intro o q' s' h
    show ∃ done, fst_.arcsOf q' = done ++ pending fst_ (σ.qc_ ++ [σ.composed_.NumStates]) cur rest
      o q' ∧ List.Forall₂ (ArcOk E _ s') ((allocState E σ.composed_ _).arcsOf o) done
    rw [arcsOf_allocState]
    by_cases ho : o = σ.composed_.NumStates
    · refine ⟨[], ?_, ?_⟩
      · simp [pending, ho]
      · rw [ho, VectorFst.arcsOf_of_le _ (le_refl _)]
        exact List.Forall₂.nil
    · obtain ⟨done, h1, h2⟩ := hI.arcs o q' s' (hkeep o _ h ho)
      refine ⟨done, ?_, h2.imp (fun _ _ h => ArcOk_mono hext h)⟩
      rw [h1]
      simp [pending, ho]

theorem register_of_some (E : Config W F S) (σ1 : EngineState W S) (s : S) (q : Nat) (w : W)
    {c t : Nat} (hc : lookup σ1.seenlmstates_ σ1.history = some c)
    (ht : lookup σ1.stateexistence_ (compound q c) = some t) :
    register E σ1 s q w = ((t, true), σ1) := by
  unfold register
  rw [hc, Option.getD_some, ht]

theorem register_of_none (E : Config W F S) (σ1 : EngineState W S) (s : S) (q : Nat) (w : W)
    {c : Nat} (hc : lookup σ1.seenlmstates_ σ1.history = some c)
    (ht : lookup σ1.stateexistence_ (compound q c) = none) :
    (register E σ1 s q w).1 = (σ1.composed_.NumStates, false) ∧
      pushNew (register E σ1 s q w) = withNewState E σ1 s q w (compound q c) := by
  unfold register
  rw [hc, Option.getD_some, ht]
  exact ⟨rfl, rfl⟩

end Steps

section Loop

variable {W F S : Type} [DecidableEq W] [Mul W] [Mul F] [Zero F]

/-- The invariant survives `add` followed by the push of a new state; the returned state
is registered for the pair that was added. -/
theorem Inv_add_push {E : Config W F S} {fst_ : VectorFst W} {lm0 : Nat}
    {σ : EngineState W S} {cur : Nat} {rest : List (Arc W)} (hI : Inv E fst_ lm0 σ cur rest)
    (s : S) {q : Nat} (hq : Reach fst_ q) :
    Inv E fst_ lm0 (pushNew (add E σ s q (fst_.Final E.Zero q))) cur rest ∧
    Registered (pushNew (add E σ s q (fst_.Final E.Zero q))) (normalize E.lmmodel_ s) q
      (add E σ s q (fst_.Final E.Zero q)).1.1 ∧
    Extends σ (pushNew (add E σ s q (fst_.Final E.Zero q))) ∧
    (∀ o x, lookup σ.statemap_ o = some x →
      lookup (pushNew (add E σ s q (fst_.Final E.Zero q))).statemap_ o = some x) := by
  rw [add_eq]
  have hI1 := Inv_intern hI s
  have hh : (intern E σ s).history = normalize E.lmmodel_ s := by
    rw [intern_history, getIdx_eq_normalize _ _ _ hI.hist]
  obtain ⟨c, hc⟩ := intern_lookup_history E σ s
  rw [getIdx_eq_normalize _ _ _ hI.hist] at hc
  have hc' : lookup (intern E σ s).seenlmstates_ (intern E σ s).history = some c := by
    rw [hh]; exact hc
  cases ht : lookup (intern E σ s).stateexistence_ (compound q c) with
  | some t =>
    rw [register_of_some E _ s q _ hc' ht]
    refine ⟨hI1, ⟨c, hc, ht⟩, intern_extends E σ s, ?_⟩
    intro o x h
    show lookup (intern E σ s).statemap_ o = some x
    rw [intern_statemap]; exact h
  | none =>
    obtain ⟨h1, h2⟩ := register_of_none E _ s q (fst_.Final E.Zero q) hc' ht
    rw [h2, h1]
    refine ⟨Inv_newState hI1 hc ht hq, ?_, ?_, ?_⟩
    · exact ⟨c, hc, lookup_assign_self _ _ _⟩
    · exact (intern_extends E σ s).trans (withNewState_extends E _ s q _ _ ht)
    · intro o x h
      apply withNewState_statemap_mono E hI1
      rw [intern_statemap]; exact h

theorem visitArc_eq (E : Config W F S) (fst_ : VectorFst W) (s : Nat) (s2 : S)
    (σ : EngineState W S) (a1 : Arc W) :
    visitArc E fst_ s s2 σ a1 =
      { pushNew (add E σ (scoreArc E s2 a1.olabel).2.2 a1.nextstate
          (fst_.Final E.Zero a1.nextstate)) with
        composed_ := (pushNew (add E σ (scoreArc E s2 a1.olabel).2.2 a1.nextstate
            (fst_.Final E.Zero a1.nextstate))).composed_.AddArc s
          ⟨a1.ilabel, a1.olabel,
            a1.weight * (E.mw_ (scoreArc E s2 a1.olabel).1 * E.mw_ (scoreArc E s2 a1.olabel).2.1),
            (add E σ (scoreArc E s2 a1.olabel).2.2 a1.nextstate
              (fst_.Final E.Zero a1.nextstate)).1.1⟩ } := by
  unfold visitArc pushNew
  simp only []
  split <;> rfl

/-- The invariant survives the `AddArc` of a well-built arc on the state being expanded. -/
theorem Inv_addArc {E : Config W F S} {fst_ : VectorFst W} {lm0 : Nat}
    {σ : EngineState W S} {cur : Nat} {a : Arc W} {rest : List (Arc W)}
    (hI : Inv E fst_ lm0 σ cur (a :: rest)) {q : Nat} {s2 : S}
    (hcur : lookup σ.statemap_ cur = some (q, s2)) {e : Arc W} (he : ArcOk E σ s2 e a) :
    Inv E fst_ lm0 { σ with composed_ := σ.composed_.AddArc cur e } cur rest := by
  obtain ⟨hlt, hnq⟩ := hI.cur_ok (List.cons_ne_nil _ _)
  refine
    { hist := hI.hist, lm_le := hI.lm_le, seen_rng := hI.seen_rng, seen_inj := hI.seen_inj,
      dom := ?_, reg1 := hI.reg1, reg2 := hI.reg2, fin := ?_, reach := hI.reach,
      qnd := hI.qnd, qlt := ?_, cur_ok := ?_, arcs := ?_ }
  · intro o
    show o < (σ.composed_.AddArc cur e).NumStates ↔ _
    rw [VectorFst.NumStates_AddArc]
    exact hI.dom o
  · intro o q' s' h
    show (σ.composed_.AddArc cur e).Final E.Zero o = _
    rw [VectorFst.Final_AddArc]
    exact hI.fin o q' s' h
  · intro o ho
    show o < (σ.composed_.AddArc cur e).NumStates
    rw [VectorFst.NumStates_AddArc]
    exact hI.qlt o ho
  · intro _
    show cur < (σ.composed_.AddArc cur e).NumStates ∧ _
    rw [VectorFst.NumStates_AddArc]
    exact ⟨hlt, hnq⟩
  · intro o q' s' h
    obtain ⟨done, h1, h2⟩ := hI.arcs o q' s' h
    show ∃ done, fst_.arcsOf q' = done ++ pending fst_ σ.qc_ cur rest o q' ∧
      List.Forall₂ (ArcOk E σ s') ((σ.composed_.AddArc cur e).arcsOf o) done
    rw [VectorFst.arcsOf_AddArc]
    by_cases ho : o = cur
    · subst ho
      rw [hcur] at h
      simp only [Option.some.injEq, Prod.mk.injEq] at h
      obtain ⟨rfl, rfl⟩ := h
      refine ⟨done ++ [a], ?_, ?_⟩
      · rw [h1]
        simp [pending, hnq]
      · simp only [hlt, and_self, if_true]
        exact List.rel_append h2 (List.Forall₂.cons he List.Forall₂.nil)
    · refine ⟨done, ?_, ?_⟩
      · rw [h1]
        simp [pending, ho]
      · simp only [ho, false_and, if_false]
        exact h2

/-- The invariant survives the visit of the next arc of the state being expanded. -/
theorem Inv_visitArc {E : Config W F S} {fst_ : VectorFst W} {lm0 : Nat}
    {σ : EngineState W S} {cur : Nat} {a : Arc W} {rest : List (Arc W)}
    (hI : Inv E fst_ lm0 σ cur (a :: rest)) {q : Nat} {s2 : S}
    (hcur : lookup σ.statemap_ cur = some (q, s2)) :
    Inv E fst_ lm0 (visitArc E fst_ cur s2 σ a) cur rest ∧
    lookup (visitArc E fst_ cur s2 σ a).statemap_ cur = some (q, s2) ∧
    Extends σ (visitArc E fst_ cur s2 σ a) := by
  obtain ⟨hlt, hnq⟩ := hI.cur_ok (List.cons_ne_nil _ _)
  have hmem : a ∈ fst_.arcsOf q := by
    obtain ⟨done, h1, _⟩ := hI.arcs cur q s2 hcur
    rw [h1]
    simp [pending, hnq]
  have hq : Reach fst_ a.nextstate := Reach.step (hI.reach cur q s2 hcur) hmem
  obtain ⟨h1, h2, h3, h4⟩ := Inv_add_push hI (scoreArc E s2 a.olabel).2.2 hq
  rw [visitArc_eq]
  refine ⟨?_, h4 cur _ hcur, h3⟩
  exact Inv_addArc h1 (h4 cur _ hcur) ⟨rfl, rfl, rfl, h2⟩

/-- The invariant survives the visit of all the arcs still to visit. -/
theorem Inv_foldl_visitArc {E : Config W F S} {fst_ : VectorFst W} {lm0 : Nat} {cur : Nat}
    (q : Nat) (s2 : S) (rest : List (Arc W)) :
    ∀ (σ : EngineState W S), Inv E fst_ lm0 σ cur rest →
      lookup σ.statemap_ cur = some (q, s2) →
      Inv E fst_ lm0 (rest.foldl (visitArc E fst_ cur s2) σ) cur [] ∧
      Extends σ (rest.foldl (visitArc E fst_ cur s2) σ) := by
  induction rest with
  | nil => intro σ hI _; exact ⟨hI, Extends.refl σ⟩
  | cons a rest ih =>
    intro σ hI hcur
    obtain ⟨h1, h2, h3⟩ := Inv_visitArc hI hcur
    obtain ⟨h4, h5⟩ := ih _ h1 h2
    exact ⟨h4, h3.trans h5⟩

/-- With nothing left to visit, the state being expanded is immaterial. -/
theorem Inv_change_cur {E : Config W F S} {fst_ : VectorFst W} {lm0 : Nat}
    {σ : EngineState W S} {cur : Nat} (hI : Inv E fst_ lm0 σ cur []) (cur' : Nat) :
    Inv E fst_ lm0 σ cur' [] := by
  refine
    { hist := hI.hist, lm_le := hI.lm_le, seen_rng := hI.seen_rng, seen_inj := hI.seen_inj,
      dom := hI.dom, reg1 := hI.reg1, reg2 := hI.reg2, fin := hI.fin, reach := hI.reach,
      qnd := hI.qnd, qlt := hI.qlt, cur_ok := fun h => absurd rfl h, arcs := ?_ }
  intro o q s h
  obtain ⟨done, h1, h2⟩ := hI.arcs o q s h
  refine ⟨done, ?_, h2⟩
  rw [h1]
  unfold pending
  simp

/-- The invariant survives one iteration of the `while` loop. -/
theorem Inv_expand {E : Config W F S} {fst_ : VectorFst W} {lm0 : Nat}
    {σ : EngineState W S} {cur : Nat} (hI : Inv E fst_ lm0 σ cur []) :
    Inv E fst_ lm0 (expand E fst_ σ) cur [] ∧ Extends σ (expand E fst_ σ) := by
  unfold expand
  cases hq : σ.qc_ with
  | nil => exact ⟨hI, Extends.refl σ⟩
  | cons s tl =>
    simp only []
    have hs : s < σ.composed_.NumStates := hI.qlt s (by rw [hq]; simp)
    have hnd : (s :: tl).Nodup := hq ▸ hI.qnd
    have hstl : s ∉ tl := (List.nodup_cons.mp hnd).1
    obtain ⟨p, hp⟩ := Option.ne_none_iff_exists'.mp ((hI.dom s).1 hs)
    have hget : get E σ s = p := by
      unfold get; rw [hp]; rfl
    rw [hget]
    have hI' : Inv E fst_ lm0 { σ with qc_ := tl } s (fst_.arcsOf p.1) := by
      refine
        { hist := hI.hist, lm_le := hI.lm_le, seen_rng := hI.seen_rng,
          seen_inj := hI.seen_inj, dom := hI.dom, reg1 := hI.reg1, reg2 := hI.reg2,
          fin := hI.fin, reach := hI.reach, qnd := (List.nodup_cons.mp hnd).2,
          qlt := ?_, cur_ok := fun _ => ⟨hs, hstl⟩, arcs := ?_ }
      · intro o ho
        exact hI.qlt o (by rw [hq]; exact List.mem_cons_of_mem _ ho)
      · intro o q s' h
        obtain ⟨done, h1, h2⟩ := hI.arcs o q s' h
        refine ⟨done, ?_, h2⟩
        rw [h1]
        show done ++ pending fst_ σ.qc_ cur [] o q = done ++ pending fst_ tl s (fst_.arcsOf p.1) o q
        unfold pending
        rw [hq]
        by_cases hos : o = s
        · subst hos
          have hpq : p = (q, s') := by
            rw [hp] at h; exact Option.some.inj h
          simp [hstl, hpq]
        · simp [hos]
    obtain ⟨h1, h2⟩ := Inv_foldl_visitArc p.1 p.2 (fst_.arcsOf p.1) _ hI' hp
    exact ⟨Inv_change_cur h1 cur, ⟨fun b c h => h2.1 b c h, fun k o h => h2.2 k o h⟩⟩

/-- The invariant survives the `while` loop. -/
theorem Inv_traverse {E : Config W F S} {fst_ : VectorFst W} {lm0 : Nat} {cur : Nat}
    (fuel : Nat) : ∀ (σ : EngineState W S), Inv E fst_ lm0 σ cur [] →
      Inv E fst_ lm0 (traverse E fst_ fuel σ) cur [] ∧ Extends σ (traverse E fst_ fuel σ) := by
  induction fuel with
  | zero => intro σ hI; exact ⟨hI, Extends.refl σ⟩
  | succ n ih =>
    intro σ hI
    unfold traverse
    split
    · exact ⟨hI, Extends.refl σ⟩
    · obtain ⟨h1, h2⟩ := Inv_expand hI
      obtain ⟨h3, h4⟩ := ih _ h1
      exact ⟨h3, h2.trans h4⟩

end Loop

/-! ## Termination of the traversal -/

section Termination

variable {W F S : Type} [DecidableEq W] [Mul W] [Mul F] [Zero F]

theorem freeKeys_le (σ : EngineState W S) : freeKeys σ ≤ 2 ^ 64 := by
  unfold freeKeys
  calc _ ≤ (Finset.range (2 ^ 64)).card := Finset.card_filter_le _ _
    _ = 2 ^ 64 := Finset.card_range _

theorem compound_lt (q c : Nat) : compound q c < 2 ^ 64 :=
  Nat.mod_lt _ (by norm_num)

/-- Binding a key that was free uses up one free key. -/
theorem freeKeys_assign (σ σ' : EngineState W S) (key n : Nat) (hk : key < 2 ^ 64)
    (hnone : lookup σ.stateexistence_ key = none)
    (h' : σ'.stateexistence_ = assign σ.stateexistence_ key n) :
    freeKeys σ' + 1 = freeKeys σ := by
  unfold freeKeys
  have hmem : key ∈ (Finset.range (2 ^ 64)).filter
      (fun k => lookup σ.stateexistence_ k = none) :=
    Finset.mem_filter.mpr ⟨Finset.mem_range.mpr hk, hnone⟩
  have heq : (Finset.range (2 ^ 64)).filter (fun k => lookup σ'.stateexistence_ k = none) =
      ((Finset.range (2 ^ 64)).filter (fun k => lookup σ.stateexistence_ k = none)).erase key := by
    ext k
    simp only [Finset.mem_filter, Finset.mem_range, Finset.mem_erase, h', lookup_assign]
    by_cases hkk : k = key
    · simp [hkk]
    · simp [hkk]
  rw [heq, Finset.card_erase_of_mem hmem]
  have hpos : 0 < ((Finset.range (2 ^ 64)).filter
      (fun k => lookup σ.stateexistence_ k = none)).card := Finset.card_pos.mpr ⟨key, hmem⟩
  omega

theorem register_fuelNeeded (E : Config W F S) (σ1 : EngineState W S) (s : S) (q : Nat)
    (w : W) : fuelNeeded (pushNew (register E σ1 s q w)) = fuelNeeded σ1 := by
  unfold register
  split
  · next hnone =>
    unfold pushNew fuelNeeded
    simp only [Bool.false_eq_true, if_false, List.length_append, List.length_singleton]
    have := freeKeys_assign σ1
      { σ1 with
        statemap_ := assign σ1.statemap_ σ1.composed_.NumStates (q, s),
        composed_ :=
          if w ≠ E.mw_ E.ZPosInfinity then
            (σ1.composed_.AddState E.Zero).SetFinal σ1.composed_.NumStates w
          else σ1.composed_.AddState E.Zero,
        stateexistence_ := assign σ1.stateexistence_
          (compound q ((lookup σ1.seenlmstates_ σ1.history).getD 0))
          σ1.composed_.NumStates,
        qc_ := σ1.qc_ ++ [σ1.composed_.NumStates] }
      _ σ1.composed_.NumStates (compound_lt _ _) hnone rfl
    unfold freeKeys at this ⊢
    simp only at this ⊢
    omega
  · rfl

theorem add_fuelNeeded (E : Config W F S) (σ : EngineState W S) (s : S) (q : Nat) (w : W) :
    fuelNeeded (pushNew (add E σ s q w)) = fuelNeeded σ := by
  rw [add_eq, register_fuelNeeded]
  unfold fuelNeeded freeKeys
  simp

theorem visitArc_fuelNeeded (E : Config W F S) (fst_ : VectorFst W) (s : Nat) (s2 : S)
    (σ : EngineState W S) (a : Arc W) :
    fuelNeeded (visitArc E fst_ s s2 σ a) = fuelNeeded σ := by
  rw [visitArc_eq]
  exact add_fuelNeeded E σ _ _ _

theorem foldl_visitArc_fuelNeeded (E : Config W F S) (fst_ : VectorFst W) (s : Nat) (s2 : S)
    (arcs : List (Arc W)) : ∀ σ : EngineState W S,
      fuelNeeded (arcs.foldl (visitArc E fst_ s s2) σ) = fuelNeeded σ := by
  induction arcs with
  | nil => intro σ; rfl
  | cons a rest ih =>
    intro σ
    rw [List.foldl_cons, ih, visitArc_fuelNeeded]

/-- An iteration of the loop on a non-empty queue uses up one unit. -/
theorem expand_fuelNeeded (E : Config W F S) (fst_ : VectorFst W) (σ : EngineState W S)
    (h : σ.qc_ ≠ []) : fuelNeeded (expand E fst_ σ) + 1 = fuelNeeded σ := by
  unfold expand
  cases hq : σ.qc_ with
  | nil => exact absurd hq h
  | cons s tl =>
    simp only []
    rw [foldl_visitArc_fuelNeeded]
    unfold fuelNeeded freeKeys
    simp only [hq, List.length_cons]
    omega

/-- With enough fuel the `while` loop ends on an empty queue. -/
theorem traverse_terminates (E : Config W F S) (fst_ : VectorFst W) (fuel : Nat) :
    ∀ σ : EngineState W S, fuelNeeded σ ≤ fuel → (traverse E fst_ fuel σ).qc_ = [] := by
  induction fuel with
  | zero =>
    intro σ h
    unfold traverse
    have : σ.qc_.length = 0 := by unfold fuelNeeded at h; omega
    exact List.length_eq_zero.mp this
  | succ n ih =>
    intro σ h
    unfold traverse
    split
    · assumption
    · next hne =>
      apply ih
      have := expand_fuelNeeded E fst_ σ hne
      omega

/-- The fuel `operator()` is run with is enough. -/
theorem traverse_compose_fuel (E : Config W F S) (fst_ : VectorFst W)
    (σ : EngineState W S) : (traverse E fst_ (2 ^ 64 + σ.qc_.length) σ).qc_ = [] := by
  apply traverse_terminates
  unfold fuelNeeded
  have := freeKeys_le σ
  omega

/-- More fuel than needed changes nothing. -/
theorem traverse_stable (E : Config W F S) (fst_ : VectorFst W) (n : Nat) :
    ∀ (σ : EngineState W S) (k : Nat), (traverse E fst_ n σ).qc_ = [] →
      traverse E fst_ (n + k) σ = traverse E fst_ n σ := by
  induction n with
  | zero =>
    intro σ k h
    have h0 : σ.qc_ = [] := h
    cases k with
    | zero => rfl
    | succ k =>
      rw [Nat.zero_add]
      show (if σ.qc_ = [] then σ else _) = σ
      rw [if_pos h0]
  | succ n ih =>
    intro σ k h
    have e : n + 1 + k = (n + k) + 1 := by omega
    rw [e]
    unfold traverse at h ⊢
    by_cases h0 : σ.qc_ = []
    · simp only [h0, if_true]
    · simp only [h0, if_false] at h ⊢
      exact ih _ k h

end Termination

/-! ## A composition by a freshly constructed engine -/

section Fresh

variable {W F S : Type} [DecidableEq W] [Mul W] [Mul F] [Zero F]

theorem Inv_fresh (E : Config W F S) (fst_ : VectorFst W) (lm0 : Nat) :
    Inv E fst_ lm0 (EngineState.fresh E lm0) 0 [] := by
  refine
    { hist := HistOk_replicate _, lm_le := le_refl _, seen_rng := ?_, seen_inj := ?_,
      dom := ?_, reg1 := ?_, reg2 := ?_, fin := ?_, reach := ?_, qnd := List.nodup_nil,
      qlt := ?_, cur_ok := fun h => absurd rfl h, arcs := ?_ }
  · intro b c h; exact Option.noConfusion h
  · intro b b' c h; exact Option.noConfusion h
  · intro o
    show o < 0 ↔ (none : Option (Nat × S)) ≠ none
    simp
  · intro o q s h; exact Option.noConfusion h
  · intro k o h; exact Option.noConfusion h
  · intro o q s h; exact Option.noConfusion h
  · intro o q s h; exact Option.noConfusion h
  · intro o h; exact absurd h (List.not_mem_nil _)
  · intro o q s h; exact Option.noConfusion h

theorem Inv_setStart {E : Config W F S} {fst_ : VectorFst W} {lm0 : Nat}
    {σ : EngineState W S} {cur : Nat} {rest : List (Arc W)} (hI : Inv E fst_ lm0 σ cur rest)
    (x : Nat) : Inv E fst_ lm0 { σ with composed_ := σ.composed_.SetStart x } cur rest :=
  { hist := hI.hist, lm_le := hI.lm_le, seen_rng := hI.seen_rng, seen_inj := hI.seen_inj,
    dom := hI.dom, reg1 := hI.reg1, reg2 := hI.reg2, fin := hI.fin, reach := hI.reach,
    qnd := hI.qnd, qlt := hI.qlt, cur_ok := hI.cur_ok, arcs := hI.arcs }

/-- On an engine whose registry is empty `add` allocates: it reports state
`NumStates()` as not visited. -/
theorem add_of_empty_registry (E : Config W F S) (σ : EngineState W S) (s : S) (q : Nat)
    (w : W) (h : σ.stateexistence_ = []) :
    (add E σ s q w).1 = (σ.composed_.NumStates, false) := by
  rw [add_eq]
  unfold register
  rw [intern_stateexistence, h]
  simp [lookup]

theorem initial_fresh (E : Config W F S) (fst_ : VectorFst W) (lm0 : Nat) :
    initial E (EngineState.fresh E lm0) fst_ =
      { pushNew (add E (EngineState.fresh E lm0) E.lmmodel_.NullContextState fst_.Start
          (fst_.Final E.Zero fst_.Start)) with
        composed_ := (pushNew (add E (EngineState.fresh E lm0) E.lmmodel_.NullContextState
          fst_.Start (fst_.Final E.Zero fst_.Start))).composed_.SetStart 0 } := by
  have h := add_of_empty_registry E (EngineState.fresh E lm0) E.lmmodel_.NullContextState
    fst_.Start (fst_.Final E.Zero fst_.Start) rfl
  have h1 : (add E (EngineState.fresh E lm0) E.lmmodel_.NullContextState fst_.Start
      (fst_.Final E.Zero fst_.Start)).1.1 = 0 := by rw [h]; rfl
  have h2 : (add E (EngineState.fresh E lm0) E.lmmodel_.NullContextState fst_.Start
      (fst_.Final E.Zero fst_.Start)).1.2 = false := by rw [h]
  unfold pushNew
  rw [h2, h1]
  show initial E (EngineState.fresh E lm0) fst_ = _
  unfold initial
  simp only []
  show _ = _
  have e : ({ EngineState.fresh E lm0 with composed_ := VectorFst.new } : EngineState W S)
      = EngineState.fresh E lm0 := rfl
  rw [e, h1]
  rfl

/-- The invariant holds when `operator()` enters its loop; the start state is output
state 0, registered for the start of the input under the null context. -/
theorem Inv_initial (E : Config W F S) (fst_ : VectorFst W) (lm0 : Nat) :
    Inv E fst_ lm0 (initial E (EngineState.fresh E lm0) fst_) 0 [] ∧
    (initial E (EngineState.fresh E lm0) fst_).composed_.start = some 0 ∧
    Registered (initial E (EngineState.fresh E lm0) fst_)
      (normalize E.lmmodel_ E.lmmodel_.NullContextState) fst_.Start 0 := by
  have h := add_of_empty_registry E (EngineState.fresh E lm0) E.lmmodel_.NullContextState
    fst_.Start (fst_.Final E.Zero fst_.Start) rfl
  obtain ⟨h1, h2, _, _⟩ := Inv_add_push (Inv_fresh E fst_ lm0) E.lmmodel_.NullContextState
    (@Reach.start W fst_)
  rw [initial_fresh]
  refine ⟨Inv_setStart h1 0, rfl, ?_⟩
  rw [h] at h2
  exact h2

theorem add_start (E : Config W F S) (σ : EngineState W S) (s : S) (q : Nat) (w : W) :
    (pushNew (add E σ s q w)).composed_.start = σ.composed_.start := by
  rw [add_eq]
  unfold register
  split
  · unfold pushNew
    simp only [Bool.false_eq_true, if_false, intern_composed]
    exact start_allocState E σ.composed_ w
  · unfold pushNew
    simp

theorem visitArc_start (E : Config W F S) (fst_ : VectorFst W) (s : Nat) (s2 : S)
    (σ : EngineState W S) (a : Arc W) :
    (visitArc E fst_ s s2 σ a).composed_.start = σ.composed_.start := by
  rw [visitArc_eq]
  exact add_start E σ _ _ _

theorem foldl_visitArc_start (E : Config W F S) (fst_ : VectorFst W) (s : Nat) (s2 : S)
    (arcs : List (Arc W)) : ∀ σ : EngineState W S,
      (arcs.foldl (visitArc E fst_ s s2) σ).composed_.start = σ.composed_.start := by
  induction arcs with
  | nil => intro σ; rfl
  | cons a rest ih =>
    intro σ
    rw [List.foldl_cons, ih, visitArc_start]

theorem expand_start (E : Config W F S) (fst_ : VectorFst W) (σ : EngineState W S) :
    (expand E fst_ σ).composed_.start = σ.composed_.start := by
  unfold expand
  split
  · rfl
  · rw [foldl_visitArc_start]

theorem traverse_start (E : Config W F S) (fst_ : VectorFst W) (fuel : Nat) :
    ∀ σ : EngineState W S, (traverse E fst_ fuel σ).composed_.start = σ.composed_.start := by
  induction fuel with
  | zero => intro σ; rfl
  | succ n ih =>
    intro σ
    unfold traverse
    split
    · rfl
    · rw [ih, expand_start]

theorem compose_of_ne (E : Config W F S) (σ : EngineState W S) (fst_ : VectorFst W)
    (hne : fst_.NumStates ≠ 0) :
    compose E σ fst_ =
      (some (traverse E fst_ (2 ^ 64 + (initial E σ fst_).qc_.length)
          (initial E σ fst_)).composed_,
        traverse E fst_ (2 ^ 64 + (initial E σ fst_).qc_.length) (initial E σ fst_)) := by
  unfold compose
  rw [if_neg hne]

/-- What a composition of a non-empty input by a fresh engine leaves: the returned
automaton is the one of the final engine state, the invariant holds, the queue is empty,
and output state 0 is the start state, registered for the input start under the null
context. -/
theorem compose_fresh (E : Config W F S) (fst_ : VectorFst W) (lm0 : Nat)
    (hne : fst_.NumStates ≠ 0) :
    (compose E (EngineState.fresh E lm0) fst_).1 =
      some (compose E (EngineState.fresh E lm0) fst_).2.composed_ ∧
    Inv E fst_ lm0 (compose E (EngineState.fresh E lm0) fst_).2 0 [] ∧
    (compose E (EngineState.fresh E lm0) fst_).2.qc_ = [] ∧
    (compose E (EngineState.fresh E lm0) fst_).2.composed_.start = some 0 ∧
    Registered (compose E (EngineState.fresh E lm0) fst_).2
      (normalize E.lmmodel_ E.lmmodel_.NullContextState) fst_.Start 0 := by
  rw [compose_of_ne E _ fst_ hne]
  obtain ⟨h1, h2, h3⟩ := Inv_initial E fst_ lm0
  obtain ⟨h4, h5⟩ := Inv_traverse (2 ^ 64 + (initial E (EngineState.fresh E lm0) fst_).qc_.length)
    _ h1
  refine ⟨rfl, h4, traverse_compose_fuel E fst_ _, ?_, Registered_mono h5 h3⟩
  show (traverse E fst_ _ _).composed_.start = some 0
  rw [traverse_start, h2]

/-! The interning index and the registry only grow, from any engine state. -/

theorem register_extends (E : Config W F S) (σ1 : EngineState W S) (s : S) (q : Nat) (w : W) :
    Extends σ1 (register E σ1 s q w).2 := by
  unfold register
  split
  · next hnone => exact ⟨fun _ _ h => h, fun _ _ h => lookup_assign_mono _ _ _ hnone h⟩
  · exact Extends.refl σ1

theorem add_extends (E : Config W F S) (σ : EngineState W S) (s : S) (q : Nat) (w : W) :
    Extends σ (add E σ s q w).2 := by
  rw [add_eq]
  exact (intern_extends E σ s).trans (register_extends E _ s q w)

theorem visitArc_extends (E : Config W F S) (fst_ : VectorFst W) (s : Nat) (s2 : S)
    (σ : EngineState W S) (a : Arc W) : Extends σ (visitArc E fst_ s s2 σ a) := by
  have h := add_extends E σ (scoreArc E s2 a.olabel).2.2 a.nextstate
    (fst_.Final E.Zero a.nextstate)
  unfold visitArc
  simp only
  split
  · exact h
  · exact h

theorem foldl_visitArc_extends (E : Config W F S) (fst_ : VectorFst W) (s : Nat) (s2 : S)
    (arcs : List (Arc W)) : ∀ σ : EngineState W S,
      Extends σ (arcs.foldl (visitArc E fst_ s s2) σ) := by
  induction arcs with
  | nil => intro σ; exact Extends.refl σ
  | cons a rest ih =>
    intro σ
    exact (visitArc_extends E fst_ s s2 σ a).trans (ih _)

theorem expand_extends (E : Config W F S) (fst_ : VectorFst W) (σ : EngineState W S) :
    Extends σ (expand E fst_ σ) := by
  unfold expand
  split
  · exact Extends.refl σ
  · next x tl _ =>
    have h := foldl_visitArc_extends E fst_ x (get E σ x).2 (fst_.arcsOf (get E σ x).1)
      { σ with qc_ := tl }
    exact ⟨fun b c hb => h.1 b c hb, fun k o hk => h.2 k o hk⟩

theorem traverse_extends (E : Config W F S) (fst_ : VectorFst W) (fuel : Nat) :
    ∀ σ : EngineState W S, Extends σ (traverse E fst_ fuel σ) := by
  induction fuel with
  | zero => intro σ; exact Extends.refl σ
  | succ n ih =>
    intro σ
    unfold traverse
    split
    · exact Extends.refl σ
    · exact (expand_extends E fst_ σ).trans (ih _)

end Fresh

/-! ## Keys, reachability and pairing at the end of a composition -/

section Pairing

variable {W F S : Type} [DecidableEq W] [Mul W] [Mul F] [Zero F]

/-- Keys of states below `2 ^ 31` and of context ids taken from a window of `sid`
consecutive values do not collide, wherever the window starts. -/
theorem compound_inj_of_window (lm0 : Nat) {q q' c c' : Nat} (hq : q < 2 ^ 31) (hq' : q' < 2 ^ 31)
    (hc : lm0 < c ∧ c ≤ lm0 + sid) (hc' : lm0 < c' ∧ c' ≤ lm0 + sid)
    (h : compound q c = compound q' c') : q = q' ∧ c = c' := by
  unfold compound at h
  obtain ⟨j, rfl⟩ : ∃ j, c = lm0 + j := ⟨c - lm0, by omega⟩
  obtain ⟨j', rfl⟩ : ∃ j', c' = lm0 + j' := ⟨c' - lm0, by omega⟩
  have h1 : (q * sid + j) + lm0 ≡ (q' * sid + j') + lm0 [MOD 2 ^ 64] := by
    have e1 : q * sid + j + lm0 = q * sid + (lm0 + j) := by omega
    have e2 : q' * sid + j' + lm0 = q' * sid + (lm0 + j') := by omega
    rw [e1, e2]
    exact h
  have h2 : q * sid + j ≡ q' * sid + j' [MOD 2 ^ 64] := Nat.ModEq.add_right_cancel' lm0 h1
  unfold sid at hc hc' h2
  have h3 : q * 1000000000 + j = q' * 1000000000 + j' := by
    apply Nat.ModEq.eq_of_lt_of_lt h2
    · omega
    · omega
  omega

theorem Reach_lt {fst_ : VectorFst W} (hwf : WellFormed fst_) {q : Nat} (h : Reach fst_ q) :
    q < fst_.NumStates := by
  induction h with
  | start => exact hwf.2.1
  | @step q a _ hmem _ =>
    unfold VectorFst.arcsOf at hmem
    cases hs : fst_.states[q]? with
    | none => rw [hs] at hmem; exact absurd hmem (List.not_mem_nil _)
    | some st =>
      rw [hs] at hmem
      exact hwf.2.2 st (List.getElem?_mem hs) a hmem

theorem Reach_of_mem_reachSet (fst_ : VectorFst W) (k : Nat) :
    ∀ q, q ∈ reachSet fst_ k → Reach fst_ q := by
  induction k with
  | zero =>
    intro q hq
    have : q = fst_.Start := by simpa [reachSet] using hq
    rw [this]
    exact Reach.start
  | succ n ih =>
    intro q hq
    unfold reachSet at hq
    rw [List.mem_append] at hq
    rcases hq with h | h
    · exact ih q h
    · unfold succs at h
      rw [List.mem_flatMap] at h
      obtain ⟨q', hq', h'⟩ := h
      rw [List.mem_map] at h'
      obtain ⟨a, ha, rfl⟩ := h'
      exact Reach.step (ih q' hq') ha

/-- At the end of a composition within the key range, the state registered for `(q, b)`
is paired by the backmap with `q` and with a context of buffer `b`. -/
theorem target_paired {E : Config W F S} {fst_ : VectorFst W} {lm0 : Nat}
    {σ : EngineState W S} {cur : Nat} {rest : List (Arc W)} (hI : Inv E fst_ lm0 σ cur rest)
    (hwf : WellFormed fst_) (hN : fst_.NumStates ≤ 2 ^ 31) (hK : σ.lm ≤ lm0 + sid)
    {b : List Nat} {q t : Nat} (hq : q < fst_.NumStates) (hr : Registered σ b q t) :
    ∃ s', lookup σ.statemap_ t = some (q, s') ∧ normalize E.lmmodel_ s' = b := by
  obtain ⟨c, hc, hse⟩ := hr
  obtain ⟨q1, s1, c1, hsm, hc1, hkey⟩ := hI.reg2 _ _ hse
  have hq1 : q1 < fst_.NumStates := Reach_lt hwf (hI.reach t q1 s1 hsm)
  have r := hI.seen_rng _ _ hc
  have r1 := hI.seen_rng _ _ hc1
  obtain ⟨e1, e2⟩ := compound_inj_of_window lm0 (by omega) (by omega)
    ⟨r.1, by omega⟩ ⟨r1.1, by omega⟩ hkey
  subst e1 e2
  exact ⟨s1, hsm, hI.seen_inj _ _ _ hc1 hc⟩

theorem lookup_mem {α β : Type} [DecidableEq α] (m : List (α × β)) (k : α) (v : β)
    (h : lookup m k = some v) : (k, v) ∈ m := by
  induction m with
  | nil => exact Option.noConfusion h
  | cons x rest ih =>
    obtain ⟨a, b⟩ := x
    unfold lookup at h
    by_cases hk : k = a
    · simp only [hk, if_true, Option.some.injEq] at h
      rw [hk, h]
      exact List.mem_cons_self _ _
    · simp only [hk, if_false] at h
      exact List.mem_cons_of_mem _ (ih h)

theorem forall₂_imp_mem {α β : Type} {R R' : α → β → Prop} {l₁ : List α} {l₂ : List β}
    (h : List.Forall₂ R l₁ l₂) (himp : ∀ e a, a ∈ l₂ → R e a → R' e a) :
    List.Forall₂ R' l₁ l₂ := by
  induction h with
  | nil => exact List.Forall₂.nil
  | @cons e a t₁ t₂ hea _ ih =>
    exact List.Forall₂.cons (himp e a (List.mem_cons_self _ _) hea)
      (ih (fun e' a' ha' => himp e' a' (List.mem_cons_of_mem _ ha')))

/-- At the end of a composition every arc list of the output matches, arc by arc, the
arc list of the paired original state. -/
theorem arcs_complete {E : Config W F S} {fst_ : VectorFst W} {lm0 : Nat}
    {σ : EngineState W S} {cur : Nat} (hI : Inv E fst_ lm0 σ cur []) (hq : σ.qc_ = [])
    {o q : Nat} {s : S} (h : lookup σ.statemap_ o = some (q, s)) :
    List.Forall₂ (ArcOk E σ s) (σ.composed_.arcsOf o) (fst_.arcsOf q) := by
  obtain ⟨done, h1, h2⟩ := hI.arcs o q s h
  have : pending fst_ σ.qc_ cur [] o q = [] := by
    unfold pending
    rw [hq]
    simp
  rw [this, List.append_nil] at h1
  rw [h1]
  exact h2

end Pairing

/-! ## Independence of the value of the static counter -/

section Shift

variable {W F S : Type} [DecidableEq W] [Mul W] [Mul F] [Zero F]

theorem SameUpToIds_fresh (E : Config W F S) (d d' : Nat) :
    SameUpToIds d d' (EngineState.fresh E d) (EngineState.fresh E d') :=
  ⟨rfl, rfl, rfl, rfl, Nat.add_comm d d', fun _ => rfl, fun _ _ _ _ _ => rfl⟩

theorem compound_shift {d d' c c' : Nat} (q : Nat) (h : c + d' = c' + d) :
    compound q c + d' ≡ compound q c' + d [MOD 2 ^ 64] := by
  unfold compound
  have h1 : (q * sid + c) % 2 ^ 64 + d' ≡ (q * sid + c) + d' [MOD 2 ^ 64] :=
    (Nat.mod_modEq _ _).add_right d'
  have h2 : (q * sid + c') % 2 ^ 64 + d ≡ (q * sid + c') + d [MOD 2 ^ 64] :=
    (Nat.mod_modEq _ _).add_right d
  have e : (q * sid + c) + d' = (q * sid + c') + d := by omega
  rw [e] at h1
  exact h1.trans h2.symm

/-- Shifted keys are equal together. -/
theorem shifted_key_eq_iff {d d' k k' x x' : Nat} (hk : k < 2 ^ 64) (hk' : k' < 2 ^ 64)
    (hx : x < 2 ^ 64) (hx' : x' < 2 ^ 64) (h : k + d' ≡ k' + d [MOD 2 ^ 64])
    (h' : x + d' ≡ x' + d [MOD 2 ^ 64]) : x = k ↔ x' = k' := by
  constructor
  · intro e
    subst e
    have : x' + d ≡ k' + d [MOD 2 ^ 64] := h'.symm.trans h
    exact Nat.ModEq.eq_of_lt_of_lt (Nat.ModEq.add_right_cancel' d this) hx' hk'
  · intro e
    subst e
    have : x + d' ≡ k + d' [MOD 2 ^ 64] := h'.trans h.symm
    exact Nat.ModEq.eq_of_lt_of_lt (Nat.ModEq.add_right_cancel' d' this) hx hk

theorem SameUpToIds_intern (E : Config W F S) {d d' : Nat} {σ σ' : EngineState W S}
    (h : SameUpToIds d d' σ σ') (s : S) :
    SameUpToIds d d' (intern E σ s) (intern E σ' s) := by
  obtain ⟨h1, h2, h3, h4, h5, h6, h7⟩ := h
  have hb : getIdx E.lmmodel_ σ.history s = getIdx E.lmmodel_ σ'.history s := by rw [h4]
  have h6b := h6 (getIdx E.lmmodel_ σ.history s)
  cases hl : lookup σ.seenlmstates_ (getIdx E.lmmodel_ σ.history s) with
  | none =>
    have hl' : lookup σ'.seenlmstates_ (getIdx E.lmmodel_ σ'.history s) = none := by
      rw [hl] at h6b
      rw [← hb]
      cases hx : lookup σ'.seenlmstates_ (getIdx E.lmmodel_ σ.history s) with
      | none => rfl
      | some c => rw [hx] at h6b; exact Option.noConfusion h6b
    rw [intern_of_none E σ s hl, intern_of_none E σ' s hl']
    refine ⟨h1, h2, h3, hb, ?_, ?_, h7⟩
    · show σ.lm + 1 + d' = σ'.lm + 1 + d
      omega
    · intro b
      show (lookup (assign σ.seenlmstates_ _ (σ.lm + 1)) b).map _ =
        (lookup (assign σ'.seenlmstates_ _ (σ'.lm + 1)) b).map _
      rw [lookup_assign, lookup_assign, ← hb]
      by_cases hbb : b = getIdx E.lmmodel_ σ.history s
      · simp only [hbb, if_true, Option.map_some']
        congr 1
        omega
      · simp only [hbb, if_false]
        exact h6 b
  | some c =>
    obtain ⟨c', hl'⟩ : ∃ c', lookup σ'.seenlmstates_ (getIdx E.lmmodel_ σ'.history s) = some c' := by
      rw [hl] at h6b
      rw [← hb]
      cases hx : lookup σ'.seenlmstates_ (getIdx E.lmmodel_ σ.history s) with
      | none => rw [hx] at h6b; exact Option.noConfusion h6b
      | some c' => exact ⟨c', rfl⟩
    rw [intern_of_some E σ s hl, intern_of_some E σ' s hl']
    exact ⟨h1, h2, h3, hb, h5, h6, h7⟩

theorem SameUpToIds_add (E : Config W F S) {d d' : Nat} {σ σ' : EngineState W S}
    (h : SameUpToIds d d' σ σ') (s : S) (q : Nat) (w : W) :
    (add E σ s q w).1 = (add E σ' s q w).1 ∧
      SameUpToIds d d' (add E σ s q w).2 (add E σ' s q w).2 := by
  rw [add_eq, add_eq]
  have hi := SameUpToIds_intern E h s
  obtain ⟨c, hc⟩ := intern_lookup_history E σ s
  obtain ⟨c', hc'⟩ := intern_lookup_history E σ' s
  rw [← intern_history] at hc hc'
  obtain ⟨h1, h2, h3, h4, h5, h6, h7⟩ := hi
  have hcc : c + d' = c' + d := by
    have := h6 (intern E σ s).history
    rw [hc, h4, hc'] at this
    simpa using this
  have hkey := compound_shift q hcc
  have hse := h7 _ _ (compound_lt q c) (compound_lt q c') hkey
  cases ht : lookup (intern E σ s).stateexistence_ (compound q c) with
  | some t =>
    rw [ht] at hse
    rw [register_of_some E _ s q w hc ht, register_of_some E _ s q w hc' hse.symm]
    exact ⟨rfl, h1, h2, h3, h4, h5, h6, h7⟩
  | none =>
    rw [ht] at hse
    unfold register
    rw [hc, hc', Option.getD_some, Option.getD_some, ht, ← hse]
    simp only
    rw [h2, h1]
    refine ⟨rfl, rfl, rfl, h3, h4, h5, h6, ?_⟩
    intro x x' hx hx' hxx
    show lookup (assign _ _ _) x = lookup (assign _ _ _) x'
    rw [lookup_assign, lookup_assign]
    have hiff := shifted_key_eq_iff (compound_lt q c) (compound_lt q c') hx hx' hkey hxx
    by_cases e : x = compound q c
    · rw [if_pos e, if_pos (hiff.1 e)]
    · rw [if_neg e, if_neg (fun e' => e (hiff.2 e'))]
      exact h7 x x' hx hx' hxx

theorem SameUpToIds_visitArc (E : Config W F S) (fst_ : VectorFst W) {d d' : Nat}
    {σ σ' : EngineState W S} (h : SameUpToIds d d' σ σ') (s : Nat) (s2 : S) (a : Arc W) :
    SameUpToIds d d' (visitArc E fst_ s s2 σ a) (visitArc E fst_ s s2 σ' a) := by
  obtain ⟨h0, h1, h2, h3, h4, h5, h6, h7⟩ := SameUpToIds_add E h (scoreArc E s2 a.olabel).2.2
    a.nextstate (fst_.Final E.Zero a.nextstate)
  unfold visitArc
  simp only
  rw [h0, h2]
  by_cases hv : (add E σ' (scoreArc E s2 a.olabel).2.2 a.nextstate
      (fst_.Final E.Zero a.nextstate)).1.2 = true
  · rw [if_pos hv, if_pos hv]
    exact ⟨h1, rfl, h3, h4, h5, h6, h7⟩
  · rw [if_neg hv, if_neg hv]
    refine ⟨h1, rfl, ?_, h4, h5, h6, h7⟩
    show _ ++ _ = _ ++ _
    rw [h3]

theorem SameUpToIds_foldl (E : Config W F S) (fst_ : VectorFst W) {d d' : Nat} (s : Nat)
    (s2 : S) (arcs : List (Arc W)) : ∀ σ σ' : EngineState W S, SameUpToIds d d' σ σ' →
      SameUpToIds d d' (arcs.foldl (visitArc E fst_ s s2) σ)
        (arcs.foldl (visitArc E fst_ s s2) σ') := by
  induction arcs with
  | nil => intro σ σ' h; exact h
  | cons a rest ih =>
    intro σ σ' h
    exact ih _ _ (SameUpToIds_visitArc E fst_ h s s2 a)

theorem SameUpToIds_expand (E : Config W F S) (fst_ : VectorFst W) {d d' : Nat}
    {σ σ' : EngineState W S} (h : SameUpToIds d d' σ σ') :
    SameUpToIds d d' (expand E fst_ σ) (expand E fst_ σ') := by
  have h' := h
  obtain ⟨h1, h2, h3, h4, h5, h6, h7⟩ := h'
  unfold expand
  rw [← h3]
  cases hq : σ.qc_ with
  | nil => simp only; exact h
  | cons x tl =>
    simp only
    have hg : get E σ x = get E σ' x := by unfold get; rw [h1]
    rw [hg]
    apply SameUpToIds_foldl
    exact ⟨h1, h2, rfl, h4, h5, h6, h7⟩

theorem SameUpToIds_traverse (E : Config W F S) (fst_ : VectorFst W) {d d' : Nat}
    (fuel : Nat) : ∀ σ σ' : EngineState W S, SameUpToIds d d' σ σ' →
      SameUpToIds d d' (traverse E fst_ fuel σ) (traverse E fst_ fuel σ') := by
  induction fuel with
  | zero => intro σ σ' h; exact h
  | succ n ih =>
    intro σ σ' h
    unfold traverse
    rw [← h.2.2.1]
    by_cases hq : σ.qc_ = []
    · rw [if_pos hq, if_pos hq]; exact h
    · rw [if_neg hq, if_neg hq]
      exact ih _ _ (SameUpToIds_expand E fst_ h)

theorem SameUpToIds_initial (E : Config W F S) (fst_ : VectorFst W) {d d' : Nat}
    {σ σ' : EngineState W S} (h : SameUpToIds d d' σ σ') :
    SameUpToIds d d' (initial E σ fst_) (initial E σ' fst_) := by
  obtain ⟨h1, h2, h3, h4, h5, h6, h7⟩ := h
  have h0 : SameUpToIds d d' ({ σ with composed_ := VectorFst.new } : EngineState W S)
      ({ σ' with composed_ := VectorFst.new } : EngineState W S) := by
    exact ⟨h1, rfl, h3, h4, h5, h6, h7⟩
  obtain ⟨g0, g1, g2, g3, g4, g5, g6, g7⟩ := SameUpToIds_add E h0 E.lmmodel_.NullContextState
    fst_.Start (fst_.Final E.Zero fst_.Start)
  unfold initial
  simp only
  rw [g0]
  refine ⟨g1, ?_, ?_, g4, g5, g6, g7⟩
  · show VectorFst.SetStart _ _ = VectorFst.SetStart _ _
    rw [g2]
  · show _ ++ _ = _ ++ _
    rw [g3]

end Shift

/-! ## Counting arcs -/

section Counting

variable {W F S : Type} [DecidableEq W] [Mul W] [Mul F] [Zero F]

theorem forall₂_getElem?_left {α β : Type} {R : α → β → Prop} {l₁ : List α} {l₂ : List β}
    (h : List.Forall₂ R l₁ l₂) : ∀ (j : Nat) (e : α), l₁[j]? = some e →
      ∃ a, l₂[j]? = some a ∧ R e a := by
  induction h with
  | nil => intro j e he; simp at he
  | @cons e' a' t₁ t₂ hea _ ih =>
    intro j e he
    cases j with
    | zero =>
      simp only [List.getElem?_cons_zero, Option.some.injEq] at he
      subst he
      exact ⟨a', by simp, hea⟩
    | succ j =>
      simp only [List.getElem?_cons_succ] at he
      obtain ⟨a, ha, hr⟩ := ih j e he
      exact ⟨a, by simpa using ha, hr⟩

theorem forall₂_of_mem_right {α β : Type} {R : α → β → Prop} {l₁ : List α} {l₂ : List β}
    (h : List.Forall₂ R l₁ l₂) : ∀ a, a ∈ l₂ → ∃ e, e ∈ l₁ ∧ R e a := by
  induction h with
  | nil => intro a ha; exact absurd ha (List.not_mem_nil _)
  | @cons e' a' t₁ t₂ hea _ ih =>
    intro a ha
    rcases List.mem_cons.mp ha with h | h
    · subst h
      exact ⟨e', List.mem_cons_self _ _, hea⟩
    · obtain ⟨e, he, hr⟩ := ih a h
      exact ⟨e, List.mem_cons_of_mem _ he, hr⟩

/-- The arc count of an automaton, state by state. -/
theorem NumArcsTotal_eq_range (f : VectorFst W) :
    f.NumArcsTotal = ((List.range f.NumStates).map (fun o => (f.arcsOf o).length)).sum := by
  unfold VectorFst.NumArcsTotal VectorFst.NumStates
  congr 1
  apply List.ext_getElem
  · simp
  · intro i h1 h2
    have hi : i < f.states.length := by simpa using h1
    simp [VectorFst.arcsOf, List.getElem?_eq_getElem hi]

/-- At the end of a composition within the key range, output state 0 is paired with the
start state of the input and a context of the buffer of the null context. -/
theorem start_paired (E : Config W F S) (fst_ : VectorFst W) (lm0 : Nat)
    (hwf : WellFormed fst_) (hN : fst_.NumStates ≤ 2 ^ 31)
    (hK : (compose E (EngineState.fresh E lm0) fst_).2.lm ≤ lm0 + sid) :
    ∃ s0, lookup (compose E (EngineState.fresh E lm0) fst_).2.statemap_ 0
        = some (fst_.Start, s0) ∧
      normalize E.lmmodel_ s0 = normalize E.lmmodel_ E.lmmodel_.NullContextState := by
  have hne : fst_.NumStates ≠ 0 := by have := hwf.2.1; omega
  obtain ⟨_, hI, _, _, hreg⟩ := compose_fresh E fst_ lm0 hne
  exact target_paired hI hwf hN hK hwf.2.1 hreg

/-- At the end of a composition within the key range, every state of the input reached
from the start state is paired with an output state. -/
theorem reach_has_state {E : Config W F S} {fst_ : VectorFst W} {lm0 : Nat}
    (hwf : WellFormed fst_) (hN : fst_.NumStates ≤ 2 ^ 31)
    (hK : (compose E (EngineState.fresh E lm0) fst_).2.lm ≤ lm0 + sid) {q : Nat}
    (hq : Reach fst_ q) :
    ∃ o s, lookup (compose E (EngineState.fresh E lm0) fst_).2.statemap_ o = some (q, s) := by
  have hne : fst_.NumStates ≠ 0 := by have := hwf.2.1; omega
  obtain ⟨_, hI, hqc, _, _⟩ := compose_fresh E fst_ lm0 hne
  induction hq with
  | start =>
    obtain ⟨s0, h0, _⟩ := start_paired E fst_ lm0 hwf hN hK
    exact ⟨0, s0, h0⟩
  | @step q a hq' ha ih =>
    obtain ⟨o, s, hos⟩ := ih
    obtain ⟨e, _, hea⟩ := forall₂_of_mem_right (arcs_complete hI hqc hos) a ha
    obtain ⟨s', hs', _⟩ := target_paired hI hwf hN hK
      (Reach_lt hwf (Reach.step hq' ha)) hea.2.2.2
    exact ⟨e.nextstate, s', hs'⟩

/-- The arc count of the output is the arc count of the input when every input state is
reached from the start state and none is paired with two output states. -/
theorem arc_count_of_bijection {E : Config W F S} {fst_ : VectorFst W} {lm0 : Nat}
    (hwf : WellFormed fst_) (hN : fst_.NumStates ≤ 2 ^ 31)
    (hK : (compose E (EngineState.fresh E lm0) fst_).2.lm ≤ lm0 + sid)
    (hall : AllReachable fst_)
    (hno : NoStateUnderTwoContexts E (compose E (EngineState.fresh E lm0) fst_).2) :
    (compose E (EngineState.fresh E lm0) fst_).2.composed_.NumArcsTotal
      = fst_.NumArcsTotal := by
  have hne : fst_.NumStates ≠ 0 := by have := hwf.2.1; omega
  obtain ⟨_, hI, hqc, _, _⟩ := compose_fresh E fst_ lm0 hne
  have hreach : ∀ q, Reach fst_ q →
      ∃ o s, lookup (compose E (EngineState.fresh E lm0) fst_).2.statemap_ o = some (q, s) :=
    fun q hq => reach_has_state hwf hN hK hq
  generalize (compose E (EngineState.fresh E lm0) fst_).2 = σ at *
  -- the original state paired with an output state
  let f : Nat → Nat := fun o => (get E σ o).1
  have hf : ∀ o, o < σ.composed_.NumStates →
      ∃ s, lookup σ.statemap_ o = some (f o, s) := by
    intro o ho
    obtain ⟨⟨q, s⟩, hp⟩ := Option.ne_none_iff_exists'.mp ((hI.dom o).1 ho)
    refine ⟨s, ?_⟩
    show lookup σ.statemap_ o = some ((get E σ o).1, s)
    unfold get
    rw [hp]
    rfl
  have hlen : ∀ o, o ∈ List.range σ.composed_.NumStates →
      (σ.composed_.arcsOf o).length = (fst_.arcsOf (f o)).length := by
    intro o ho
    obtain ⟨s, hs⟩ := hf o (List.mem_range.mp ho)
    exact (arcs_complete hI hqc hs).length_eq
  have hinj : ∀ x ∈ List.range σ.composed_.NumStates,
      ∀ y ∈ List.range σ.composed_.NumStates, f x = f y → x = y := by
    intro x hx y hy hxy
    obtain ⟨s₁, h₁⟩ := hf x (List.mem_range.mp hx)
    obtain ⟨s₂, h₂⟩ := hf y (List.mem_range.mp hy)
    have hc := hno _ (lookup_mem _ _ _ h₁) _ (lookup_mem _ _ _ h₂) hxy
    obtain ⟨c₁, hc₁, hse₁⟩ := hI.reg1 x _ s₁ h₁
    obtain ⟨c₂, hc₂, hse₂⟩ := hI.reg1 y _ s₂ h₂
    simp only at hc
    rw [hc₁, hc₂] at hc
    have e := Option.some.inj hc
    subst e
    rw [hxy, hse₂] at hse₁
    exact (Option.some.inj hse₁).symm
  have hperm : ((List.range σ.composed_.NumStates).map f).Perm (List.range fst_.NumStates) := by
    rw [List.perm_ext_iff_of_nodup ((List.nodup_range _).map_on hinj) (List.nodup_range _)]
    intro q
    rw [List.mem_map, List.mem_range]
    constructor
    · rintro ⟨o, ho, rfl⟩
      obtain ⟨s, hs⟩ := hf o (List.mem_range.mp ho)
      exact Reach_lt hwf (hI.reach o _ s hs)
    · intro hq
      obtain ⟨o, s, hos⟩ := hreach q (Reach_of_mem_reachSet fst_ _ q (hall q hq))
      refine ⟨o, List.mem_range.mpr ((hI.dom o).2 (by rw [hos]; simp)), ?_⟩
      show (get E σ o).1 = q
      unfold get
      rw [hos]
      rfl
  rw [NumArcsTotal_eq_range, NumArcsTotal_eq_range, List.map_congr_left hlen]
  have := (hperm.map (fun q => (fst_.arcsOf q).length)).sum_eq
  rw [List.map_map] at this
  exact this

end Counting

/-! ## Weights along a path -/

section PathWeights

variable {W F S : Type} [DecidableEq W] [CommMonoid W] [Mul F] [Zero F]

/-- Contexts of the same buffer score an arc alike when the model scores by buffer. -/
theorem scoreArc_congr (E : Config W F S) (hlm : ScoresByBuffer E.lmmodel_) {s r : S}
    (h : normalize E.lmmodel_ s = normalize E.lmmodel_ r) (l : Int) :
    (scoreArc E s l).1 = (scoreArc E r l).1 ∧ (scoreArc E s l).2.1 = (scoreArc E r l).2.1 ∧
      normalize E.lmmodel_ (scoreArc E s l).2.2 = normalize E.lmmodel_ (scoreArc E r l).2.2 := by
  obtain ⟨h1, h2⟩ := hlm s r h (E.idbridge_ l)
  unfold scoreArc
  by_cases he : l ∉ E.epsilons_
  · rw [if_pos he, if_pos he]
    by_cases h2' : l ≤ 2
    · rw [if_pos h2', if_pos h2']
      exact ⟨by simp only [h1], rfl, h2⟩
    · rw [if_neg h2', if_neg h2']
      exact ⟨by simp only [h1], rfl, h2⟩
  · rw [if_neg he, if_neg he]
    exact ⟨rfl, rfl, h⟩

/-- The decoration of one arc and the replay of the rest make the replay of the whole. -/
theorem replay_cons (E : Config W F S) (hmw : E.mw_ 0 = 1) (r : S) (l : Int) (ls : List Int) :
    E.mw_ (scoreArc E r l).1 * E.mw_ (scoreArc E r l).2.1 *
        (replayLM E (scoreArc E r l).2.2 ls * wordPenalties E ls) =
      replayLM E r (l :: ls) * wordPenalties E (l :: ls) := by
  unfold scoreArc wordPenalties
  by_cases he : l ∈ E.epsilons_
  · have hf : (l :: ls).filter (fun l => decide (l ∉ E.epsilons_ ∧ ¬ l ≤ 2)) =
        ls.filter (fun l => decide (l ∉ E.epsilons_ ∧ ¬ l ≤ 2)) := by
      rw [List.filter_cons_of_neg]
      simp [he]
    rw [if_neg (not_not.mpr he), hf]
    simp only [replayLM, he, if_true, hmw, one_mul]
  · rw [if_pos he]
    by_cases h2 : l ≤ 2
    · have hf : (l :: ls).filter (fun l => decide (l ∉ E.epsilons_ ∧ ¬ l ≤ 2)) =
          ls.filter (fun l => decide (l ∉ E.epsilons_ ∧ ¬ l ≤ 2)) := by
        rw [List.filter_cons_of_neg]
        simp [h2]
      rw [if_pos h2, hf]
      simp only [replayLM, he, if_false, hmw, mul_one]
      rw [mul_assoc]
    · have h1 : ¬ l = 1 := by omega
      have hf : (l :: ls).filter (fun l => decide (l ∉ E.epsilons_ ∧ ¬ l ≤ 2)) =
          l :: ls.filter (fun l => decide (l ∉ E.epsilons_ ∧ ¬ l ≤ 2)) := by
        rw [List.filter_cons_of_pos]
        simp [he, h2]
      rw [if_neg h2, hf]
      simp only [replayLM, he, h1, if_false, List.length_cons, pow_succ]
      simp only [mul_comm, mul_left_comm, mul_assoc]

/-- The weight of a path of the output from a state paired with `(q, s)`, when `r` is a
context with the buffer of `s`. -/
theorem follow_weight {E : Config W F S} {fst_ : VectorFst W} {lm0 : Nat}
    {σ : EngineState W S} (hI : Inv E fst_ lm0 σ 0 []) (hqc : σ.qc_ = [])
    (hwf : WellFormed fst_) (hN : fst_.NumStates ≤ 2 ^ 31) (hK : σ.lm ≤ lm0 + sid)
    (hmw : E.mw_ 0 = 1) (hlm : ScoresByBuffer E.lmmodel_) :
    ∀ (idxs : List Nat) (o q : Nat) (s r : S) (p : List (Arc W)),
      lookup σ.statemap_ o = some (q, s) →
      normalize E.lmmodel_ s = normalize E.lmmodel_ r →
      follow σ.composed_ o idxs = some p →
      ∃ pin, follow fst_ q idxs = some pin ∧
        List.Forall₂ (fun e a => e.ilabel = a.ilabel ∧ e.olabel = a.olabel ∧
          ∃ s', lookup σ.statemap_ e.nextstate = some (a.nextstate, s')) p pin ∧
        pathWeight p = pathWeight pin * replayLM E r (p.map (fun a => a.olabel)) *
          wordPenalties E (p.map (fun a => a.olabel)) := by
  intro idxs
  induction idxs with
  | nil =>
    intro o q s r p _ _ hp
    have : p = [] := by
      unfold follow at hp
      exact (Option.some.inj hp).symm
    subst this
    refine ⟨[], rfl, List.Forall₂.nil, ?_⟩
    simp [pathWeight, replayLM, wordPenalties]
  | cons j js ih =>
    intro o q s r p hos hsr hp
    unfold follow at hp
    cases he : (σ.composed_.arcsOf o)[j]? with
    | none => rw [he] at hp; exact Option.noConfusion hp
    | some e =>
      rw [he] at hp
      simp only [Option.map_eq_some'] at hp
      obtain ⟨p', hp', rfl⟩ := hp
      obtain ⟨a, ha, hea⟩ := forall₂_getElem?_left (arcs_complete hI hqc hos) j e he
      have hreach := hI.reach o q s hos
      have hlt : a.nextstate < fst_.NumStates :=
        Reach_lt hwf (Reach.step hreach (List.getElem?_mem ha))
      obtain ⟨s', hs', hn'⟩ := target_paired hI hwf hN hK hlt hea.2.2.2
      obtain ⟨c1, c2, c3⟩ := scoreArc_congr E hlm hsr a.olabel
      obtain ⟨pin', hpin', hrel', hw'⟩ := ih e.nextstate a.nextstate s'
        (scoreArc E r a.olabel).2.2 p' hs' (hn'.trans c3) hp'
      refine ⟨a :: pin', ?_, List.Forall₂.cons ⟨hea.1, hea.2.1, s', hs'⟩ hrel', ?_⟩
      · simp only [follow, ha, hpin', Option.map_some']
      · have hrc := replay_cons E hmw r a.olabel (p'.map (fun a => a.olabel))
        simp only [pathWeight, List.map_cons, List.prod_cons] at hw' ⊢
        rw [hea.2.1, mul_assoc (_ * _) (replayLM _ _ _) _, ← hrc, hw', hea.2.2.1, c1, c2]
        simp only [mul_comm, mul_left_comm, mul_assoc]

end PathWeights

/-! ## The test data -/

/-- The bigram model scores by buffer: the buffer of a context is the context word
followed by 0. -/
theorem bigramModel_scoresByBuffer : ScoresByBuffer bigramModel := by
  intro s s' h v
  have e : ∀ x : Nat, normalize bigramModel x = [x, 0] := fun x => rfl
  rw [e, e] at h
  have hs : s = s' := by simpa using h
  subst hs
  exact ⟨rfl, rfl⟩

/-! ## The interning index along the life of an engine -/

section Index

variable {W F S : Type} [DecidableEq W] [Mul W] [Mul F] [Zero F]

theorem SameIndex_refl (σ : EngineState W S) : SameIndex σ σ := ⟨rfl, rfl, rfl⟩

theorem SameIndex_trans {σ τ υ : EngineState W S} (h1 : SameIndex σ τ) (h2 : SameIndex τ υ) :
    SameIndex σ υ :=
  ⟨h1.1.trans h2.1, h1.2.1.trans h2.2.1, h1.2.2.trans h2.2.2⟩

/-- Interning reads and writes the buffer, the index and the counter only. -/
theorem SameIndex_intern (E : Config W F S) {σ τ : EngineState W S} (h : SameIndex σ τ)
    (s : S) : SameIndex (intern E σ s) (intern E τ s) := by
  obtain ⟨h1, h2, h3⟩ := h
  unfold intern
  rw [h1, h2, h3]
  cases lookup τ.seenlmstates_ (getIdx E.lmmodel_ τ.history s) with
  | none => exact ⟨rfl, rfl, rfl⟩
  | some c => exact ⟨rfl, rfl, rfl⟩

theorem SameIndex_foldl_intern (E : Config W F S) (ss : List S) :
    ∀ σ τ : EngineState W S, SameIndex σ τ →
      SameIndex (ss.foldl (intern E) σ) (ss.foldl (intern E) τ) := by
  induction ss with
  | nil => intro σ τ h; exact h
  | cons s rest ih => intro σ τ h; exact ih _ _ (SameIndex_intern E h s)

theorem Later_refl (E : Config W F S) (σ : EngineState W S) : Later E σ σ :=
  ⟨[], SameIndex_refl σ⟩

theorem Later_trans {E : Config W F S} {σ τ υ : EngineState W S} (h1 : Later E σ τ)
    (h2 : Later E τ υ) : Later E σ υ := by
  obtain ⟨ss, hs⟩ := h1
  obtain ⟨ts, ht⟩ := h2
  refine ⟨ss ++ ts, ?_⟩
  rw [List.foldl_append]
  exact SameIndex_trans ht (SameIndex_foldl_intern E ts _ _ hs)

theorem Later_of_sameIndex (E : Config W F S) {σ τ : EngineState W S} (h : SameIndex τ σ) :
    Later E σ τ := ⟨[], h⟩

theorem register_sameIndex (E : Config W F S) (σ1 : EngineState W S) (s : S) (q : Nat)
    (w : W) : SameIndex (register E σ1 s q w).2 σ1 := by
  unfold register
  split
  · exact ⟨rfl, rfl, rfl⟩
  · exact ⟨rfl, rfl, rfl⟩

theorem add_sameIndex (E : Config W F S) (σ : EngineState W S) (s : S) (q : Nat) (w : W) :
    SameIndex (add E σ s q w).2 (intern E σ s) := by
  rw [add_eq]
  exact register_sameIndex E _ s q w

theorem add_later (E : Config W F S) (σ : EngineState W S) (s : S) (q : Nat) (w : W) :
    Later E σ (add E σ s q w).2 := ⟨[s], add_sameIndex E σ s q w⟩

theorem visitArc_sameIndex (E : Config W F S) (fst_ : VectorFst W) (s : Nat) (s2 : S)
    (σ : EngineState W S) (a : Arc W) :
    SameIndex (visitArc E fst_ s s2 σ a) (intern E σ (scoreArc E s2 a.olabel).2.2) := by
  have h := add_sameIndex E σ (scoreArc E s2 a.olabel).2.2 a.nextstate
    (fst_.Final E.Zero a.nextstate)
  unfold visitArc
  simp only
  split
  · exact h
  · exact h

theorem visitArc_later (E : Config W F S) (fst_ : VectorFst W) (s : Nat) (s2 : S)
    (σ : EngineState W S) (a : Arc W) : Later E σ (visitArc E fst_ s s2 σ a) :=
  ⟨[(scoreArc E s2 a.olabel).2.2], visitArc_sameIndex E fst_ s s2 σ a⟩

theorem foldl_visitArc_later (E : Config W F S) (fst_ : VectorFst W) (s : Nat) (s2 : S)
    (arcs : List (Arc W)) : ∀ σ : EngineState W S,
      Later E σ (arcs.foldl (visitArc E fst_ s s2) σ) := by
  induction arcs with
  | nil => intro σ; exact Later_refl E σ
  | cons a rest ih => intro σ; exact Later_trans (visitArc_later E fst_ s s2 σ a) (ih _)

theorem expand_later (E : Config W F S) (fst_ : VectorFst W) (σ : EngineState W S) :
    Later E σ (expand E fst_ σ) := by
  unfold expand
  split
  · exact Later_refl E σ
  · next x tl _ =>
    have h0 : Later E σ ({ σ with qc_ := tl } : EngineState W S) :=
      Later_of_sameIndex E ⟨rfl, rfl, rfl⟩
    exact Later_trans h0
      (foldl_visitArc_later E fst_ x (get E σ x).2 (fst_.arcsOf (get E σ x).1) _)

theorem traverse_later (E : Config W F S) (fst_ : VectorFst W) (fuel : Nat) :
    ∀ σ : EngineState W S, Later E σ (traverse E fst_ fuel σ) := by
  induction fuel with
  | zero => intro σ; exact Later_refl E σ
  | succ n ih =>
    intro σ
    unfold traverse
    split
    · exact Later_refl E σ
    · exact Later_trans (expand_later E fst_ σ) (ih _)

theorem initial_later (E : Config W F S) (σ : EngineState W S) (fst_ : VectorFst W) :
    Later E σ (initial E σ fst_) := by
  have h0 : Later E σ ({ σ with composed_ := VectorFst.new } : EngineState W S) :=
    Later_of_sameIndex E ⟨rfl, rfl, rfl⟩
  have h1 := add_later E ({ σ with composed_ := VectorFst.new } : EngineState W S)
    E.lmmodel_.NullContextState fst_.Start (fst_.Final E.Zero fst_.Start)
  have h2 : Later E (add E ({ σ with composed_ := VectorFst.new } : EngineState W S)
      E.lmmodel_.NullContextState fst_.Start (fst_.Final E.Zero fst_.Start)).2
      (initial E σ fst_) := Later_of_sameIndex E ⟨rfl, rfl, rfl⟩
  exact Later_trans (Later_trans h0 h1) h2

/-- The engine state `operator()` leaves is a later state of the engine. -/
theorem compose_later (E : Config W F S) (σ : EngineState W S) (fst_ : VectorFst W) :
    Later E σ (compose E σ fst_).2 := by
  by_cases h : fst_.NumStates = 0
  · unfold compose
    rw [if_pos h]
    exact Later_refl E σ
  · rw [compose_of_ne E σ fst_ h]
    exact Later_trans (initial_later E σ fst_) (traverse_later E fst_ _ _)

theorem IndexOk_of_sameIndex {σ τ : EngineState W S} (h : SameIndex τ σ) (hok : IndexOk σ) :
    IndexOk τ := by
  obtain ⟨_, h2, h3⟩ := h
  unfold IndexOk
  rw [h2, h3]
  exact hok

theorem IndexOk_intern (E : Config W F S) {σ : EngineState W S} (hok : IndexOk σ) (s : S) :
    IndexOk (intern E σ s) := by
  cases hl : lookup σ.seenlmstates_ (getIdx E.lmmodel_ σ.history s) with
  | some c' =>
    rw [intern_of_some E σ s hl]
    exact hok
  | none =>
    rw [intern_of_none E σ s hl]
    constructor
    · intro b c h
      simp only [lookup_assign] at h
      by_cases hb : b = getIdx E.lmmodel_ σ.history s
      · simp only [hb, if_true, Option.some.injEq] at h
        simp only
        omega
      · simp only [hb, if_false] at h
        have := hok.1 b c h
        simp only
        omega
    · intro b b' c h h'
      simp only [lookup_assign] at h h'
      by_cases hb : b = getIdx E.lmmodel_ σ.history s
      · by_cases hb' : b' = getIdx E.lmmodel_ σ.history s
        · rw [hb, hb']
        · simp only [hb, if_true, Option.some.injEq] at h
          simp only [hb', if_false] at h'
          have := hok.1 b' c h'
          omega
      · by_cases hb' : b' = getIdx E.lmmodel_ σ.history s
        · simp only [hb', if_true, Option.some.injEq] at h'
          simp only [hb, if_false] at h
          have := hok.1 b c h
          omega
        · simp only [hb, if_false] at h
          simp only [hb', if_false] at h'
          exact hok.2 b b' c h h'

theorem IndexOk_foldl_intern (E : Config W F S) (ss : List S) :
    ∀ σ : EngineState W S, IndexOk σ → IndexOk (ss.foldl (intern E) σ) := by
  induction ss with
  | nil => intro σ h; exact h
  | cons s rest ih => intro σ h; exact ih _ (IndexOk_intern E h s)

/-- The index stays sound along the life of the engine. -/
theorem IndexOk_later {E : Config W F S} {σ σ' : EngineState W S} (h : Later E σ σ')
    (hok : IndexOk σ) : IndexOk σ' := by
  obtain ⟨ss, hs⟩ := h
  exact IndexOk_of_sameIndex hs (IndexOk_foldl_intern E ss σ hok)

theorem IndexOk_fresh (E : Config W F S) (lm0 : Nat) : IndexOk (EngineState.fresh E lm0) :=
  ⟨fun _ _ h => Option.noConfusion h, fun _ _ _ h => Option.noConfusion h⟩

theorem HistOk_foldl_intern (E : Config W F S) (ss : List S) :
    ∀ σ : EngineState W S, HistOk E.lmmodel_ σ.history →
      HistOk E.lmmodel_ (ss.foldl (intern E) σ).history := by
  induction ss with
  | nil => intro σ h; exact h
  | cons s rest ih =>
    intro σ h
    apply ih
    rw [intern_history]
    exact HistOk_getIdx _ _ _ h

theorem HistOk_later {E : Config W F S} {σ σ' : EngineState W S} (h : Later E σ σ')
    (hok : HistOk E.lmmodel_ σ.history) : HistOk E.lmmodel_ σ'.history := by
  obtain ⟨ss, hs⟩ := h
  rw [hs.1]
  exact HistOk_foldl_intern E ss σ hok

theorem seen_foldl_intern_mono (E : Config W F S) (ss : List S) :
    ∀ (σ : EngineState W S) (b : List Nat) (c : Nat), lookup σ.seenlmstates_ b = some c →
      lookup (ss.foldl (intern E) σ).seenlmstates_ b = some c := by
  induction ss with
  | nil => intro σ b c h; exact h
  | cons s rest ih => intro σ b c h; exact ih _ b c (intern_seen_mono E σ s h)

/-- An id, once given, stays along the life of the engine. -/
theorem seen_later {E : Config W F S} {σ σ' : EngineState W S} (h : Later E σ σ')
    {b : List Nat} {c : Nat} (hb : lookup σ.seenlmstates_ b = some c) :
    lookup σ'.seenlmstates_ b = some c := by
  obtain ⟨ss, hs⟩ := h
  rw [hs.2.1]
  exact seen_foldl_intern_mono E ss σ b c hb

end Index

/-! ## The queue and the numbering of the output states -/

section Trace

variable {W F S : Type} [DecidableEq W] [Mul W] [Mul F] [Zero F]

theorem Grows_refl (σ : EngineState W S) : Grows σ σ := ⟨Nat.le_refl _, fun _ _ => rfl⟩

theorem Grows_trans {σ τ υ : EngineState W S} (h1 : Grows σ τ) (h2 : Grows τ υ) :
    Grows σ υ :=
  ⟨Nat.le_trans h1.1 h2.1,
    fun o ho => (h2.2 o (Nat.lt_of_lt_of_le ho h1.1)).trans (h1.2 o ho)⟩

/-- The two outcomes of the registration: a new state, numbered by the number of states
there were, or a state of the registry and no change at all. -/
theorem register_cases (E : Config W F S) (σ1 : EngineState W S) (s : S) (q : Nat) (w : W) :
    ((register E σ1 s q w).1 = (σ1.composed_.NumStates, false) ∧
      (register E σ1 s q w).2.composed_.NumStates = σ1.composed_.NumStates + 1 ∧
      (register E σ1 s q w).2.statemap_ = assign σ1.statemap_ σ1.composed_.NumStates (q, s) ∧
      (register E σ1 s q w).2.qc_ = σ1.qc_) ∨
    (∃ t, (register E σ1 s q w).1 = (t, true) ∧ (register E σ1 s q w).2 = σ1) := by
  unfold register
  split
  · refine Or.inl ⟨rfl, ?_, rfl, rfl⟩
    simp only
    split
    · rw [VectorFst.NumStates_SetFinal, VectorFst.NumStates_AddState]
    · rw [VectorFst.NumStates_AddState]
  · next st _ => exact Or.inr ⟨st, rfl, rfl⟩

/-- The two outcomes of `add`: a new state, numbered by the number of states there were,
or a state of the registry, the automaton, the backmap and the queue being left alone. -/
theorem add_cases (E : Config W F S) (σ : EngineState W S) (s : S) (q : Nat) (w : W) :
    ((add E σ s q w).1 = (σ.composed_.NumStates, false) ∧
      (add E σ s q w).2.composed_.NumStates = σ.composed_.NumStates + 1 ∧
      (add E σ s q w).2.statemap_ = assign σ.statemap_ σ.composed_.NumStates (q, s) ∧
      (add E σ s q w).2.qc_ = σ.qc_) ∨
    (∃ t, (add E σ s q w).1 = (t, true) ∧
      (add E σ s q w).2.composed_ = σ.composed_ ∧
      (add E σ s q w).2.statemap_ = σ.statemap_ ∧
      (add E σ s q w).2.qc_ = σ.qc_) := by
  rw [add_eq]
  rcases register_cases E (intern E σ s) s q w with ⟨h1, h2, h3, h4⟩ | ⟨t, h1, h2⟩
  · left
    rw [intern_composed] at h1 h2 h3
    rw [intern_statemap] at h3
    rw [intern_qc] at h4
    exact ⟨h1, h2, h3, h4⟩
  · right
    refine ⟨t, h1, ?_, ?_, ?_⟩
    · rw [h2, intern_composed]
    · rw [h2, intern_statemap]
    · rw [h2, intern_qc]

theorem add_grows (E : Config W F S) (σ : EngineState W S) (s : S) (q : Nat) (w : W) :
    Grows σ (add E σ s q w).2 := by
  rcases add_cases E σ s q w with ⟨_, h2, h3, _⟩ | ⟨t, _, h2, h3, _⟩
  · refine ⟨by omega, fun o ho => ?_⟩
    rw [h3, lookup_assign, if_neg (by omega)]
  · refine ⟨by rw [h2], fun o _ => by rw [h3]⟩

/-- The visit of an arc appends to the queue what `pushedByArc` lists, which is the state
the visit created, if it created one; states and backmap entries that exist stay. -/
theorem visitArc_trace (E : Config W F S) (fst_ : VectorFst W) (s : Nat) (s2 : S)
    (σ : EngineState W S) (a : Arc W) :
    (visitArc E fst_ s s2 σ a).qc_ = σ.qc_ ++ pushedByArc E fst_ s2 σ a ∧
    pushedByArc E fst_ s2 σ a = List.range' σ.composed_.NumStates
      ((visitArc E fst_ s s2 σ a).composed_.NumStates - σ.composed_.NumStates) ∧
    Grows σ (visitArc E fst_ s s2 σ a) := by
  have hg := add_grows E σ (scoreArc E s2 a.olabel).2.2 a.nextstate
    (fst_.Final E.Zero a.nextstate)
  rcases add_cases E σ (scoreArc E s2 a.olabel).2.2 a.nextstate
    (fst_.Final E.Zero a.nextstate) with ⟨h1, h2, h3, h4⟩ | ⟨t, h1, h2, h3, h4⟩
  · unfold visitArc pushedByArc
    simp only [h1, Bool.false_eq_true, if_false, VectorFst.NumStates_AddArc, h2, h4]
    refine ⟨trivial, ?_, ?_⟩
    · simp
    · exact ⟨by simp only [VectorFst.NumStates_AddArc, h2]; omega, hg.2⟩
  · unfold visitArc pushedByArc
    simp only [h1, if_true, VectorFst.NumStates_AddArc, h2, h4, List.append_nil]
    refine ⟨trivial, ?_, ?_⟩
    · simp
    · exact ⟨by simp only [VectorFst.NumStates_AddArc, h2, Nat.le_refl], hg.2⟩

theorem foldl_visitArc_trace (E : Config W F S) (fst_ : VectorFst W) (s : Nat) (s2 : S)
    (arcs : List (Arc W)) : ∀ σ : EngineState W S,
    (arcs.foldl (visitArc E fst_ s s2) σ).qc_ = σ.qc_ ++ pushedByArcs E fst_ s s2 σ arcs ∧
    pushedByArcs E fst_ s s2 σ arcs = List.range' σ.composed_.NumStates
      ((arcs.foldl (visitArc E fst_ s s2) σ).composed_.NumStates - σ.composed_.NumStates) ∧
    Grows σ (arcs.foldl (visitArc E fst_ s s2) σ) := by
  induction arcs with
  | nil =>
    intro σ
    simp [pushedByArcs, Grows_refl]
  | cons a rest ih =>
    intro σ
    obtain ⟨h1, h2, h3⟩ := visitArc_trace E fst_ s s2 σ a
    obtain ⟨k1, k2, k3⟩ := ih (visitArc E fst_ s s2 σ a)
    rw [List.foldl_cons]
    refine ⟨?_, ?_, Grows_trans h3 k3⟩
    · rw [k1, h1, List.append_assoc]; rfl
    · have e1 := h3.1
      have e2 := k3.1
      show pushedByArc E fst_ s2 σ a ++ pushedByArcs E fst_ s s2 (visitArc E fst_ s s2 σ a) rest
        = _
      rw [h2, k2]
      have e3 : (visitArc E fst_ s s2 σ a).composed_.NumStates =
          σ.composed_.NumStates +
            ((visitArc E fst_ s s2 σ a).composed_.NumStates - σ.composed_.NumStates) := by
        omega
      nth_rewrite 2 [e3]
      rw [List.range'_append_1]
      congr 1
      omega

end Trace

section TraceLoop

variable {W F S : Type} [DecidableEq W] [Mul W] [Mul F] [Zero F]

theorem expand_trace (E : Config W F S) (fst_ : VectorFst W) (σ : EngineState W S)
    (s : Nat) (rest : List Nat) (h : σ.qc_ = s :: rest) :
    (expand E fst_ σ).qc_ = rest ++ pushedByArcs E fst_ s (get E σ s).2
      { σ with qc_ := rest } (fst_.arcsOf (get E σ s).1) ∧
    pushedByArcs E fst_ s (get E σ s).2 { σ with qc_ := rest } (fst_.arcsOf (get E σ s).1) =
      List.range' σ.composed_.NumStates
        ((expand E fst_ σ).composed_.NumStates - σ.composed_.NumStates) ∧
    Grows σ (expand E fst_ σ) := by
  have hx : expand E fst_ σ = (fst_.arcsOf (get E σ s).1).foldl
      (visitArc E fst_ s (get E σ s).2) { σ with qc_ := rest } := by
    unfold expand
    simp only [h]
  rw [hx]
  exact foldl_visitArc_trace E fst_ s (get E σ s).2 (fst_.arcsOf (get E σ s).1)
    { σ with qc_ := rest }

/-- The loop and its trace: what was popped, followed by what is left on the queue, is the
queue the loop started from followed by what was pushed; the states pushed are the states
created, in the order of their numbers. -/
theorem traverse_trace (E : Config W F S) (fst_ : VectorFst W) (fuel : Nat) :
    ∀ σ : EngineState W S,
      poppedByLoop E fst_ fuel σ ++ (traverse E fst_ fuel σ).qc_ =
        σ.qc_ ++ pushedByLoop E fst_ fuel σ ∧
      pushedByLoop E fst_ fuel σ = List.range' σ.composed_.NumStates
        ((traverse E fst_ fuel σ).composed_.NumStates - σ.composed_.NumStates) ∧
      Grows σ (traverse E fst_ fuel σ) := by
  induction fuel with
  | zero =>
    intro σ
    simp [poppedByLoop, pushedByLoop, traverse, Grows_refl]
  | succ n ih =>
    intro σ
    cases hq : σ.qc_ with
    | nil =>
      have ht : traverse E fst_ (n + 1) σ = σ := by
        unfold traverse
        rw [if_pos hq]
      rw [ht]
      unfold poppedByLoop pushedByLoop
      simp [hq, Grows_refl]
    | cons s rest =>
      have ht : traverse E fst_ (n + 1) σ = traverse E fst_ n (expand E fst_ σ) := by
        conv_lhs => unfold traverse
        rw [if_neg (by rw [hq]; exact List.cons_ne_nil _ _)]
      have hp : poppedByLoop E fst_ (n + 1) σ = s :: poppedByLoop E fst_ n (expand E fst_ σ) := by
        conv_lhs => unfold poppedByLoop
        simp only [hq]
      have hu : pushedByLoop E fst_ (n + 1) σ =
          pushedByArcs E fst_ s (get E σ s).2 { σ with qc_ := rest }
            (fst_.arcsOf (get E σ s).1) ++ pushedByLoop E fst_ n (expand E fst_ σ) := by
        conv_lhs => unfold pushedByLoop
        simp only [hq]
      obtain ⟨h1, h2, h3⟩ := expand_trace E fst_ σ s rest hq
      obtain ⟨k1, k2, k3⟩ := ih (expand E fst_ σ)
      rw [ht, hp, hu]
      refine ⟨?_, ?_, Grows_trans h3 k3⟩
      · rw [List.cons_append, k1, h1, List.cons_append, List.append_assoc]
      · have e1 := h3.1
        have e2 := k3.1
        rw [h2, k2]
        have e3 : (expand E fst_ σ).composed_.NumStates =
            σ.composed_.NumStates +
              ((expand E fst_ σ).composed_.NumStates - σ.composed_.NumStates) := by
          omega
        nth_rewrite 2 [e3]
        rw [List.range'_append_1]
        congr 1
        omega

/-- The state in which a fresh engine enters its loop: state 0, paired with the start
state and the null context, is the only state and the only element of the queue. -/
theorem initial_fresh_trace (E : Config W F S) (fst_ : VectorFst W) (lm0 : Nat) :
    (add E ({ EngineState.fresh E lm0 with composed_ := VectorFst.new } : EngineState W S)
      E.lmmodel_.NullContextState fst_.Start (fst_.Final E.Zero fst_.Start)).1 = (0, false) ∧
    (initial E (EngineState.fresh E lm0) fst_).qc_ = [0] ∧
    (initial E (EngineState.fresh E lm0) fst_).composed_.NumStates = 1 ∧
    lookup (initial E (EngineState.fresh E lm0) fst_).statemap_ 0 =
      some (fst_.Start, E.lmmodel_.NullContextState) := by
  have h0 : ({ EngineState.fresh E lm0 with composed_ := VectorFst.new } : EngineState W S)
      = EngineState.fresh E lm0 := rfl
  have ha := add_of_empty_registry E (EngineState.fresh E lm0) E.lmmodel_.NullContextState
    fst_.Start (fst_.Final E.Zero fst_.Start) rfl
  have ha0 : (add E (EngineState.fresh E lm0) E.lmmodel_.NullContextState
      fst_.Start (fst_.Final E.Zero fst_.Start)).1 = (0, false) := ha
  rcases add_cases E (EngineState.fresh E lm0) E.lmmodel_.NullContextState fst_.Start
    (fst_.Final E.Zero fst_.Start) with ⟨h1, h2, h3, h4⟩ | ⟨t, h1, _⟩
  · have e0 : (EngineState.fresh E lm0).composed_.NumStates = 0 := rfl
    have e1 : (EngineState.fresh E lm0).qc_ = [] := rfl
    have e2 : (EngineState.fresh E lm0).statemap_ = [] := rfl
    rw [h0]
    refine ⟨ha0, ?_, ?_, ?_⟩
    · show (add E (EngineState.fresh E lm0) E.lmmodel_.NullContextState fst_.Start
        (fst_.Final E.Zero fst_.Start)).2.qc_ ++ [(add E (EngineState.fresh E lm0)
        E.lmmodel_.NullContextState fst_.Start (fst_.Final E.Zero fst_.Start)).1.1] = [0]
      rw [h4, ha0, e1]
      rfl
    · show ((add E (EngineState.fresh E lm0) E.lmmodel_.NullContextState fst_.Start
        (fst_.Final E.Zero fst_.Start)).2.composed_.SetStart _).NumStates = 1
      rw [VectorFst.NumStates_SetStart, h2, e0]
    · show lookup (add E (EngineState.fresh E lm0) E.lmmodel_.NullContextState fst_.Start
        (fst_.Final E.Zero fst_.Start)).2.statemap_ 0 = _
      rw [h3, e0, e2]
      rfl
  · rw [ha0] at h1
    have h5 := congrArg Prod.snd h1
    simp at h5

/-- The trace of one composition by a fresh engine: the states are pushed in the order
of their numbers and popped in the same order, every state once; state 0 stays paired
with the start state and the null context. -/
theorem compose_fresh_trace (E : Config W F S) (fst_ : VectorFst W) (lm0 : Nat)
    (hne : fst_.NumStates ≠ 0) :
    pushed E (EngineState.fresh E lm0) fst_ =
      List.range (compose E (EngineState.fresh E lm0) fst_).2.composed_.NumStates ∧
    popped E (EngineState.fresh E lm0) fst_ =
      List.range (compose E (EngineState.fresh E lm0) fst_).2.composed_.NumStates ∧
    0 < (compose E (EngineState.fresh E lm0) fst_).2.composed_.NumStates ∧
    lookup (compose E (EngineState.fresh E lm0) fst_).2.statemap_ 0 =
      some (fst_.Start, E.lmmodel_.NullContextState) := by
  obtain ⟨i1, i2, i3, i4⟩ := initial_fresh_trace E fst_ lm0
  obtain ⟨t1, t2, t3⟩ := traverse_trace E fst_
    (2 ^ 64 + (initial E (EngineState.fresh E lm0) fst_).qc_.length)
    (initial E (EngineState.fresh E lm0) fst_)
  have hq := traverse_compose_fuel E fst_ (initial E (EngineState.fresh E lm0) fst_)
  rw [compose_of_ne E _ fst_ hne]
  simp only
  have hn := t3.1
  rw [i3] at hn t2
  have hpush : pushed E (EngineState.fresh E lm0) fst_ = List.range
      (traverse E fst_ (2 ^ 64 + (initial E (EngineState.fresh E lm0) fst_).qc_.length)
        (initial E (EngineState.fresh E lm0) fst_)).composed_.NumStates := by
    unfold pushed
    rw [i1, t2, List.range_eq_range']
    obtain ⟨m, hm⟩ := Nat.exists_eq_add_of_le hn
    rw [hm, Nat.add_comm 1 m, List.range'_succ]
    simp
  refine ⟨hpush, ?_, hn, ?_⟩
  · rw [← hpush]
    unfold popped pushed
    rw [hq, List.append_nil] at t1
    rw [t1, i1, i2]
    rfl
  · rw [t3.2 0 (by rw [i3]; exact Nat.one_pos), i4]

end TraceLoop

/-! ## The context ids count the distinct buffers -/

section Ids

variable {W F S : Type} [DecidableEq W] [Mul W] [Mul F] [Zero F]

theorem not_mem_keys_of_lookup_none {α β : Type} [DecidableEq α] (m : List (α × β)) (k : α)
    (h : lookup m k = none) : k ∉ m.map Prod.fst := by
  induction m with
  | nil => simp
  | cons x rest ih =>
    obtain ⟨a, b⟩ := x
    unfold lookup at h
    by_cases hk : k = a
    · rw [if_pos hk] at h
      exact Option.noConfusion h
    · rw [if_neg hk] at h
      simp only [List.map_cons, List.mem_cons, not_or]
      exact ⟨hk, ih h⟩

theorem IdsFrom_of_sameIndex {lm0 : Nat} {σ τ : EngineState W S} (h : SameIndex τ σ)
    (hok : IdsFrom lm0 σ) : IdsFrom lm0 τ := by
  obtain ⟨_, h2, h3⟩ := h
  unfold IdsFrom
  rw [h2, h3]
  exact hok

/-- Interning a buffer keeps the ids in step with the order of entry: a new buffer gets
the id that follows the last one given. -/
theorem IdsFrom_intern (E : Config W F S) {lm0 : Nat} {σ : EngineState W S}
    (hok : IdsFrom lm0 σ) (s : S) : IdsFrom lm0 (intern E σ s) := by
  cases hl : lookup σ.seenlmstates_ (getIdx E.lmmodel_ σ.history s) with
  | some c =>
    rw [intern_of_some E σ s hl]
    exact hok
  | none =>
    rw [intern_of_none E σ s hl]
    obtain ⟨h1, h2, h3⟩ := hok
    refine ⟨?_, ?_, ?_⟩
    · show ((getIdx E.lmmodel_ σ.history s, σ.lm + 1) :: σ.seenlmstates_).map Prod.fst |>.Nodup
      rw [List.map_cons, List.nodup_cons]
      exact ⟨not_mem_keys_of_lookup_none _ _ hl, h1⟩
    · show (((getIdx E.lmmodel_ σ.history s, σ.lm + 1) :: σ.seenlmstates_).reverse.map Prod.snd)
        = List.range' (lm0 + 1) (σ.seenlmstates_.length + 1)
      rw [List.reverse_cons, List.map_append, h2, List.range'_concat, h3]
      simp only [List.map_cons, List.map_nil, Nat.one_mul]
      congr 2
      omega
    · show σ.lm + 1 = lm0 + (σ.seenlmstates_.length + 1)
      omega

theorem IdsFrom_foldl_intern (E : Config W F S) (lm0 : Nat) (ss : List S) :
    ∀ σ : EngineState W S, IdsFrom lm0 σ → IdsFrom lm0 (ss.foldl (intern E) σ) := by
  induction ss with
  | nil => intro σ h; exact h
  | cons s rest ih => intro σ h; exact ih _ (IdsFrom_intern E h s)

/-- The ids stay in step with the order of entry along the life of the engine. -/
theorem IdsFrom_later {E : Config W F S} {lm0 : Nat} {σ σ' : EngineState W S}
    (h : Later E σ σ') (hok : IdsFrom lm0 σ) : IdsFrom lm0 σ' := by
  obtain ⟨ss, hs⟩ := h
  exact IdsFrom_of_sameIndex hs (IdsFrom_foldl_intern E lm0 ss σ hok)

theorem IdsFrom_fresh (E : Config W F S) (lm0 : Nat) : IdsFrom lm0 (EngineState.fresh E lm0) :=
  ⟨List.nodup_nil, rfl, rfl⟩

/-- The id of the entry of position `k` in order of entry, read from `IdsFrom`. -/
theorem IdsFrom_getElem {lm0 : Nat} {σ : EngineState W S} (hok : IdsFrom lm0 σ) (k : Nat)
    (b : List Nat) (c : Nat) (h : σ.seenlmstates_.reverse[k]? = some (b, c)) :
    c = lm0 + (k + 1) := by
  have h2 := hok.2.1
  have hk : (σ.seenlmstates_.reverse.map Prod.snd)[k]? = some c := by
    rw [List.getElem?_map, h]
    rfl
  rw [h2] at hk
  have hlt : k < σ.seenlmstates_.length := by
    have := (List.getElem?_eq_some_iff.mp h).1
    simpa using this
  rw [List.getElem?_range' _ _ hlt] at hk
  simp only [Option.some.injEq] at hk
  omega

end Ids

/-! ## C1: the weight of a path -/

section ClaimC1

variable {W F S : Type} [DecidableEq W] [CommMonoid W] [Mul F] [Zero F]

/-- C1, as stated, fails. In `unknownWordFst` state 2 is reached after the words
"unknown, 5" and after the word "5" alone; both contexts give the buffer `5 0 0`, so the
two paths share one output state, which keeps the context of the path that came first.
The path of labels 9, 5, 7 weighs 26, the replay of its labels gives 6 and the word
penalties 21. -/
theorem pathWeightRoundTrip_fails : ¬ PathWeightRoundTrip trigramConfig unknownWordFst 0 := by
  intro h
  obtain ⟨pin, hpin, _, hw⟩ := h
    (compose trigramConfig (EngineState.fresh trigramConfig 0) unknownWordFst).2.composed_
    (by decide) [0, 0, 0]
    [⟨9, 9, Multiplicative.ofAdd 8, 1⟩, ⟨5, 5, Multiplicative.ofAdd 9, 2⟩,
      ⟨7, 7, Multiplicative.ofAdd 9, 3⟩] (by decide)
  have hf : follow unknownWordFst unknownWordFst.Start [0, 0, 0] =
      some [⟨9, 9, Multiplicative.ofAdd 0, 1⟩, ⟨5, 5, Multiplicative.ofAdd 0, 2⟩,
        ⟨7, 7, Multiplicative.ofAdd 0, 3⟩] := by decide
  rw [hf] at hpin
  have e := Option.some.inj hpin
  subst e
  revert hw
  decide

/-- C1, amended. For a model that scores a context through its history buffer only
(`ScoresByBuffer`), a weight functor with `mw_(0)` the unit of `Times`, and a well-formed
input composed by a freshly constructed engine within the range of the compound key:
every path of the output from its start state follows, arc index by arc index, a path of
the input from its start state with the same labels and through the paired original
states, and its weight is the product of (a) the weight of that input path, (b) the LM
weights of its non-epsilon labels replayed from the null context, label 1 weighing
nothing, and (c) the word penalty once for every arc whose output label is neither an
epsilon nor at most 2. -/
theorem path_weight_round_trip (E : Config W F S) (fst_ : VectorFst W) (lm0 : Nat)
    (hwf : WellFormed fst_) (hN : fst_.NumStates ≤ 2 ^ 31)
    (hK : (compose E (EngineState.fresh E lm0) fst_).2.lm ≤ lm0 + sid)
    (hmw : E.mw_ 0 = 1) (hlm : ScoresByBuffer E.lmmodel_) :
    PathWeightRoundTrip E fst_ lm0 := by
  have hne : fst_.NumStates ≠ 0 := by have := hwf.2.1; omega
  obtain ⟨h1, hI, hqc, hstart, _⟩ := compose_fresh E fst_ lm0 hne
  obtain ⟨s0, hs0, hn0⟩ := start_paired E fst_ lm0 hwf hN hK
  intro out hout idxs p hp
  rw [h1] at hout
  have hout' := Option.some.inj hout
  subst hout'
  have h0 : (compose E (EngineState.fresh E lm0) fst_).2.composed_.Start = 0 := by
    unfold VectorFst.Start
    rw [hstart]
    rfl
  rw [h0] at hp
  exact follow_weight hI hqc hwf hN hK hmw hlm idxs 0 fst_.Start s0
    E.lmmodel_.NullContextState p hs0 hn0 hp

end ClaimC1

theorem path_weight_round_trip_witness :
    WellFormed toyFst ∧ toyConfig.mw_ 0 = 1 ∧
    ∃ pin, follow toyFst toyFst.Start [0, 1, 0, 0] = some pin ∧
      List.Forall₂ (fun (e a : Arc (Multiplicative Int)) =>
        e.ilabel = a.ilabel ∧ e.olabel = a.olabel ∧
        ∃ s', lookup (compose toyConfig (EngineState.fresh toyConfig 0) toyFst).2.statemap_
          e.nextstate = some (a.nextstate, s')) toyPath pin ∧
      pathWeight toyPath =
        pathWeight pin *
          replayLM toyConfig toyConfig.lmmodel_.NullContextState
            (toyPath.map (fun a => a.olabel)) *
          wordPenalties toyConfig (toyPath.map (fun a => a.olabel)) :=
  ⟨by decide, by decide,
    path_weight_round_trip toyConfig toyFst 0 (by decide) (by decide) (by decide) (by decide)
      bigramModel_scoresByBuffer
      (compose toyConfig (EngineState.fresh toyConfig 0) toyFst).2.composed_ (by decide)
      [0, 1, 0, 0] toyPath (by decide)⟩

/-! ## C2: the arcs of an output state -/

section ClaimC2

variable {W F S : Type} [DecidableEq W] [Mul W] [Mul F] [Zero F]

/-- C2. After the composition of a well-formed input by a freshly constructed engine,
within the range of the compound key (state ids fit `StateId`, at most `sid` context ids
were handed out), for every output state `s` that the backmap pairs with
`(origState, lmState)` the arcs of `s` match the arcs of `origState` one to one and in
order: same input and output labels, weight
`Times(a.weight, Times(mw_(w), mw_(wp)))` for the `w` and `wp` the code computes from
`lmState` and the label, and as target an output state paired with the target of the
input arc. -/
theorem output_arcs_correspond (E : Config W F S) (fst_ : VectorFst W) (lm0 : Nat)
    (hwf : WellFormed fst_) (hN : fst_.NumStates ≤ 2 ^ 31)
    (hK : (compose E (EngineState.fresh E lm0) fst_).2.lm ≤ lm0 + sid) :
    ∀ out, (compose E (EngineState.fresh E lm0) fst_).1 = some out →
      ∀ s origState lmState,
        lookup (compose E (EngineState.fresh E lm0) fst_).2.statemap_ s
          = some (origState, lmState) →
        List.Forall₂
          (fun e a => e.ilabel = a.ilabel ∧ e.olabel = a.olabel ∧
            e.weight = a.weight *
              (E.mw_ (scoreArc E lmState a.olabel).1 * E.mw_ (scoreArc E lmState a.olabel).2.1) ∧
            e.nextstate < out.NumStates ∧
            ∃ s', lookup (compose E (EngineState.fresh E lm0) fst_).2.statemap_ e.nextstate
              = some (a.nextstate, s'))
          (out.arcsOf s) (fst_.arcsOf origState) := by
  have hne : fst_.NumStates ≠ 0 := by have := hwf.2.1; omega
  obtain ⟨h1, hI, hq, _, _⟩ := compose_fresh E fst_ lm0 hne
  intro out hout s origState lmState hs
  rw [h1] at hout
  have hout' := Option.some.inj hout
  subst hout'
  have hall := arcs_complete hI hq hs
  have hreach := hI.reach s origState lmState hs
  have key : ∀ a ∈ fst_.arcsOf origState, a.nextstate < fst_.NumStates :=
    fun a ha => Reach_lt hwf (Reach.step hreach ha)
  refine forall₂_imp_mem hall ?_
  intro e a ha hea
  obtain ⟨s', hs', _⟩ := target_paired hI hwf hN hK (key a ha) hea.2.2.2
  exact ⟨hea.1, hea.2.1, hea.2.2.1, (hI.dom _).2 (by rw [hs']; simp), s', hs'⟩

theorem output_arcs_correspond_witness :
    WellFormed toyFst ∧
    List.Forall₂
      (fun e a => e.ilabel = a.ilabel ∧ e.olabel = a.olabel ∧
        e.weight = a.weight *
          (toyConfig.mw_ (scoreArc toyConfig 1 a.olabel).1 *
            toyConfig.mw_ (scoreArc toyConfig 1 a.olabel).2.1) ∧
        e.nextstate <
          (compose toyConfig (EngineState.fresh toyConfig 0) toyFst).2.composed_.NumStates ∧
        ∃ s', lookup (compose toyConfig (EngineState.fresh toyConfig 0) toyFst).2.statemap_
          e.nextstate = some (a.nextstate, s'))
      ((compose toyConfig (EngineState.fresh toyConfig 0) toyFst).2.composed_.arcsOf 1)
      (toyFst.arcsOf 1) :=
  ⟨by decide,
    output_arcs_correspond toyConfig toyFst 0 (by decide) (by decide) (by decide)
      (compose toyConfig (EngineState.fresh toyConfig 0) toyFst).2.composed_ (by decide)
      1 1 1 (by decide)⟩

end ClaimC2

/-! ## C3: epsilon arcs -/

section ClaimC3

variable {W F S : Type} [DecidableEq W] [Mul W] [Mul F] [Zero F]

/-- C3. For an arc whose output label is in the epsilon set: `w` and `wp` are 0 and the
context passed to `add` is the context `s2` of the source state, so that the visit of the
arc is `add ( s2, a1.nextstate, Final ( a1.nextstate ) )` followed by the `AddArc` of
weight `Times(a1.weight, Times(mw_(0), mw_(0)))`; and nothing of this depends on `Score`:
the model is not queried. -/
theorem epsilon_arc_transparent (E : Config W F S) (fst_ : VectorFst W) (s : Nat) (s2 : S)
    (σ : EngineState W S) (a1 : Arc W) (heps : a1.olabel ∈ E.epsilons_) :
    scoreArc E s2 a1.olabel = (0, 0, s2) ∧
    visitArc E fst_ s s2 σ a1 =
      { pushNew (add E σ s2 a1.nextstate (fst_.Final E.Zero a1.nextstate)) with
        composed_ :=
          (pushNew (add E σ s2 a1.nextstate (fst_.Final E.Zero a1.nextstate))).composed_.AddArc s
            ⟨a1.ilabel, a1.olabel, a1.weight * (E.mw_ 0 * E.mw_ 0),
              (add E σ s2 a1.nextstate (fst_.Final E.Zero a1.nextstate)).1.1⟩ } ∧
    ∀ Score' : S → Nat → F × S,
      visitArc { E with lmmodel_ := { E.lmmodel_ with Score := Score' } } fst_ s s2 σ a1 =
        visitArc E fst_ s s2 σ a1 := by
  have h0 : scoreArc E s2 a1.olabel = (0, 0, s2) := by
    unfold scoreArc
    rw [if_neg (not_not.mpr heps)]
  refine ⟨h0, ?_, ?_⟩
  · rw [visitArc_eq, h0]
  · intro Score'
    have h0' : scoreArc { E with lmmodel_ := { E.lmmodel_ with Score := Score' } } s2 a1.olabel
        = (0, 0, s2) := by
      unfold scoreArc
      rw [if_neg (not_not.mpr heps)]
    unfold visitArc
    rw [h0, h0']
    rfl

theorem epsilon_arc_transparent_witness :
    (0 : Int) ∈ toyConfig.epsilons_ ∧
    scoreArc toyConfig 5 (0 : Int) = (0, 0, 5) :=
  ⟨by decide,
    (epsilon_arc_transparent toyConfig toyFst 1 5 (EngineState.fresh toyConfig 0)
      ⟨0, 0, Multiplicative.ofAdd 3, 2⟩ (by decide)).1⟩

end ClaimC3

/-! ## C4: the reserved labels -/

section ClaimC4

variable {W F S : Type} [DecidableEq W] [Mul W] [Mul F] [Zero F]

/-- C4, as stated, fails: with a bridge that sends label 5 to vocabulary id 1, the arc of
label 5 keeps the configured word penalty and its LM weight. -/
theorem policyOnMappedId_fails : ¬ PolicyOnMappedId bridgedConfig := by
  intro h
  have h5 := (h 0 5 (by decide)).1 (Or.inl (by decide))
  revert h5
  decide

/-- C4, amended. For a non-epsilon arc the decision is taken on the output label of the
arc, not on the vocabulary id: the word penalty is 0 when the label is at most 2 and the
configured one otherwise, the LM weight is 0 when the label is 1 and the scaled score of
the mapped id otherwise, whatever the label bridge maps the label to. -/
theorem policy_on_output_label (E : Config W F S) (s2 : S) (l : Int)
    (hl : l ∉ E.epsilons_) :
    (scoreArc E s2 l).2.1 = (if l ≤ 2 then 0 else E.wp_) ∧
    (scoreArc E s2 l).1 =
      (if l = 1 then 0 else (E.lmmodel_.Score s2 (E.idbridge_ l)).1 * E.natlog10_) ∧
    (scoreArc E s2 l).2.2 = (E.lmmodel_.Score s2 (E.idbridge_ l)).2 := by
  unfold scoreArc
  rw [if_pos hl]
  by_cases h2 : l ≤ 2
  · rw [if_pos h2, if_pos h2]
    exact ⟨rfl, rfl, rfl⟩
  · have h1 : ¬ l = 1 := by omega
    rw [if_neg h2, if_neg h2, if_neg h1]
    exact ⟨rfl, rfl, rfl⟩

theorem policy_on_output_label_witness :
    (5 : Int) ∉ bridgedConfig.epsilons_ ∧
    (scoreArc bridgedConfig 0 5).2.1 = (if (5 : Int) ≤ 2 then 0 else bridgedConfig.wp_) ∧
    (scoreArc bridgedConfig 0 5).1 =
      (if (5 : Int) = 1 then 0
        else (bridgedConfig.lmmodel_.Score 0 (bridgedConfig.idbridge_ 5)).1 *
          bridgedConfig.natlog10_) ∧
    (scoreArc bridgedConfig 0 5).2.2 =
      (bridgedConfig.lmmodel_.Score 0 (bridgedConfig.idbridge_ 5)).2 :=
  ⟨by decide, policy_on_output_label bridgedConfig 0 5 (by decide)⟩

end ClaimC4

/-! ## C5: the empty input -/

section ClaimC5

variable {W F S : Type} [DecidableEq W] [Mul W] [Mul F] [Zero F]

/-- C5, as stated, fails on an engine that has composed before. After the composition of
`finalOnlyFst` the pair of its start state and the null context is in the registry, so a
second call on the same input creates no state: it returns an automaton without states,
with start state 0. -/
theorem nonEmptyGivesState_fails :
    ¬ NonEmptyGivesState toyConfig 0 [finalOnlyFst] finalOnlyFst := by
  intro h
  obtain ⟨out, h1, h2⟩ := h (by decide)
  have h3 : (compose toyConfig ([finalOnlyFst].foldl (fun σ f => (compose toyConfig σ f).2)
      (EngineState.fresh toyConfig 0)) finalOnlyFst).1 = some ⟨some 0, []⟩ := by decide
  rw [h3] at h1
  rw [← Option.some.inj h1] at h2
  exact absurd h2 (by decide)

/-- C5, amended. `operator()` returns `NULL` exactly when the input has no state; on such
an input it leaves the engine as it was, `composed_` included; and on an input with at
least one state a freshly constructed engine returns an automaton with at least one
state. -/
theorem compose_null_iff_empty (E : Config W F S) (σ : EngineState W S)
    (fst_ : VectorFst W) (lm0 : Nat) :
    ((compose E σ fst_).1 = none ↔ fst_.NumStates = 0) ∧
    (fst_.NumStates = 0 → compose E σ fst_ = (none, σ)) ∧
    (fst_.NumStates ≠ 0 →
      ∃ out, (compose E (EngineState.fresh E lm0) fst_).1 = some out ∧ 1 ≤ out.NumStates) := by
  refine ⟨?_, ?_, ?_⟩
  · by_cases h : fst_.NumStates = 0
    · unfold compose
      rw [if_pos h]
      exact ⟨fun _ => h, fun _ => rfl⟩
    · rw [compose_of_ne E σ fst_ h]
      exact ⟨fun h' => Option.noConfusion h', fun h' => absurd h' h⟩
  · intro h
    unfold compose
    rw [if_pos h]
  · intro h
    obtain ⟨h1, hI, _, _, hreg⟩ := compose_fresh E fst_ lm0 h
    refine ⟨_, h1, ?_⟩
    obtain ⟨c, _, hse⟩ := hreg
    obtain ⟨q, s, _, hsm, _, _⟩ := hI.reg2 _ _ hse
    have := (hI.dom 0).2 (by rw [hsm]; simp)
    omega

theorem compose_null_iff_empty_witness :
    compose toyConfig (EngineState.fresh toyConfig 3) emptyFst
      = (none, EngineState.fresh toyConfig 3) ∧
    ∃ out, (compose toyConfig (EngineState.fresh toyConfig 0) toyFst).1 = some out ∧
      1 ≤ out.NumStates :=
  ⟨(compose_null_iff_empty toyConfig (EngineState.fresh toyConfig 3) emptyFst 0).2.1
      (by decide),
    (compose_null_iff_empty toyConfig (EngineState.fresh toyConfig 0) toyFst 0).2.2
      (by decide)⟩

end ClaimC5

/-! ## C6: final weights -/

section ClaimC6

variable {W F S : Type} [DecidableEq W] [Mul W] [Mul F] [Zero F]

/-- C6. After the composition of a non-empty input by a freshly constructed engine, with
`mw_ ( ZPosInfinity() )` the weight of a non-final state, every output state is paired by
the backmap with an original state, it is final exactly when that state is final, and
then its final weight is the final weight of that state, unchanged. -/
theorem final_weights_copied (E : Config W F S) (fst_ : VectorFst W) (lm0 : Nat)
    (hne : fst_.NumStates ≠ 0) (hZ : E.mw_ E.ZPosInfinity = E.Zero) :
    ∀ out, (compose E (EngineState.fresh E lm0) fst_).1 = some out →
      ∀ o, o < out.NumStates →
        ∃ q s, lookup (compose E (EngineState.fresh E lm0) fst_).2.statemap_ o = some (q, s) ∧
          (out.Final E.Zero o ≠ E.mw_ E.ZPosInfinity ↔
            fst_.Final E.Zero q ≠ E.mw_ E.ZPosInfinity) ∧
          (fst_.Final E.Zero q ≠ E.mw_ E.ZPosInfinity →
            out.Final E.Zero o = fst_.Final E.Zero q) := by
  obtain ⟨h1, hI, _, _, _⟩ := compose_fresh E fst_ lm0 hne
  intro out hout o ho
  rw [h1] at hout
  have hout' := Option.some.inj hout
  subst hout'
  obtain ⟨⟨q, s⟩, hp⟩ := Option.ne_none_iff_exists'.mp ((hI.dom o).1 ho)
  refine ⟨q, s, hp, ?_⟩
  have hf := hI.fin o q s hp
  by_cases hfin : fst_.Final E.Zero q = E.mw_ E.ZPosInfinity
  · rw [if_neg (not_not.mpr hfin)] at hf
    rw [hf, hfin, hZ]
    exact ⟨Iff.rfl, fun h => absurd rfl h⟩
  · rw [if_pos hfin] at hf
    rw [hf]
    exact ⟨Iff.rfl, fun _ => rfl⟩

theorem final_weights_copied_witness :
    toyFst.NumStates ≠ 0 ∧ toyConfig.mw_ toyConfig.ZPosInfinity = toyConfig.Zero ∧
    ∃ q s, lookup (compose toyConfig (EngineState.fresh toyConfig 0) toyFst).2.statemap_ 5
        = some (q, s) ∧
      ((compose toyConfig (EngineState.fresh toyConfig 0) toyFst).2.composed_.Final
          toyConfig.Zero 5 ≠ toyConfig.mw_ toyConfig.ZPosInfinity ↔
        toyFst.Final toyConfig.Zero q ≠ toyConfig.mw_ toyConfig.ZPosInfinity) ∧
      (toyFst.Final toyConfig.Zero q ≠ toyConfig.mw_ toyConfig.ZPosInfinity →
        (compose toyConfig (EngineState.fresh toyConfig 0) toyFst).2.composed_.Final
          toyConfig.Zero 5 = toyFst.Final toyConfig.Zero q) :=
  ⟨by decide, by decide,
    final_weights_copied toyConfig toyFst 0 (by decide) (by decide)
      (compose toyConfig (EngineState.fresh toyConfig 0) toyFst).2.composed_ (by decide)
      5 (by decide)⟩

end ClaimC6

/-! ## C7: one output state per original state and context id -/

section ClaimC7

variable {W F S : Type} [DecidableEq W] [Mul W] [Mul F] [Zero F]

/-- The state `add` returns is registered for the pair it was called with. -/
theorem add_registered (E : Config W F S) (σ : EngineState W S) (s : S) (q : Nat) (w : W) :
    Registered (add E σ s q w).2 (getIdx E.lmmodel_ σ.history s) q (add E σ s q w).1.1 := by
  rw [add_eq]
  obtain ⟨c, hc⟩ := intern_lookup_history E σ s
  have hc' : lookup (intern E σ s).seenlmstates_ (intern E σ s).history = some c := by
    rw [intern_history]; exact hc
  cases ht : lookup (intern E σ s).stateexistence_ (compound q c) with
  | some t =>
    rw [register_of_some E _ s q w hc' ht]
    exact ⟨c, hc, ht⟩
  | none =>
    unfold register
    rw [hc', Option.getD_some, ht]
    exact ⟨c, hc, lookup_assign_self _ _ _⟩

/-- On a state registered for the buffer of the context, `add` allocates nothing. -/
theorem add_of_registered (E : Config W F S) (σ : EngineState W S) (s : S) (q : Nat) (w : W)
    {o : Nat} (h : Registered σ (getIdx E.lmmodel_ σ.history s) q o) :
    add E σ s q w = ((o, true), { σ with history := getIdx E.lmmodel_ σ.history s }) := by
  obtain ⟨c, hc, hse⟩ := h
  rw [add_eq, intern_of_some E σ s hc]
  exact register_of_some E _ s q w hc hse

/-- C7. After a composition by a freshly constructed engine two output states paired
with the same original state and with contexts of the same history buffer are one state;
and whenever `add` is called for `(s, q)` and later, on an engine state that still holds
the bindings of the first call, for `(s', q)` with `s'` giving the same history buffer,
the second call returns the state of the first, reports it as visited and changes nothing
but the buffer: no output state is allocated. The visit of an arc and the `while` loop
keep all bindings, so this holds for any two calls of one composition. -/
theorem one_state_per_context (E : Config W F S) (fst_ : VectorFst W) (lm0 : Nat)
    (hne : fst_.NumStates ≠ 0) :
    (∀ o₁ o₂ q s₁ s₂,
      lookup (compose E (EngineState.fresh E lm0) fst_).2.statemap_ o₁ = some (q, s₁) →
      lookup (compose E (EngineState.fresh E lm0) fst_).2.statemap_ o₂ = some (q, s₂) →
      normalize E.lmmodel_ s₁ = normalize E.lmmodel_ s₂ → o₁ = o₂) ∧
    (∀ (σ σ' : EngineState W S) (s s' : S) (q : Nat) (w w' : W),
      Extends (add E σ s q w).2 σ' →
      getIdx E.lmmodel_ σ'.history s' = getIdx E.lmmodel_ σ.history s →
      add E σ' s' q w' =
        (((add E σ s q w).1.1, true),
          { σ' with history := getIdx E.lmmodel_ σ'.history s' })) ∧
    (∀ (σ : EngineState W S) (s : Nat) (s2 : S) (a : Arc W) (fuel : Nat),
      Extends σ (visitArc E fst_ s s2 σ a) ∧ Extends σ (traverse E fst_ fuel σ)) := by
  refine ⟨?_, ?_, fun σ s s2 a fuel =>
    ⟨visitArc_extends E fst_ s s2 σ a, traverse_extends E fst_ fuel σ⟩⟩
  · obtain ⟨_, hI, _, _, _⟩ := compose_fresh E fst_ lm0 hne
    intro o₁ o₂ q s₁ s₂ h₁ h₂ hb
    obtain ⟨c₁, hc₁, hse₁⟩ := hI.reg1 o₁ q s₁ h₁
    obtain ⟨c₂, hc₂, hse₂⟩ := hI.reg1 o₂ q s₂ h₂
    rw [hb, hc₂] at hc₁
    have e := Option.some.inj hc₁
    subst e
    rw [hse₁] at hse₂
    exact Option.some.inj hse₂
  · intro σ σ' s s' q w w' hext hb
    apply add_of_registered
    rw [hb]
    exact Registered_mono hext (add_registered E σ s q w)

theorem one_state_per_context_witness :
    toyFst.NumStates ≠ 0 ∧
    add toyConfig (add toyConfig (EngineState.fresh toyConfig 0) 5 2 toyConfig.Zero).2 5 2
        toyConfig.Zero =
      (((add toyConfig (EngineState.fresh toyConfig 0) 5 2 toyConfig.Zero).1.1, true),
        { (add toyConfig (EngineState.fresh toyConfig 0) 5 2 toyConfig.Zero).2 with
          history := getIdx toyConfig.lmmodel_
            (add toyConfig (EngineState.fresh toyConfig 0) 5 2 toyConfig.Zero).2.history 5 }) :=
  ⟨by decide,
    (one_state_per_context toyConfig toyFst 0 (by decide)).2.1
      (EngineState.fresh toyConfig 0)
      (add toyConfig (EngineState.fresh toyConfig 0) 5 2 toyConfig.Zero).2 5 5 2
      toyConfig.Zero toyConfig.Zero (Extends.refl _) (by decide)⟩

end ClaimC7

/-! ## C8: the number of arcs -/

section ClaimC8

variable {W F S : Type} [DecidableEq W] [Mul W] [Mul F] [Zero F]

/-- C8, as stated, fails. `unreachedFst` has one arc, leaving a state that no path from
the start state reaches; the output has the start state only and no arc. -/
theorem arcCountPreserved_fails : ¬ ArcCountPreserved toyConfig unreachedFst 0 := by
  intro h
  have h' := h (by decide)
    (compose toyConfig (EngineState.fresh toyConfig 0) unreachedFst).2.composed_ (by decide)
  revert h'
  decide

/-- C8, amended. For a well-formed input every state of which is reached from the start
state, composed by a freshly constructed engine within the range of the compound key: if
no original state is paired with two output states of different context ids, the output
has exactly as many arcs as the input. -/
theorem arc_count_preserved (E : Config W F S) (fst_ : VectorFst W) (lm0 : Nat)
    (hwf : WellFormed fst_) (hN : fst_.NumStates ≤ 2 ^ 31)
    (hK : (compose E (EngineState.fresh E lm0) fst_).2.lm ≤ lm0 + sid)
    (hall : AllReachable fst_) : ArcCountPreserved E fst_ lm0 := by
  intro hno out hout
  have hne : fst_.NumStates ≠ 0 := by have := hwf.2.1; omega
  rw [(compose_fresh E fst_ lm0 hne).1] at hout
  rw [← Option.some.inj hout]
  exact arc_count_of_bijection hwf hN hK hall hno

theorem arc_count_preserved_witness :
    WellFormed chainFst ∧ AllReachable chainFst ∧
    NoStateUnderTwoContexts toyConfig
      (compose toyConfig (EngineState.fresh toyConfig 0) chainFst).2 ∧
    (compose toyConfig (EngineState.fresh toyConfig 0) chainFst).2.composed_.NumArcsTotal
      = chainFst.NumArcsTotal :=
  ⟨by decide, by decide, by decide,
    arc_count_preserved toyConfig chainFst 0 (by decide) (by decide) (by decide) (by decide)
      (by decide) (compose toyConfig (EngineState.fresh toyConfig 0) chainFst).2.composed_
      (by decide)⟩

end ClaimC8

/-! ## C9: the static counter -/

section ClaimC9

variable {W F S : Type} [DecidableEq W] [Mul W] [Mul F] [Zero F]

/-- C9. Two freshly constructed engines with the same configuration return the same
automaton for the same input (same states, same arcs with the same labels, targets and
weights, same final weights and start state), whatever values `lm0` and `lm0'` the static
counter of `add` had when each engine was constructed. -/
theorem output_independent_of_counter (E : Config W F S) (fst_ : VectorFst W)
    (lm0 lm0' : Nat) :
    (compose E (EngineState.fresh E lm0) fst_).1 =
      (compose E (EngineState.fresh E lm0') fst_).1 := by
  by_cases h : fst_.NumStates = 0
  · unfold compose
    rw [if_pos h, if_pos h]
  · rw [compose_of_ne E _ fst_ h, compose_of_ne E _ fst_ h]
    have hi := SameUpToIds_initial E fst_ (SameUpToIds_fresh E lm0 lm0')
    have hq := hi.2.2.1
    rw [hq]
    have ht := SameUpToIds_traverse E fst_
      (2 ^ 64 + (initial E (EngineState.fresh E lm0') fst_).qc_.length) _ _ hi
    show some _ = some _
    rw [ht.2.1]

end ClaimC9

/-! ## C10: the compound key -/

/-- C10. For original state ids below `2 ^ 31` and context ids from 1 to `sid - 1`, equal
compound keys, computed modulo `2 ^ 64`, come from equal state ids and equal context
ids. -/
theorem compound_injective (s1 s2 c1 c2 : Nat) (hs1 : s1 < 2 ^ 31) (hs2 : s2 < 2 ^ 31)
    (hc1 : 1 ≤ c1 ∧ c1 < sid) (hc2 : 1 ≤ c2 ∧ c2 < sid)
    (h : compound s1 c1 = compound s2 c2) : s1 = s2 ∧ c1 = c2 := by
  unfold compound at h
  unfold sid at h hc1 hc2
  rw [Nat.mod_eq_of_lt (by omega), Nat.mod_eq_of_lt (by omega)] at h
  omega

theorem compound_injective_witness :
    compound 7 3 = compound 7 3 ∧ (7 = 7 ∧ 3 = 3) :=
  ⟨rfl, compound_injective 7 7 3 3 (by decide) (by decide) (by decide) (by decide) rfl⟩

/-! ## C11: the ids count from the counter, not from 1 -/

section ClaimC11

variable {W F S : Type} [DecidableEq W] [Mul W] [Mul F] [Zero F]

/-- C11, as stated, fails. An engine constructed after another engine has composed
`toyFst` (which leaves the static counter at 5) and used on `chainFst` gives its first
buffer, the one of the null context, the id 6 and not 1. -/
theorem idsFromOne_fails :
    (compose toyConfig (EngineState.fresh toyConfig 0) toyFst).2.lm = 5 ∧
    lookup (compose toyConfig (EngineState.fresh toyConfig
        (compose toyConfig (EngineState.fresh toyConfig 0) toyFst).2.lm) chainFst).2.seenlmstates_
      (normalize bigramModel bigramModel.NullContextState) = some 6 ∧
    ¬ IdsFromOne (compose toyConfig (EngineState.fresh toyConfig
        (compose toyConfig (EngineState.fresh toyConfig 0) toyFst).2.lm) chainFst).2 := by
  decide

/-- C11, amended. For an engine constructed when the static counter of `add` held `lm0`
and every later state `σ` of it, before and after a further call of `operator()`: the
buffers of the interning index are distinct, the one entered in position `k` (from 1)
holds id `lm0 + k`, and the counter is at the last id given. -/
theorem ids_count_from_counter (E : Config W F S) (lm0 : Nat) (σ : EngineState W S)
    (fst_ : VectorFst W) (h : Later E (EngineState.fresh E lm0) σ) :
    IdsFrom lm0 σ ∧ IdsFrom lm0 (compose E σ fst_).2 ∧
    (∀ k b c, (compose E σ fst_).2.seenlmstates_.reverse[k]? = some (b, c) →
      c = lm0 + (k + 1)) := by
  have h1 : IdsFrom lm0 σ := IdsFrom_later h (IdsFrom_fresh E lm0)
  have h2 : IdsFrom lm0 (compose E σ fst_).2 := IdsFrom_later (compose_later E σ fst_) h1
  exact ⟨h1, h2, fun k b c hk => IdsFrom_getElem h2 k b c hk⟩

theorem ids_count_from_counter_witness :
    Later toyConfig (EngineState.fresh toyConfig 5)
      (compose toyConfig (EngineState.fresh toyConfig 5) toyFst).2 ∧
    IdsFrom 5 (compose toyConfig (EngineState.fresh toyConfig 5) toyFst).2 ∧
    IdsFrom 5 (compose toyConfig
      (compose toyConfig (EngineState.fresh toyConfig 5) toyFst).2 chainFst).2 ∧
    (∀ k b c, (compose toyConfig (compose toyConfig (EngineState.fresh toyConfig 5) toyFst).2
      chainFst).2.seenlmstates_.reverse[k]? = some (b, c) → c = 5 + (k + 1)) :=
  ⟨compose_later toyConfig (EngineState.fresh toyConfig 5) toyFst,
    ids_count_from_counter toyConfig 5
      (compose toyConfig (EngineState.fresh toyConfig 5) toyFst).2
      chainFst (compose_later toyConfig (EngineState.fresh toyConfig 5) toyFst)⟩

end ClaimC11

/-! ## C12: the interning index is a stable injection -/

section ClaimC12

variable {W F S : Type} [DecidableEq W] [Mul W] [Mul F] [Zero F]

/-- C12. In every state `σ` of the life of an engine, a call of `add` for a context whose
buffer is in the index finds the id the buffer was given and leaves the index as it is; for
a buffer not in the index it enters an id that no buffer of the index holds and keeps every
entry there was; and after the call two buffers of the index hold the same id if and only
if they are equal entry by entry. -/
theorem interning_stable_injection (E : Config W F S) (lm0 : Nat) (σ : EngineState W S)
    (s : S) (q : Nat) (w : W) (h : Later E (EngineState.fresh E lm0) σ) :
    (∀ c, lookup σ.seenlmstates_ (getIdx E.lmmodel_ σ.history s) = some c →
      lookup (add E σ s q w).2.seenlmstates_ (getIdx E.lmmodel_ σ.history s) = some c ∧
      (add E σ s q w).2.seenlmstates_ = σ.seenlmstates_) ∧
    (lookup σ.seenlmstates_ (getIdx E.lmmodel_ σ.history s) = none →
      ∃ c, lookup (add E σ s q w).2.seenlmstates_ (getIdx E.lmmodel_ σ.history s) = some c ∧
        (∀ b, lookup σ.seenlmstates_ b ≠ some c) ∧
        (∀ b c', lookup σ.seenlmstates_ b = some c' →
          lookup (add E σ s q w).2.seenlmstates_ b = some c')) ∧
    (∀ b1 b2 c1 c2, lookup (add E σ s q w).2.seenlmstates_ b1 = some c1 →
      lookup (add E σ s q w).2.seenlmstates_ b2 = some c2 →
      (c1 = c2 ↔ ∀ k : Nat, b1[k]? = b2[k]?)) := by
  have hok : IndexOk σ := IndexOk_later h (IndexOk_fresh E lm0)
  have hs := (add_sameIndex E σ s q w).2.1
  have hok' : IndexOk (add E σ s q w).2 := IndexOk_later (add_later E σ s q w) hok
  refine ⟨?_, ?_, ?_⟩
  · intro c hc
    rw [hs, intern_of_some E σ s hc]
    exact ⟨hc, rfl⟩
  · intro hn
    refine ⟨σ.lm + 1, ?_, ?_, ?_⟩
    · rw [hs, intern_of_none E σ s hn]
      exact lookup_assign_self _ _ _
    · intro b hb
      have := hok.1 b _ hb
      omega
    · intro b c' hb
      rw [hs]
      exact intern_seen_mono E σ s hb
  · intro b1 b2 c1 c2 h1 h2
    constructor
    · intro hc
      subst hc
      intro k
      rw [hok'.2 b1 b2 c1 h1 h2]
    · intro hk
      have hb : b1 = b2 := List.ext_getElem? hk
      subst hb
      rw [h1] at h2
      exact Option.some.inj h2

theorem interning_stable_injection_witness :
    Later toyConfig (EngineState.fresh toyConfig 0)
      (compose toyConfig (EngineState.fresh toyConfig 0) toyFst).2 ∧
    ((∀ c, lookup (compose toyConfig (EngineState.fresh toyConfig 0) toyFst).2.seenlmstates_
        (getIdx toyConfig.lmmodel_
          (compose toyConfig (EngineState.fresh toyConfig 0) toyFst).2.history 7) = some c →
      lookup (add toyConfig (compose toyConfig (EngineState.fresh toyConfig 0) toyFst).2 7 2
        (Multiplicative.ofAdd 0)).2.seenlmstates_
        (getIdx toyConfig.lmmodel_
          (compose toyConfig (EngineState.fresh toyConfig 0) toyFst).2.history 7) = some c ∧
      (add toyConfig (compose toyConfig (EngineState.fresh toyConfig 0) toyFst).2 7 2
        (Multiplicative.ofAdd 0)).2.seenlmstates_ =
        (compose toyConfig (EngineState.fresh toyConfig 0) toyFst).2.seenlmstates_) ∧
    (lookup (compose toyConfig (EngineState.fresh toyConfig 0) toyFst).2.seenlmstates_
        (getIdx toyConfig.lmmodel_
          (compose toyConfig (EngineState.fresh toyConfig 0) toyFst).2.history 7) = none →
      ∃ c, lookup (add toyConfig (compose toyConfig (EngineState.fresh toyConfig 0) toyFst).2 7 2
          (Multiplicative.ofAdd 0)).2.seenlmstates_
          (getIdx toyConfig.lmmodel_
            (compose toyConfig (EngineState.fresh toyConfig 0) toyFst).2.history 7) = some c ∧
        (∀ b, lookup (compose toyConfig (EngineState.fresh toyConfig 0) toyFst).2.seenlmstates_ b
          ≠ some c) ∧
        (∀ b c', lookup (compose toyConfig (EngineState.fresh toyConfig 0) toyFst).2.seenlmstates_
            b = some c' →
          lookup (add toyConfig (compose toyConfig (EngineState.fresh toyConfig 0) toyFst).2 7 2
            (Multiplicative.ofAdd 0)).2.seenlmstates_ b = some c')) ∧
    (∀ b1 b2 c1 c2,
      lookup (add toyConfig (compose toyConfig (EngineState.fresh toyConfig 0) toyFst).2 7 2
        (Multiplicative.ofAdd 0)).2.seenlmstates_ b1 = some c1 →
      lookup (add toyConfig (compose toyConfig (EngineState.fresh toyConfig 0) toyFst).2 7 2
        (Multiplicative.ofAdd 0)).2.seenlmstates_ b2 = some c2 →
      (c1 = c2 ↔ ∀ k : Nat, b1[k]? = b2[k]?))) :=
  ⟨compose_later toyConfig (EngineState.fresh toyConfig 0) toyFst,
    interning_stable_injection toyConfig 0
      (compose toyConfig (EngineState.fresh toyConfig 0) toyFst).2 7 2 (Multiplicative.ofAdd 0)
      (compose_later toyConfig (EngineState.fresh toyConfig 0) toyFst)⟩

end ClaimC12

/-! ## C13: every output state enters the queue once -/

section ClaimC13

variable {W F S : Type} [DecidableEq W] [Mul W] [Mul F] [Zero F]

/-- C13. In one composition of a non-empty input by a freshly constructed engine every
output state is pushed on the queue exactly once and popped exactly once, and nothing else
is pushed; the first push is the one of the start state, state 0; and a state pushed by
the visit of an arc, from any engine state, is the state the `add` call of that visit has
just created: the call reports it as new, it was not a state before the call and it is the
last state after it. -/
theorem each_state_pushed_once (E : Config W F S) (fst_ : VectorFst W) (lm0 : Nat)
    (hne : fst_.NumStates ≠ 0) :
    (∀ o, o < (compose E (EngineState.fresh E lm0) fst_).2.composed_.NumStates →
      (pushed E (EngineState.fresh E lm0) fst_).count o = 1 ∧
      (popped E (EngineState.fresh E lm0) fst_).count o = 1) ∧
    (∀ o, (compose E (EngineState.fresh E lm0) fst_).2.composed_.NumStates ≤ o →
      (pushed E (EngineState.fresh E lm0) fst_).count o = 0) ∧
    (pushed E (EngineState.fresh E lm0) fst_).head? = some 0 ∧
    (compose E (EngineState.fresh E lm0) fst_).2.composed_.start = some 0 ∧
    (∀ (σ : EngineState W S) (s2 : S) (a : Arc W) (o : Nat),
      o ∈ pushedByArc E fst_ s2 σ a →
        (add E σ (scoreArc E s2 a.olabel).2.2 a.nextstate
          (fst_.Final E.Zero a.nextstate)).1 = (o, false) ∧
        o = σ.composed_.NumStates ∧
        (add E σ (scoreArc E s2 a.olabel).2.2 a.nextstate
          (fst_.Final E.Zero a.nextstate)).2.composed_.NumStates = o + 1) := by
  obtain ⟨h1, h2, h3, _⟩ := compose_fresh_trace E fst_ lm0 hne
  obtain ⟨_, _, _, h4, _⟩ := compose_fresh E fst_ lm0 hne
  refine ⟨?_, ?_, ?_, h4, ?_⟩
  · intro o ho
    rw [h1, h2]
    exact ⟨List.count_eq_one_of_mem (List.nodup_range _) (List.mem_range.mpr ho),
      List.count_eq_one_of_mem (List.nodup_range _) (List.mem_range.mpr ho)⟩
  · intro o ho
    rw [h1]
    exact List.count_eq_zero_of_not_mem (fun hm => absurd (List.mem_range.mp hm) (by omega))
  · rw [h1]
    obtain ⟨m, hm⟩ := Nat.exists_eq_add_of_le h3
    rw [hm, Nat.add_comm, List.range_succ_eq_map]
    rfl
  · intro σ s2 a o ho
    unfold pushedByArc at ho
    rcases add_cases E σ (scoreArc E s2 a.olabel).2.2 a.nextstate
      (fst_.Final E.Zero a.nextstate) with ⟨k1, k2, _, _⟩ | ⟨t, k1, _, _, _⟩
    · simp only [k1, Bool.false_eq_true, if_false, List.mem_singleton] at ho
      subst ho
      exact ⟨k1, rfl, k2⟩
    · simp only [k1, if_true, List.not_mem_nil] at ho

theorem each_state_pushed_once_witness :
    toyFst.NumStates ≠ 0 ∧
    ((∀ o, o < (compose toyConfig (EngineState.fresh toyConfig 0) toyFst).2.composed_.NumStates →
      (pushed toyConfig (EngineState.fresh toyConfig 0) toyFst).count o = 1 ∧
      (popped toyConfig (EngineState.fresh toyConfig 0) toyFst).count o = 1) ∧
    (∀ o, (compose toyConfig (EngineState.fresh toyConfig 0) toyFst).2.composed_.NumStates ≤ o →
      (pushed toyConfig (EngineState.fresh toyConfig 0) toyFst).count o = 0) ∧
    (pushed toyConfig (EngineState.fresh toyConfig 0) toyFst).head? = some 0 ∧
    (compose toyConfig (EngineState.fresh toyConfig 0) toyFst).2.composed_.start = some 0 ∧
    (∀ (σ : EngineState (Multiplicative Int) Nat) (s2 : Nat) (a : Arc (Multiplicative Int))
      (o : Nat), o ∈ pushedByArc toyConfig toyFst s2 σ a →
        (add toyConfig σ (scoreArc toyConfig s2 a.olabel).2.2 a.nextstate
          (toyFst.Final toyConfig.Zero a.nextstate)).1 = (o, false) ∧
        o = σ.composed_.NumStates ∧
        (add toyConfig σ (scoreArc toyConfig s2 a.olabel).2.2 a.nextstate
          (toyFst.Final toyConfig.Zero a.nextstate)).2.composed_.NumStates = o + 1)) :=
  ⟨by decide, each_state_pushed_once toyConfig toyFst 0 (by decide)⟩

end ClaimC13

/-! ## C14: the buffer holds the valid prefix, zero-filled -/

section ClaimC14

variable {W F S : Type}

theorem HistOk_foldl_getIdx (M : KenLMModel S F) (prev : List S) :
    ∀ history, HistOk M history → HistOk M (prev.foldl (getIdx M) history) := by
  induction prev with
  | nil => intro history h; exact h
  | cons s rest ih => intro history h; exact ih _ (HistOk_getIdx M history s h)

/-- C14. Whatever the states `prev` passed to `getIdx` since the construction, after
`getIdx ( state )` the buffer has `Order()` entries; entry `k` is word `k` of the state for
`k` below both its reported length and `Order() - 1`, and 0 for `k` from the reported length
on; the buffer is the one a newly constructed engine gets for the state, and a state with
the same reported length and the same words below it gives the same buffer, whatever was
passed before. -/
theorem getIdx_valid_prefix (M : KenLMModel S F) (prev : List S) (state : S) :
    (getIdx M (prev.foldl (getIdx M) (List.replicate M.Order 0)) state).length = M.Order ∧
    (∀ k, k < min (M.getLength state) (M.Order - 1) →
      (getIdx M (prev.foldl (getIdx M) (List.replicate M.Order 0)) state).getD k 0 =
        M.words state k) ∧
    (∀ k, M.getLength state ≤ k → k < M.Order →
      (getIdx M (prev.foldl (getIdx M) (List.replicate M.Order 0)) state).getD k 0 = 0) ∧
    getIdx M (prev.foldl (getIdx M) (List.replicate M.Order 0)) state = normalize M state ∧
    (∀ (prev' : List S) (state' : S), M.getLength state' = M.getLength state →
      (∀ k, k < M.getLength state → M.words state' k = M.words state k) →
      getIdx M (prev'.foldl (getIdx M) (List.replicate M.Order 0)) state' =
        getIdx M (prev.foldl (getIdx M) (List.replicate M.Order 0)) state) := by
  have hok : ∀ p : List S, HistOk M (p.foldl (getIdx M) (List.replicate M.Order 0)) :=
    fun p => HistOk_foldl_getIdx M p _ (HistOk_replicate M)
  refine ⟨by rw [length_getIdx]; exact (hok prev).1, ?_, ?_, getIdx_eq_normalize M _ state (hok prev), ?_⟩
  · intro k hk
    have hk1 : k < M.getLength state := lt_of_lt_of_le hk (Nat.min_le_left _ _)
    have hk2 : k < M.Order - 1 := lt_of_lt_of_le hk (Nat.min_le_right _ _)
    rw [getIdx_getD M _ state k (by rw [(hok prev).1]; omega), if_neg (by omega), if_pos hk2]
  · intro k hk hlt
    rw [getIdx_getD M _ state k (by rw [(hok prev).1]; exact hlt), if_pos hk]
  · intro prev' state' hL hw
    rw [getIdx_eq_normalize M _ state' (hok prev'), getIdx_eq_normalize M _ state (hok prev)]
    unfold normalize
    rw [getIdx_eq_map, getIdx_eq_map]
    apply List.map_congr_left
    intro k _
    rw [hL]
    by_cases h1 : M.getLength state ≤ k
    · rw [if_pos h1, if_pos h1]
    · rw [if_neg h1, if_neg h1, hw k (by omega)]

theorem getIdx_valid_prefix_witness :
    (getIdx trigramModel ([⟨[5, 7], 2⟩].foldl (getIdx trigramModel)
      (List.replicate trigramModel.Order 0)) ⟨[9, 4], 1⟩).length = trigramModel.Order ∧
    (∀ k, k < min (trigramModel.getLength ⟨[9, 4], 1⟩) (trigramModel.Order - 1) →
      (getIdx trigramModel ([⟨[5, 7], 2⟩].foldl (getIdx trigramModel)
        (List.replicate trigramModel.Order 0)) ⟨[9, 4], 1⟩).getD k 0 =
        trigramModel.words ⟨[9, 4], 1⟩ k) ∧
    (∀ k, trigramModel.getLength ⟨[9, 4], 1⟩ ≤ k → k < trigramModel.Order →
      (getIdx trigramModel ([⟨[5, 7], 2⟩].foldl (getIdx trigramModel)
        (List.replicate trigramModel.Order 0)) ⟨[9, 4], 1⟩).getD k 0 = 0) ∧
    getIdx trigramModel ([⟨[5, 7], 2⟩].foldl (getIdx trigramModel)
      (List.replicate trigramModel.Order 0)) ⟨[9, 4], 1⟩ = normalize trigramModel ⟨[9, 4], 1⟩ ∧
    (∀ (prev' : List TrigramState) (state' : TrigramState),
      trigramModel.getLength state' = trigramModel.getLength ⟨[9, 4], 1⟩ →
      (∀ k, k < trigramModel.getLength ⟨[9, 4], 1⟩ →
        trigramModel.words state' k = trigramModel.words ⟨[9, 4], 1⟩ k) →
      getIdx trigramModel (prev'.foldl (getIdx trigramModel)
        (List.replicate trigramModel.Order 0)) state' =
        getIdx trigramModel ([⟨[5, 7], 2⟩].foldl (getIdx trigramModel)
          (List.replicate trigramModel.Order 0)) ⟨[9, 4], 1⟩) :=
  getIdx_valid_prefix trigramModel [⟨[5, 7], 2⟩] ⟨[9, 4], 1⟩

end ClaimC14

/-! ## The traversal of the specification, and the loop against it -/

section SpecRun

variable {W F S : Type}

theorem specDiscoverArc_length (E : Config W F S) (s : S) (disc : List (Nat × S))
    (a : Arc W) : disc.length ≤ (specDiscoverArc E s disc a).length := by
  unfold specDiscoverArc
  split
  · exact Nat.le_refl _
  · rw [List.length_append]
    exact Nat.le_add_right _ _

theorem foldl_specDiscoverArc_length (E : Config W F S) (s : S) (arcs : List (Arc W)) :
    ∀ disc : List (Nat × S), disc.length ≤ (arcs.foldl (specDiscoverArc E s) disc).length := by
  induction arcs with
  | nil => intro disc; exact Nat.le_refl _
  | cons a rest ih =>
    intro disc
    exact Nat.le_trans (specDiscoverArc_length E s disc a) (ih _)

/-- Once no pair is left to expand, the traversal of the specification stays where it is. -/
theorem specRun_ended (E : Config W F S) (fst_ : VectorFst W) (fuel : Nat)
    (x : Nat × List (Nat × S)) (h : x.2[x.1]? = none) : specRun E fst_ fuel x = x := by
  cases fuel with
  | zero => rfl
  | succ n =>
    unfold specRun
    rw [h]

theorem specRun_succ (E : Config W F S) (fst_ : VectorFst W) (fuel : Nat)
    (x : Nat × List (Nat × S)) (p : Nat × S) (h : x.2[x.1]? = some p) :
    specRun E fst_ (fuel + 1) x =
      specRun E fst_ fuel (x.1 + 1, (fst_.arcsOf p.1).foldl (specDiscoverArc E p.2) x.2) := by
  conv_lhs => unfold specRun
  rw [h]

theorem specRun_add (E : Config W F S) (fst_ : VectorFst W) (f k : Nat) :
    ∀ x : Nat × List (Nat × S),
      specRun E fst_ (f + k) x = specRun E fst_ k (specRun E fst_ f x) := by
  induction f with
  | zero =>
    intro x
    rw [Nat.zero_add]
    rfl
  | succ n ih =>
    intro x
    cases hx : x.2[x.1]? with
    | none => rw [specRun_ended E fst_ _ x hx, specRun_ended E fst_ _ x hx,
        specRun_ended E fst_ _ x hx]
    | some p =>
      rw [Nat.add_right_comm, specRun_succ E fst_ _ x p hx, specRun_succ E fst_ _ x p hx]
      exact ih _

/-- The position of the next pair never passes the end of the list, the list only grows,
and a run that has not ended has expanded as many pairs as it had fuel. -/
theorem specRun_pointer (E : Config W F S) (fst_ : VectorFst W) (fuel : Nat) :
    ∀ x : Nat × List (Nat × S), x.1 ≤ x.2.length →
      (specRun E fst_ fuel x).1 ≤ (specRun E fst_ fuel x).2.length ∧
      x.2.length ≤ (specRun E fst_ fuel x).2.length ∧
      ((specRun E fst_ fuel x).1 = x.1 + fuel ∨
        (specRun E fst_ fuel x).2[(specRun E fst_ fuel x).1]? = none) := by
  induction fuel with
  | zero =>
    intro x hx
    exact ⟨hx, Nat.le_refl _, Or.inl rfl⟩
  | succ n ih =>
    intro x hx
    cases hp : x.2[x.1]? with
    | none =>
      rw [specRun_ended E fst_ _ x hp]
      exact ⟨hx, Nat.le_refl _, Or.inr hp⟩
    | some p =>
      rw [specRun_succ E fst_ _ x p hp]
      have hlt : x.1 < x.2.length := (List.getElem?_eq_some_iff.mp hp).1
      have hg := foldl_specDiscoverArc_length E p.2 (fst_.arcsOf p.1) x.2
      obtain ⟨h1, h2, h3⟩ := ih (x.1 + 1, (fst_.arcsOf p.1).foldl (specDiscoverArc E p.2) x.2)
        (by
          show x.1 + 1 ≤ ((fst_.arcsOf p.1).foldl (specDiscoverArc E p.2) x.2).length
          omega)
      refine ⟨h1, Nat.le_trans hg h2, ?_⟩
      rcases h3 with h3 | h3
      · left
        rw [h3]
        show x.1 + 1 + n = x.1 + (n + 1)
        omega
      · exact Or.inr h3

/-- A run that has ended is the run of every fuel from the number of its pairs on. -/
theorem specRun_enough (E : Config W F S) (fst_ : VectorFst W) (big : Nat)
    (x : Nat × List (Nat × S)) (hx : x.1 = 0)
    (hend : (specRun E fst_ big x).2[(specRun E fst_ big x).1]? = none) (fuel : Nat)
    (hf : (specRun E fst_ big x).2.length ≤ fuel) :
    specRun E fst_ fuel x = specRun E fst_ big x := by
  rcases Nat.le_total big fuel with hle | hle
  · obtain ⟨k, hk⟩ := Nat.exists_eq_add_of_le hle
    rw [hk, specRun_add, specRun_ended E fst_ k _ hend]
  · obtain ⟨k, hk⟩ := Nat.exists_eq_add_of_le hle
    have hsplit : specRun E fst_ big x = specRun E fst_ k (specRun E fst_ fuel x) := by
      rw [hk, specRun_add]
    obtain ⟨p1, _, p3⟩ := specRun_pointer E fst_ fuel x (by rw [hx]; exact Nat.zero_le _)
    rcases p3 with p3 | p3
    · obtain ⟨_, q2, _⟩ := specRun_pointer E fst_ k (specRun E fst_ fuel x) p1
      rw [← hsplit] at q2
      have hlen : (specRun E fst_ fuel x).1 = (specRun E fst_ fuel x).2.length := by
        rw [hx] at p3
        omega
      rw [hsplit]
      exact (specRun_ended E fst_ k _
        (by rw [hlen]; exact List.getElem?_eq_none (Nat.le_refl _))).symm
    · rw [hsplit]
      exact (specRun_ended E fst_ k _ p3).symm

end SpecRun

section Lockstep

variable {W F S : Type} [DecidableEq W] [Mul W] [Mul F] [Zero F]

/-- The next context `operator()` passes to `add` is the one of the specification. -/
theorem scoreArc_next (E : Config W F S) (s2 : S) (l : Int) :
    (scoreArc E s2 l).2.2 = specNextContext E s2 l := by
  unfold scoreArc specNextContext
  by_cases h : l ∈ E.epsilons_
  · rw [if_neg (not_not.mpr h), if_pos h]
  · rw [if_pos h, if_neg h]
    simp only
    split <;> rfl

theorem pushNew_statemap (r : (Nat × Bool) × EngineState W S) :
    (pushNew r).statemap_ = r.2.statemap_ ∧ (pushNew r).lm = r.2.lm := by
  unfold pushNew
  split
  · exact ⟨rfl, rfl⟩
  · exact ⟨rfl, rfl⟩

theorem visitArc_statemap (E : Config W F S) (fst_ : VectorFst W) (s : Nat) (s2 : S)
    (σ : EngineState W S) (a : Arc W) :
    (visitArc E fst_ s s2 σ a).statemap_ =
      (add E σ (scoreArc E s2 a.olabel).2.2 a.nextstate
        (fst_.Final E.Zero a.nextstate)).2.statemap_ ∧
    (visitArc E fst_ s s2 σ a).lm =
      (add E σ (scoreArc E s2 a.olabel).2.2 a.nextstate (fst_.Final E.Zero a.nextstate)).2.lm := by
  unfold visitArc
  simp only
  split
  · exact ⟨rfl, rfl⟩
  · exact ⟨rfl, rfl⟩

theorem lm_le_of_sameIndex_foldl (E : Config W F S) (ss : List S) :
    ∀ σ : EngineState W S, σ.lm ≤ (ss.foldl (intern E) σ).lm := by
  induction ss with
  | nil => intro σ; exact Nat.le_refl _
  | cons s rest ih => intro σ; exact Nat.le_trans (intern_lm_le E σ s) (ih _)

/-- The counter never decreases along the life of an engine. -/
theorem lm_le_of_later {E : Config W F S} {σ σ' : EngineState W S} (h : Later E σ σ') :
    σ.lm ≤ σ'.lm := by
  obtain ⟨ss, hs⟩ := h
  rw [hs.2.2]
  exact lm_le_of_sameIndex_foldl E ss σ

/-- The invariant when the loop has popped state `s` and is about to visit its arcs. -/
theorem Inv_pop {E : Config W F S} {fst_ : VectorFst W} {lm0 : Nat}
    {σ : EngineState W S} {cur : Nat} (hI : Inv E fst_ lm0 σ cur []) {s : Nat}
    {tl : List Nat} (hq : σ.qc_ = s :: tl) {p : Nat × S} (hp : lookup σ.statemap_ s = some p) :
    Inv E fst_ lm0 { σ with qc_ := tl } s (fst_.arcsOf p.1) := by
  have hs : s < σ.composed_.NumStates := hI.qlt s (by rw [hq]; simp)
  have hnd : (s :: tl).Nodup := hq ▸ hI.qnd
  have hstl : s ∉ tl := (List.nodup_cons.mp hnd).1
  refine
    { hist := hI.hist, lm_le := hI.lm_le, seen_rng := hI.seen_rng,
      seen_inj := hI.seen_inj, dom := hI.dom, reg1 := hI.reg1, reg2 := hI.reg2,
      fin := hI.fin, reach := hI.reach, qnd := (List.nodup_cons.mp hnd).2,
      qlt := ?_, cur_ok := fun _ => ⟨hs, hstl⟩, arcs := ?_ }
  · intro o ho
    exact hI.qlt o (by rw [hq]; exact List.mem_cons_of_mem _ ho)
  · intro o q s' h
    obtain ⟨done, h1, h2⟩ := hI.arcs o q s' h
    refine ⟨done, ?_, h2⟩
    rw [h1]
    show done ++ pending fst_ σ.qc_ cur [] o q = done ++ pending fst_ tl s (fst_.arcsOf p.1) o q
    unfold pending
    rw [hq]
    by_cases hos : o = s
    · subst hos
      have hpq : p = (q, s') := by
        rw [hp] at h; exact Option.some.inj h
      simp [hstl, hpq]
    · simp [hos]

/-- A pair is known to the specification exactly when the backmap holds a pair of the
same original state and the same buffer, the list of the specification and the backmap
being the same. -/
theorem specKnown_iff (E : Config W F S) (σ : EngineState W S) (disc : List (Nat × S))
    (hd : ∀ o, lookup σ.statemap_ o = disc[o]?) (q : Nat) (s : S) :
    specKnown E disc q s = true ↔
      ∃ o t, lookup σ.statemap_ o = some (q, t) ∧
        normalize E.lmmodel_ t = normalize E.lmmodel_ s := by
  unfold specKnown
  rw [List.any_eq_true]
  constructor
  · rintro ⟨p, hp, hdec⟩
    obtain ⟨h1, h2⟩ := of_decide_eq_true hdec
    obtain ⟨o, ho⟩ := List.mem_iff_getElem?.mp hp
    refine ⟨o, p.2, ?_, h2⟩
    rw [hd o, ho, ← h1]
  · rintro ⟨o, t, ho, ht⟩
    rw [hd o] at ho
    exact ⟨(q, t), List.mem_iff_getElem?.mpr ⟨o, ho⟩, decide_eq_true ⟨rfl, ht⟩⟩

theorem length_of_backmap {E : Config W F S} {fst_ : VectorFst W} {lm0 : Nat}
    {σ : EngineState W S} {cur : Nat} {rest : List (Arc W)} (hI : Inv E fst_ lm0 σ cur rest)
    {disc : List (Nat × S)} (hd : ∀ o, lookup σ.statemap_ o = disc[o]?) :
    disc.length = σ.composed_.NumStates := by
  apply Nat.le_antisymm
  · by_contra hlt
    have h1 : disc[σ.composed_.NumStates]? ≠ none := by
      rw [Ne, List.getElem?_eq_none_iff]
      omega
    rw [← hd] at h1
    have := (hI.dom _).mpr h1
    omega
  · by_contra hlt
    have h1 := (hI.dom disc.length).mp (by omega)
    rw [hd, List.getElem?_eq_none (Nat.le_refl _)] at h1
    exact h1 rfl

end Lockstep

section LockstepLoop

variable {W F S : Type} [DecidableEq W] [Mul W] [Mul F] [Zero F]

/-- The visit of one arc against the specification: the backmap stays the list of the
discovered pairs. -/
theorem visitArc_discover {E : Config W F S} {fst_ : VectorFst W} {lm0 : Nat}
    {σ : EngineState W S} {cur : Nat} {a : Arc W} {rest : List (Arc W)}
    (hI : Inv E fst_ lm0 σ cur (a :: rest)) (hwf : WellFormed fst_)
    (hN : fst_.NumStates ≤ 2 ^ 31) {q : Nat} {s2 : S}
    (hcur : lookup σ.statemap_ cur = some (q, s2))
    (hK : (visitArc E fst_ cur s2 σ a).lm ≤ lm0 + sid)
    {disc : List (Nat × S)} (hd : ∀ o, lookup σ.statemap_ o = disc[o]?) :
    ∀ o, lookup (visitArc E fst_ cur s2 σ a).statemap_ o =
      (specDiscoverArc E s2 disc a)[o]? := by
  have ha : a ∈ fst_.arcsOf q := by
    obtain ⟨done, h1, _⟩ := hI.arcs cur q s2 hcur
    have hc := (hI.cur_ok (List.cons_ne_nil _ _)).2
    unfold pending at h1
    rw [if_neg hc, if_pos rfl] at h1
    rw [h1]
    simp
  have hr : Reach fst_ a.nextstate := Reach.step (hI.reach cur q s2 hcur) ha
  have hlt := Reach_lt hwf hr
  have hlen := length_of_backmap hI hd
  obtain ⟨hsm, hlm⟩ := visitArc_statemap E fst_ cur s2 σ a
  obtain ⟨hI1, hreg, _, _⟩ := Inv_add_push hI (scoreArc E s2 a.olabel).2.2 hr
  obtain ⟨hps, hpl⟩ := pushNew_statemap (add E σ (scoreArc E s2 a.olabel).2.2 a.nextstate
    (fst_.Final E.Zero a.nextstate))
  unfold specDiscoverArc
  rw [← scoreArc_next]
  rcases add_cases E σ (scoreArc E s2 a.olabel).2.2 a.nextstate
    (fst_.Final E.Zero a.nextstate) with ⟨h1, _, h3, _⟩ | ⟨t, h1, _, h3, _⟩
  · have hnot : ¬ specKnown E disc a.nextstate (scoreArc E s2 a.olabel).2.2 = true := by
      intro hk
      obtain ⟨o, t, ho, ht⟩ := (specKnown_iff E σ disc hd _ _).mp hk
      have hrg := hI.reg1 o a.nextstate t ho
      rw [ht, ← getIdx_eq_normalize E.lmmodel_ σ.history _ hI.hist] at hrg
      rw [add_of_registered E σ _ a.nextstate (fst_.Final E.Zero a.nextstate) hrg] at h1
      have h5 := congrArg Prod.snd h1
      simp at h5
    rw [if_neg hnot]
    intro o
    rw [hsm, h3, lookup_assign, ← hlen]
    by_cases ho : o = disc.length
    · rw [if_pos ho, ho, List.getElem?_concat_length]
    · rw [if_neg ho, hd o]
      by_cases hlo : o < disc.length
      · rw [List.getElem?_append_left hlo]
      · rw [List.getElem?_eq_none (by omega), List.getElem?_eq_none]
        rw [List.length_append, List.length_singleton]
        omega
  · have hk : specKnown E disc a.nextstate (scoreArc E s2 a.olabel).2.2 = true := by
      rw [specKnown_iff E σ disc hd]
      have hK' : (pushNew (add E σ (scoreArc E s2 a.olabel).2.2 a.nextstate
          (fst_.Final E.Zero a.nextstate))).lm ≤ lm0 + sid := by
        rw [hpl, ← hlm]
        exact hK
      obtain ⟨s', hs', hn⟩ := target_paired hI1 hwf hN hK' hlt hreg
      rw [hps, h3] at hs'
      rw [h1] at hs'
      exact ⟨t, s', hs', hn⟩
    rw [if_pos hk]
    intro o
    rw [hsm, h3, hd o]

theorem foldl_visitArc_discover {E : Config W F S} {fst_ : VectorFst W} {lm0 : Nat}
    {cur : Nat} (hwf : WellFormed fst_) (hN : fst_.NumStates ≤ 2 ^ 31) (q : Nat) (s2 : S)
    (rest : List (Arc W)) :
    ∀ (σ : EngineState W S) (disc : List (Nat × S)), Inv E fst_ lm0 σ cur rest →
      lookup σ.statemap_ cur = some (q, s2) →
      (rest.foldl (visitArc E fst_ cur s2) σ).lm ≤ lm0 + sid →
      (∀ o, lookup σ.statemap_ o = disc[o]?) →
      ∀ o, lookup (rest.foldl (visitArc E fst_ cur s2) σ).statemap_ o =
        (rest.foldl (specDiscoverArc E s2) disc)[o]? := by
  induction rest with
  | nil => intro σ disc _ _ _ hd; exact hd
  | cons a rest ih =>
    intro σ disc hI hcur hK hd
    rw [List.foldl_cons, List.foldl_cons]
    obtain ⟨hI1, hcur1, _⟩ := Inv_visitArc hI hcur
    have hK1 : (visitArc E fst_ cur s2 σ a).lm ≤ lm0 + sid :=
      Nat.le_trans (lm_le_of_later (foldl_visitArc_later E fst_ cur s2 rest _)) hK
    exact ih _ _ hI1 hcur1 hK (visitArc_discover hI hwf hN hcur hK1 hd)

/-- The loop against the traversal of the specification, fuel for fuel: the backmap is
the list of the discovered pairs, and the queue holds the numbers of the pairs still to
expand, in order. -/
theorem traverse_discover {E : Config W F S} {fst_ : VectorFst W} {lm0 : Nat} {cur : Nat}
    (hwf : WellFormed fst_) (hN : fst_.NumStates ≤ 2 ^ 31) (fuel : Nat) :
    ∀ (σ : EngineState W S) (x : Nat × List (Nat × S)), Inv E fst_ lm0 σ cur [] →
      (traverse E fst_ fuel σ).lm ≤ lm0 + sid →
      (∀ o, lookup σ.statemap_ o = x.2[o]?) →
      σ.qc_ = List.range' x.1 (σ.composed_.NumStates - x.1) →
      x.1 ≤ σ.composed_.NumStates →
      (∀ o, lookup (traverse E fst_ fuel σ).statemap_ o = (specRun E fst_ fuel x).2[o]?) ∧
      ((traverse E fst_ fuel σ).qc_ = [] →
        (specRun E fst_ fuel x).2[(specRun E fst_ fuel x).1]? = none) := by
  induction fuel with
  | zero =>
    intro σ x hI _ hd hq hi
    refine ⟨hd, fun he => ?_⟩
    have he' : σ.qc_ = [] := he
    rw [he'] at hq
    have hz : σ.composed_.NumStates - x.1 = 0 := by
      cases hm : σ.composed_.NumStates - x.1 with
      | zero => rfl
      | succ m => rw [hm] at hq; simp [List.range'_succ] at hq
    show x.2[x.1]? = none
    rw [List.getElem?_eq_none]
    rw [length_of_backmap hI hd]
    omega
  | succ n ih =>
    intro σ x hI hK hd hq hi
    have hlen := length_of_backmap hI hd
    cases hm : σ.composed_.NumStates - x.1 with
    | zero =>
      rw [hm] at hq
      have hq' : σ.qc_ = [] := hq
      have ht : traverse E fst_ (n + 1) σ = σ := by
        unfold traverse
        rw [if_pos hq']
      have hx : x.2[x.1]? = none := by
        rw [List.getElem?_eq_none]
        omega
      rw [ht, specRun_ended E fst_ _ x hx]
      exact ⟨hd, fun _ => hx⟩
    | succ m =>
      rw [hm, List.range'_succ] at hq
      have ht : traverse E fst_ (n + 1) σ = traverse E fst_ n (expand E fst_ σ) := by
        conv_lhs => unfold traverse
        rw [if_neg (by rw [hq]; exact List.cons_ne_nil _ _)]
      have hlt : x.1 < σ.composed_.NumStates := by omega
      obtain ⟨p, hp⟩ := Option.ne_none_iff_exists'.mp ((hI.dom x.1).mp hlt)
      have hxp : x.2[x.1]? = some p := by rw [← hd, hp]
      have hget : get E σ x.1 = p := by
        unfold get
        rw [hp]
        rfl
      have hpop := Inv_pop hI hq hp
      obtain ⟨e1, _, e3⟩ := expand_trace E fst_ σ x.1 _ hq
      obtain ⟨_, e2', _⟩ := expand_trace E fst_ σ x.1 _ hq
      have hex : expand E fst_ σ = (fst_.arcsOf p.1).foldl
          (visitArc E fst_ x.1 p.2) { σ with qc_ := List.range' (x.1 + 1) m } := by
        unfold expand
        simp only [hq, hget]
      rw [ht] at hK ⊢
      rw [specRun_succ E fst_ n x p hxp]
      have hKe : (expand E fst_ σ).lm ≤ lm0 + sid :=
        Nat.le_trans (lm_le_of_later (traverse_later E fst_ n _)) hK
      have hd1 : ∀ o, lookup (expand E fst_ σ).statemap_ o =
          ((fst_.arcsOf p.1).foldl (specDiscoverArc E p.2) x.2)[o]? := by
        rw [hex]
        rw [hex] at hKe
        exact foldl_visitArc_discover hwf hN p.1 p.2 (fst_.arcsOf p.1) _ x.2 hpop hp hKe hd
      have hge := e3.1
      apply ih (expand E fst_ σ) (x.1 + 1, (fst_.arcsOf p.1).foldl (specDiscoverArc E p.2) x.2)
        (Inv_expand hI).1 hK hd1
      · show (expand E fst_ σ).qc_ =
          List.range' (x.1 + 1) ((expand E fst_ σ).composed_.NumStates - (x.1 + 1))
        rw [e1, e2']
        have hs : σ.composed_.NumStates = x.1 + 1 + m := by omega
        nth_rewrite 1 [hs]
        rw [List.range'_append_1]
        congr 1
        omega
      · show x.1 + 1 ≤ (expand E fst_ σ).composed_.NumStates
        omega

/-- The backmap a fresh engine leaves lists the pairs in the order the traversal of the
specification discovers them, for every fuel from the number of output states on. -/
theorem compose_fresh_discovery (E : Config W F S) (fst_ : VectorFst W) (lm0 : Nat)
    (hwf : WellFormed fst_) (hN : fst_.NumStates ≤ 2 ^ 31)
    (hK : (compose E (EngineState.fresh E lm0) fst_).2.lm ≤ lm0 + sid) (fuel : Nat)
    (hf : (compose E (EngineState.fresh E lm0) fst_).2.composed_.NumStates ≤ fuel) :
    (specDiscovery E fst_ fuel).length =
      (compose E (EngineState.fresh E lm0) fst_).2.composed_.NumStates ∧
    ∀ o, lookup (compose E (EngineState.fresh E lm0) fst_).2.statemap_ o =
      (specDiscovery E fst_ fuel)[o]? := by
  have hne : fst_.NumStates ≠ 0 := by
    have := hwf.2.1
    omega
  obtain ⟨_, i2, i3, i4⟩ := initial_fresh_trace E fst_ lm0
  obtain ⟨hI0, _, _⟩ := Inv_initial E fst_ lm0
  obtain ⟨_, hIf, hqf, _, _⟩ := compose_fresh E fst_ lm0 hne
  have hd0 : ∀ o, lookup (initial E (EngineState.fresh E lm0) fst_).statemap_ o =
      [(fst_.Start, E.lmmodel_.NullContextState)][o]? := by
    intro o
    cases o with
    | zero => rw [i4]; rfl
    | succ k =>
      have hn : lookup (initial E (EngineState.fresh E lm0) fst_).statemap_ (k + 1) = none := by
        by_contra hc
        have := (hI0.dom (k + 1)).mpr hc
        omega
      rw [hn]
      rfl
  rw [compose_of_ne E _ fst_ hne] at hK hf hIf hqf ⊢
  simp only at hK hf hIf hqf ⊢
  obtain ⟨t1, t2⟩ := traverse_discover hwf hN
    (2 ^ 64 + (initial E (EngineState.fresh E lm0) fst_).qc_.length)
    (initial E (EngineState.fresh E lm0) fst_)
    (0, [(fst_.Start, E.lmmodel_.NullContextState)]) hI0 hK hd0
    (by rw [i2, i3]; rfl) (Nat.zero_le _)
  have hlen := length_of_backmap hIf t1
  unfold specDiscovery
  rw [specRun_enough E fst_ _ _ rfl (t2 hqf) fuel (by rw [hlen]; exact hf)]
  exact ⟨hlen, t1⟩

end LockstepLoop

/-! ## C15: the output states are numbered in order of discovery -/

section ClaimC15

variable {W F S : Type} [DecidableEq W] [Mul W] [Mul F] [Zero F]

/-- C15. In the composition of a non-empty input by a freshly constructed engine, with `n`
the number of output states: the backmap pairs exactly the numbers below `n`; the state
discovered in position `i` (the i-th push, the start state first, then the targets of the
arcs in the order the loop visits them) is state `i`; the states are expanded in the order
of their discovery; the start state of the output is state 0, and the backmap pairs it
with the start state of the input and the null context. And for a well-formed input within
the range where the compound key has no collision, state `i` is paired by the backmap with
the pair of original state and context that the breadth-first traversal of the
specification (`specDiscovery`: pairs expanded first in, first out, arcs in the arc order of
the input, a pair being new when no discovered pair has its original state and its buffer)
discovers in position `i`, for every fuel of at least `n`; that traversal discovers `n`
pairs. -/
theorem states_numbered_by_discovery (E : Config W F S) (fst_ : VectorFst W) (lm0 : Nat)
    (hne : fst_.NumStates ≠ 0) :
    (∀ o, o < (compose E (EngineState.fresh E lm0) fst_).2.composed_.NumStates ↔
      lookup (compose E (EngineState.fresh E lm0) fst_).2.statemap_ o ≠ none) ∧
    (pushed E (EngineState.fresh E lm0) fst_).length =
      (compose E (EngineState.fresh E lm0) fst_).2.composed_.NumStates ∧
    (∀ i, i < (compose E (EngineState.fresh E lm0) fst_).2.composed_.NumStates →
      (pushed E (EngineState.fresh E lm0) fst_)[i]? = some i) ∧
    popped E (EngineState.fresh E lm0) fst_ = pushed E (EngineState.fresh E lm0) fst_ ∧
    (compose E (EngineState.fresh E lm0) fst_).2.composed_.start = some 0 ∧
    0 < (compose E (EngineState.fresh E lm0) fst_).2.composed_.NumStates ∧
    lookup (compose E (EngineState.fresh E lm0) fst_).2.statemap_ 0 =
      some (fst_.Start, E.lmmodel_.NullContextState) ∧
    (WellFormed fst_ → fst_.NumStates ≤ 2 ^ 31 →
      (compose E (EngineState.fresh E lm0) fst_).2.lm ≤ lm0 + sid →
      ∀ fuel, (compose E (EngineState.fresh E lm0) fst_).2.composed_.NumStates ≤ fuel →
        (specDiscovery E fst_ fuel).length =
          (compose E (EngineState.fresh E lm0) fst_).2.composed_.NumStates ∧
        ∀ i, lookup (compose E (EngineState.fresh E lm0) fst_).2.statemap_ i =
          (specDiscovery E fst_ fuel)[i]?) := by
  obtain ⟨h1, h2, h3, h4⟩ := compose_fresh_trace E fst_ lm0 hne
  obtain ⟨_, hinv, _, h5, _⟩ := compose_fresh E fst_ lm0 hne
  refine ⟨hinv.dom, ?_, ?_, ?_, h5, h3, h4, ?_⟩
  · rw [h1, List.length_range]
  · intro i hi
    rw [h1, List.getElem?_range hi]
  · rw [h1, h2]
  · intro hwf hN hK fuel hf
    exact compose_fresh_discovery E fst_ lm0 hwf hN hK fuel hf

theorem states_numbered_by_discovery_witness :
    forkFst.NumStates ≠ 0 ∧ WellFormed forkFst ∧ forkFst.NumStates ≤ 2 ^ 31 ∧
    (compose toyConfig (EngineState.fresh toyConfig 0) forkFst).2.lm ≤ 0 + sid ∧
    specDiscovery toyConfig forkFst 3 = [(0, 0), (1, 5), (2, 6)] ∧
    ((∀ o, o < (compose toyConfig (EngineState.fresh toyConfig 0) forkFst).2.composed_.NumStates ↔
      lookup (compose toyConfig (EngineState.fresh toyConfig 0) forkFst).2.statemap_ o ≠ none) ∧
    (pushed toyConfig (EngineState.fresh toyConfig 0) forkFst).length =
      (compose toyConfig (EngineState.fresh toyConfig 0) forkFst).2.composed_.NumStates ∧
    (∀ i, i < (compose toyConfig (EngineState.fresh toyConfig 0) forkFst).2.composed_.NumStates →
      (pushed toyConfig (EngineState.fresh toyConfig 0) forkFst)[i]? = some i) ∧
    popped toyConfig (EngineState.fresh toyConfig 0) forkFst =
      pushed toyConfig (EngineState.fresh toyConfig 0) forkFst ∧
    (compose toyConfig (EngineState.fresh toyConfig 0) forkFst).2.composed_.start = some 0 ∧
    0 < (compose toyConfig (EngineState.fresh toyConfig 0) forkFst).2.composed_.NumStates ∧
    lookup (compose toyConfig (EngineState.fresh toyConfig 0) forkFst).2.statemap_ 0 =
      some (forkFst.Start, toyConfig.lmmodel_.NullContextState) ∧
    (WellFormed forkFst → forkFst.NumStates ≤ 2 ^ 31 →
      (compose toyConfig (EngineState.fresh toyConfig 0) forkFst).2.lm ≤ 0 + sid →
      ∀ fuel,
        (compose toyConfig (EngineState.fresh toyConfig 0) forkFst).2.composed_.NumStates ≤ fuel →
        (specDiscovery toyConfig forkFst fuel).length =
          (compose toyConfig (EngineState.fresh toyConfig 0) forkFst).2.composed_.NumStates ∧
        ∀ i, lookup (compose toyConfig (EngineState.fresh toyConfig 0) forkFst).2.statemap_ i =
          (specDiscovery toyConfig forkFst fuel)[i]?)) :=
  ⟨by decide, by decide, by decide, by decide, by decide,
    states_numbered_by_discovery toyConfig forkFst 0 (by decide)⟩

end ClaimC15

/-! ## C16: the indices are never reset -/

section ClaimC16

variable {W F S : Type} [DecidableEq W] [Mul W] [Mul F] [Zero F]

theorem initial_extends (E : Config W F S) (σ : EngineState W S) (fst_ : VectorFst W) :
    Extends σ (initial E σ fst_) := by
  have h := add_extends E ({ σ with composed_ := VectorFst.new } : EngineState W S)
    E.lmmodel_.NullContextState fst_.Start (fst_.Final E.Zero fst_.Start)
  exact h

theorem compose_extends (E : Config W F S) (σ : EngineState W S) (fst_ : VectorFst W) :
    Extends σ (compose E σ fst_).2 := by
  by_cases h : fst_.NumStates = 0
  · unfold compose
    rw [if_pos h]
    exact Extends.refl σ
  · rw [compose_of_ne E σ fst_ h]
    exact (initial_extends E σ fst_).trans (traverse_extends E fst_ _ _)

/-- C16. From every engine state `σ`, a call of `operator()` keeps every binding of the
interning index and of the registry; on an input without states it leaves the whole engine
state, the three indices included, as it was; a second call keeps the bindings that were
there before the first; and the second call works on the indices the first one left: an
engine that was fresh before the first call finds, in a second call on the same non-empty
input, the pair of the start state in the registry, so that `add` reports state 0 as
visited. -/
theorem indices_never_reset (E : Config W F S) (σ : EngineState W S)
    (fst1 fst2 : VectorFst W) :
    Extends σ (compose E σ fst1).2 ∧
    (fst1.NumStates = 0 → (compose E σ fst1).2 = σ) ∧
    Extends σ (compose E (compose E σ fst1).2 fst2).2 ∧
    (∀ lm0, fst1.NumStates ≠ 0 →
      (add E { (compose E (EngineState.fresh E lm0) fst1).2 with composed_ := VectorFst.new }
        E.lmmodel_.NullContextState fst1.Start (fst1.Final E.Zero fst1.Start)).1 = (0, true)) := by
  refine ⟨compose_extends E σ fst1, ?_,
    (compose_extends E σ fst1).trans (compose_extends E _ fst2), ?_⟩
  · intro h
    unfold compose
    rw [if_pos h]
  · intro lm0 hne
    obtain ⟨_, hinv, _, _, hreg⟩ := compose_fresh E fst1 lm0 hne
    have hh : HistOk E.lmmodel_
        ({ (compose E (EngineState.fresh E lm0) fst1).2 with composed_ := VectorFst.new } :
          EngineState W S).history := hinv.hist
    have hr : Registered
        ({ (compose E (EngineState.fresh E lm0) fst1).2 with composed_ := VectorFst.new } :
          EngineState W S)
        (getIdx E.lmmodel_ ({ (compose E (EngineState.fresh E lm0) fst1).2 with
          composed_ := VectorFst.new } : EngineState W S).history
          E.lmmodel_.NullContextState) fst1.Start 0 := by
      rw [getIdx_eq_normalize E.lmmodel_ _ _ hh]
      exact hreg
    rw [add_of_registered E _ E.lmmodel_.NullContextState fst1.Start
      (fst1.Final E.Zero fst1.Start) hr]

theorem indices_never_reset_witness :
    Extends (EngineState.fresh toyConfig 0)
      (compose toyConfig (EngineState.fresh toyConfig 0) toyFst).2 ∧
    (toyFst.NumStates = 0 →
      (compose toyConfig (EngineState.fresh toyConfig 0) toyFst).2 = EngineState.fresh toyConfig 0) ∧
    Extends (EngineState.fresh toyConfig 0)
      (compose toyConfig (compose toyConfig (EngineState.fresh toyConfig 0) toyFst).2 chainFst).2 ∧
    (∀ lm0, toyFst.NumStates ≠ 0 →
      (add toyConfig { (compose toyConfig (EngineState.fresh toyConfig lm0) toyFst).2 with
          composed_ := VectorFst.new }
        toyConfig.lmmodel_.NullContextState toyFst.Start
        (toyFst.Final toyConfig.Zero toyFst.Start)).1 = (0, true)) :=
  indices_never_reset toyConfig (EngineState.fresh toyConfig 0) toyFst chainFst

end ClaimC16

/-! ## C17: the scale of the LM weight and the word penalty -/

section ClaimC17

variable {W F S : Type} [DecidableEq W] [Mul W] [LinearOrderedRing F]

/-- C17. Scores are read in an ordered ring, the rounding of `float` arithmetic left out.
For the engine the constructor builds and an arc whose output label is no epsilon and is
above 2: the LM weight is the log-probability the model returns for the mapped label times
the factor `natlog10_`; the factor is `-lmscale` with the flag off and `-lmscale * ln10`
with the flag on, `ln10` being `::log ( 10.0 )`; a log-probability at most 0 with a positive
scale (and a positive `ln10`) gives a weight at least 0; the word penalty is `lmwp`. -/
theorem lm_weight_scaled (model : KenLMModel S F) (epsilons : List Int) (natlog : Bool)
    (lmscale lmwp : F) (idbridge : Int → Nat) (mw : F → W) (zposinf : F) (zero : W) (ln10 : F)
    (s2 : S) (l : Int) (hl : l ∉ epsilons) (h2 : ¬ l ≤ 2) :
    (scoreArc (ApplyLanguageModelOnTheFly model epsilons natlog lmscale lmwp idbridge mw
        zposinf zero ln10) s2 l).1 =
      (model.Score s2 (idbridge l)).1 *
        (ApplyLanguageModelOnTheFly model epsilons natlog lmscale lmwp idbridge mw
          zposinf zero ln10).natlog10_ ∧
    (natlog = false → (ApplyLanguageModelOnTheFly model epsilons natlog lmscale lmwp idbridge
      mw zposinf zero ln10).natlog10_ = -lmscale) ∧
    (natlog = true → (ApplyLanguageModelOnTheFly model epsilons natlog lmscale lmwp idbridge
      mw zposinf zero ln10).natlog10_ = -lmscale * ln10) ∧
    ((model.Score s2 (idbridge l)).1 ≤ 0 → 0 < lmscale → 0 < ln10 →
      0 ≤ (scoreArc (ApplyLanguageModelOnTheFly model epsilons natlog lmscale lmwp idbridge mw
        zposinf zero ln10) s2 l).1) ∧
    (scoreArc (ApplyLanguageModelOnTheFly model epsilons natlog lmscale lmwp idbridge mw
        zposinf zero ln10) s2 l).2.1 = lmwp ∧
    (scoreArc (ApplyLanguageModelOnTheFly model epsilons natlog lmscale lmwp idbridge mw
        zposinf zero ln10) s2 l).2.2 = (model.Score s2 (idbridge l)).2 := by
  have hs : scoreArc (ApplyLanguageModelOnTheFly model epsilons natlog lmscale lmwp idbridge mw
      zposinf zero ln10) s2 l =
      ((model.Score s2 (idbridge l)).1 *
        (if natlog then -lmscale * ln10 else -lmscale), lmwp,
        (model.Score s2 (idbridge l)).2) := by
    unfold scoreArc ApplyLanguageModelOnTheFly
    simp only
    rw [if_pos hl, if_neg h2]
  rw [hs]
  refine ⟨rfl, ?_, ?_, ?_, rfl, rfl⟩
  · intro hn
    subst hn
    rfl
  · intro hn
    subst hn
    rfl
  · intro hp hsc hln
    show 0 ≤ (model.Score s2 (idbridge l)).1 * (if natlog then -lmscale * ln10 else -lmscale)
    apply mul_nonneg_of_nonpos_of_nonpos hp
    cases natlog with
    | false =>
      simp only [Bool.false_eq_true, if_false]
      exact neg_nonpos.mpr (le_of_lt hsc)
    | true =>
      simp only [if_true]
      rw [neg_mul]
      exact neg_nonpos.mpr (le_of_lt (mul_pos hsc hln))

theorem lm_weight_scaled_witness :
    (5 : Int) ∉ [0] ∧ ¬ (5 : Int) ≤ 2 ∧
    (scoreArc (ApplyLanguageModelOnTheFly bigramModel [0] true 3 7 (fun l => l.toNat)
        (fun x => Multiplicative.ofAdd x) 1000000 (Multiplicative.ofAdd (1000000 : Int)) 2) 4 5).1
      = (bigramModel.Score 4 5).1 * -6 ∧
    (scoreArc (ApplyLanguageModelOnTheFly bigramModel [0] true 3 7 (fun l => l.toNat)
        (fun x => Multiplicative.ofAdd x) 1000000 (Multiplicative.ofAdd (1000000 : Int)) 2) 4 5).2.1
      = 7 :=
  ⟨by decide, by decide,
    (lm_weight_scaled bigramModel [0] true 3 7 (fun l => l.toNat)
      (fun x => Multiplicative.ofAdd x) 1000000 (Multiplicative.ofAdd (1000000 : Int)) 2 4 5
      (by decide) (by decide)).1,
    (lm_weight_scaled bigramModel [0] true 3 7 (fun l => l.toNat)
      (fun x => Multiplicative.ofAdd x) 1000000 (Multiplicative.ofAdd (1000000 : Int)) 2 4 5
      (by decide) (by decide)).2.2.2.2.1⟩

end ClaimC17

/-! ## C18: the traversal ends, and the size of its output -/

section ClaimC18

variable {W F S : Type} [DecidableEq W] [Mul W] [Mul F] [Zero F]

/-- The output states are no more than the pairs of a state of the input and an id of
the interning index. -/
theorem numStates_le_pairs {E : Config W F S} {fst_ : VectorFst W} {lm0 : Nat}
    {σ : EngineState W S} {cur : Nat} {rest : List (Arc W)} (hwf : WellFormed fst_)
    (hinv : Inv E fst_ lm0 σ cur rest) :
    σ.composed_.NumStates ≤ fst_.NumStates * σ.seenlmstates_.length := by
  have hsurj : Set.SurjOn
      (fun p : Nat × Nat => (lookup σ.stateexistence_ (compound p.1 p.2)).getD 0)
      (Finset.range fst_.NumStates ×ˢ (σ.seenlmstates_.map Prod.snd).toFinset : Finset (Nat × Nat))
      (Finset.range σ.composed_.NumStates : Finset Nat) := by
    intro o ho
    have ho' : o < σ.composed_.NumStates := Finset.mem_range.mp (Finset.mem_coe.mp ho)
    have hd := (hinv.dom o).mp ho'
    cases hp : lookup σ.statemap_ o with
    | none => exact absurd hp hd
    | some p =>
      obtain ⟨q, s⟩ := p
      obtain ⟨c, hc, hk⟩ := hinv.reg1 o q s hp
      have hq := Reach_lt hwf (hinv.reach o q s hp)
      refine ⟨(q, c), ?_, ?_⟩
      · rw [Finset.mem_coe, Finset.mem_product]
        refine ⟨Finset.mem_range.mpr hq, ?_⟩
        rw [List.mem_toFinset]
        exact List.mem_map.mpr ⟨(_, c), lookup_mem _ _ _ hc, rfl⟩
      · show (lookup σ.stateexistence_ (compound q c)).getD 0 = o
        rw [hk]
        rfl
  have hcard := Finset.card_le_card_of_surjOn _ hsurj
  rw [Finset.card_range, Finset.card_product, Finset.card_range] at hcard
  have hl : (σ.seenlmstates_.map Prod.snd).toFinset.card ≤ σ.seenlmstates_.length := by
    have := List.toFinset_card_le (σ.seenlmstates_.map Prod.snd)
    rwa [List.length_map] at this
  exact le_trans hcard (Nat.mul_le_mul_left _ hl)

/-- C18. For a well-formed input, cyclic or not, and any language model, the loop of a
freshly constructed engine ends: with the fuel `operator()` is given it stops on an empty
queue, more fuel changes nothing, and an automaton is returned. The buffers of the
interning index are distinct, and the number of output states is at most the number of
input states times the number of these buffers. -/
theorem traversal_ends_bounded (E : Config W F S) (fst_ : VectorFst W) (lm0 : Nat)
    (hwf : WellFormed fst_) :
    (compose E (EngineState.fresh E lm0) fst_).1 =
      some (compose E (EngineState.fresh E lm0) fst_).2.composed_ ∧
    (compose E (EngineState.fresh E lm0) fst_).2.qc_ = [] ∧
    (∀ k, traverse E fst_ (2 ^ 64 + (initial E (EngineState.fresh E lm0) fst_).qc_.length + k)
      (initial E (EngineState.fresh E lm0) fst_) = (compose E (EngineState.fresh E lm0) fst_).2) ∧
    ((compose E (EngineState.fresh E lm0) fst_).2.seenlmstates_.map Prod.fst).Nodup ∧
    (compose E (EngineState.fresh E lm0) fst_).2.composed_.NumStates ≤
      fst_.NumStates * (compose E (EngineState.fresh E lm0) fst_).2.seenlmstates_.length := by
  have hne : fst_.NumStates ≠ 0 := by
    have := hwf.2.1
    omega
  obtain ⟨h1, hinv, h3, _, _⟩ := compose_fresh E fst_ lm0 hne
  have hids : IdsFrom lm0 (compose E (EngineState.fresh E lm0) fst_).2 :=
    IdsFrom_later (compose_later E _ fst_) (IdsFrom_fresh E lm0)
  refine ⟨h1, h3, ?_, hids.1, numStates_le_pairs hwf hinv⟩
  intro k
  rw [traverse_stable E fst_ _ _ k (traverse_compose_fuel E fst_ _), compose_of_ne E _ fst_ hne]

theorem traversal_ends_bounded_witness :
    WellFormed cycleFst ∧
    ((compose toyConfig (EngineState.fresh toyConfig 0) cycleFst).1 =
      some (compose toyConfig (EngineState.fresh toyConfig 0) cycleFst).2.composed_ ∧
    (compose toyConfig (EngineState.fresh toyConfig 0) cycleFst).2.qc_ = [] ∧
    (∀ k, traverse toyConfig cycleFst
      (2 ^ 64 + (initial toyConfig (EngineState.fresh toyConfig 0) cycleFst).qc_.length + k)
      (initial toyConfig (EngineState.fresh toyConfig 0) cycleFst) =
        (compose toyConfig (EngineState.fresh toyConfig 0) cycleFst).2) ∧
    ((compose toyConfig (EngineState.fresh toyConfig 0) cycleFst).2.seenlmstates_.map
      Prod.fst).Nodup ∧
    (compose toyConfig (EngineState.fresh toyConfig 0) cycleFst).2.composed_.NumStates ≤
      cycleFst.NumStates *
        (compose toyConfig (EngineState.fresh toyConfig 0) cycleFst).2.seenlmstates_.length) :=
  ⟨by decide, traversal_ends_bounded toyConfig cycleFst 0 (by decide)⟩

end ClaimC18

/-! ## C19: normalization does not merge contexts with non-zero words -/

section ClaimC19

variable {W F S : Type} [DecidableEq W] [Mul W] [Mul F] [Zero F]

/-- Two states whose valid words are non-zero and whose reported lengths are at most
`Order() - 1` have the same buffer only if they have the same length and the same valid
words. -/
theorem normalize_injective (M : KenLMModel S F) (s s' : S)
    (hL : M.getLength s ≤ M.Order - 1) (hL' : M.getLength s' ≤ M.Order - 1)
    (hz : ∀ k, k < M.getLength s → M.words s k ≠ 0)
    (hz' : ∀ k, k < M.getLength s' → M.words s' k ≠ 0)
    (h : normalize M s = normalize M s') :
    M.getLength s = M.getLength s' ∧ ∀ k, k < M.getLength s → M.words s k = M.words s' k := by
  have hent : ∀ (t : S) (k : Nat), k < M.Order - 1 →
      (normalize M t).getD k 0 = if M.getLength t ≤ k then 0 else M.words t k := by
    intro t k hk
    unfold normalize
    rw [getIdx_getD M _ t k (by rw [List.length_replicate]; omega), if_pos hk]
  have hlen : M.getLength s = M.getLength s' := by
    rcases Nat.lt_trichotomy (M.getLength s) (M.getLength s') with hlt | heq | hgt
    · have e1 := hent s (M.getLength s) (by omega)
      have e2 := hent s' (M.getLength s) (by omega)
      rw [if_pos (Nat.le_refl _)] at e1
      rw [if_neg (by omega)] at e2
      rw [h, e2] at e1
      exact absurd e1 (hz' _ hlt)
    · exact heq
    · have e1 := hent s (M.getLength s') (by omega)
      have e2 := hent s' (M.getLength s') (by omega)
      rw [if_neg (by omega)] at e1
      rw [if_pos (Nat.le_refl _)] at e2
      rw [h, e2] at e1
      exact absurd e1.symm (hz _ hgt)
  refine ⟨hlen, fun k hk => ?_⟩
  have e1 := hent s k (by omega)
  have e2 := hent s' k (by omega)
  rw [if_neg (by omega)] at e1
  rw [if_neg (by omega)] at e2
  rw [← e1, ← e2, h]

/-- The id `add` uses for a context is the one the index holds for its buffer. -/
theorem contextId_spec (E : Config W F S) (σ : EngineState W S) (s : S)
    (hh : HistOk E.lmmodel_ σ.history) :
    lookup (intern E σ s).seenlmstates_ (normalize E.lmmodel_ s) = some (contextId E σ s) := by
  obtain ⟨c, hc⟩ := intern_lookup_history E σ s
  unfold contextId
  rw [intern_history, hc, ← getIdx_eq_normalize E.lmmodel_ σ.history s hh, hc]
  rfl

/-- C19. Let `s` and `s'` be context states whose reported lengths are at most
`Order() - 1` and whose valid words are non-zero, passed to `add` in a state `σ1` of the
life of an engine and in a later state `σ2` (after that call, maybe after more). If the two
calls use the same context id, the states report the same length and have the same words
below it. -/
theorem normalization_never_merges (E : Config W F S) (lm0 : Nat) (σ1 σ2 : EngineState W S)
    (s s' : S) (q : Nat) (w : W)
    (hL : E.lmmodel_.getLength s ≤ E.lmmodel_.Order - 1)
    (hL' : E.lmmodel_.getLength s' ≤ E.lmmodel_.Order - 1)
    (hz : ∀ k, k < E.lmmodel_.getLength s → E.lmmodel_.words s k ≠ 0)
    (hz' : ∀ k, k < E.lmmodel_.getLength s' → E.lmmodel_.words s' k ≠ 0)
    (h1 : Later E (EngineState.fresh E lm0) σ1) (h2 : Later E (add E σ1 s q w).2 σ2)
    (hc : contextId E σ1 s = contextId E σ2 s') :
    E.lmmodel_.getLength s = E.lmmodel_.getLength s' ∧
      ∀ k, k < E.lmmodel_.getLength s → E.lmmodel_.words s k = E.lmmodel_.words s' k := by
  have hh1 : HistOk E.lmmodel_ σ1.history := HistOk_later h1 (HistOk_replicate E.lmmodel_)
  have hl2 : Later E (EngineState.fresh E lm0) σ2 :=
    Later_trans h1 (Later_trans (add_later E σ1 s q w) h2)
  have hh2 : HistOk E.lmmodel_ σ2.history := HistOk_later hl2 (HistOk_replicate E.lmmodel_)
  have hi1 : Later E (intern E σ1 s) (intern E σ2 s') := by
    have a1 : Later E (intern E σ1 s) (add E σ1 s q w).2 :=
      Later_of_sameIndex E (add_sameIndex E σ1 s q w)
    exact Later_trans (Later_trans a1 h2) ⟨[s'], SameIndex_refl _⟩
  have hok : IndexOk (intern E σ2 s') :=
    IndexOk_later (Later_trans hl2 ⟨[s'], SameIndex_refl _⟩) (IndexOk_fresh E lm0)
  have e1 := seen_later hi1 (contextId_spec E σ1 s hh1)
  have e2 := contextId_spec E σ2 s' hh2
  rw [hc] at e1
  exact normalize_injective E.lmmodel_ s s' hL hL' hz hz' (hok.2 _ _ _ e1 e2)

theorem normalization_never_merges_witness :
    trigramModel.getLength ⟨[5, 9], 1⟩ ≤ trigramModel.Order - 1 ∧
    trigramModel.getLength ⟨[5, 3], 1⟩ ≤ trigramModel.Order - 1 ∧
    (∀ k, k < trigramModel.getLength ⟨[5, 9], 1⟩ → trigramModel.words ⟨[5, 9], 1⟩ k ≠ 0) ∧
    (∀ k, k < trigramModel.getLength ⟨[5, 3], 1⟩ → trigramModel.words ⟨[5, 3], 1⟩ k ≠ 0) ∧
    Later trigramConfig (EngineState.fresh trigramConfig 0) (EngineState.fresh trigramConfig 0) ∧
    Later trigramConfig
      (add trigramConfig (EngineState.fresh trigramConfig 0) ⟨[5, 9], 1⟩ 2
        (Multiplicative.ofAdd 0)).2
      (add trigramConfig (EngineState.fresh trigramConfig 0) ⟨[5, 9], 1⟩ 2
        (Multiplicative.ofAdd 0)).2 ∧
    contextId trigramConfig (EngineState.fresh trigramConfig 0) ⟨[5, 9], 1⟩ =
      contextId trigramConfig (add trigramConfig (EngineState.fresh trigramConfig 0)
        ⟨[5, 9], 1⟩ 2 (Multiplicative.ofAdd 0)).2 ⟨[5, 3], 1⟩ ∧
    (trigramModel.getLength ⟨[5, 9], 1⟩ = trigramModel.getLength ⟨[5, 3], 1⟩ ∧
      ∀ k, k < trigramModel.getLength ⟨[5, 9], 1⟩ →
        trigramModel.words ⟨[5, 9], 1⟩ k = trigramModel.words ⟨[5, 3], 1⟩ k) :=
  ⟨by decide, by decide, by decide, by decide, Later_refl trigramConfig _,
    Later_refl trigramConfig _, by decide,
    normalization_never_merges trigramConfig 0 (EngineState.fresh trigramConfig 0)
      (add trigramConfig (EngineState.fresh trigramConfig 0) ⟨[5, 9], 1⟩ 2
        (Multiplicative.ofAdd 0)).2
      ⟨[5, 9], 1⟩ ⟨[5, 3], 1⟩ 2 (Multiplicative.ofAdd 0)
      (by decide) (by decide) (by decide) (by decide)
      (Later_refl trigramConfig _) (Later_refl trigramConfig _) (by decide)⟩

end ClaimC19

end fst
